import Mathlib

set_option maxHeartbeats 1000000

/-
  Verification development for the graphformatter layout engine.

  The embedding below is a shallow model of the code in
  Source/GraphFormatter/Private/FormatterGraph.cpp and
  Source/GraphFormatter/Private/FastAndSimplePositioningStrategy.cpp.
  Pointers are modelled by guids (the code itself keys all of its maps by
  guid), C++ TArray by List, TSet by insertion-ordered duplicate-free List,
  and float by the rationals.
-/

namespace GraphFormatter

/-- Pin direction, mirroring EEdGraphPinDirection (EGPD_Input / EGPD_Output). -/
inductive Dir where
  | input : Dir
  | output : Dir
deriving DecidableEq, Repr

/-- FFormatterPin: Guid, Direction and OwningNode.  The OwningNode back
    pointer is modelled by the guid of the owning node. -/
structure FPin where
  guid : Nat
  dir : Dir
  owner : Nat
deriving DecidableEq, Repr

/-- FFormatterEdge: a From pin and a To pin (the FromIndex / ToIndex fields
    are transient ordering data and are modelled separately where used). -/
structure FEdge where
  fromPin : FPin
  toPin : FPin
deriving DecidableEq, Repr

/-- FFormatterNode: guid, the ordered pin lists and the two edge lists. -/
structure FNode where
  guid : Nat
  inPins : List FPin
  outPins : List FPin
  inEdges : List FEdge
  outEdges : List FEdge
deriving DecidableEq, Repr

/-- FFormatterGraph: the owned node list. -/
structure FGraph where
  nodes : List FNode
deriving DecidableEq, Repr

/-- FFormatterNode::IsSource: no incoming edges. -/
def FNode.isSource (n : FNode) : Bool := n.inEdges.length == 0

/-- FFormatterNode::IsSink: no outgoing edges. -/
def FNode.isSink (n : FNode) : Bool := n.outEdges.length == 0

/-- The quantity OutEdges.Num() - InEdges.Num() used by FindMedianNode. -/
def FNode.degreeDiff (n : FNode) : Int :=
  (n.outEdges.length : Int) - (n.inEdges.length : Int)

/-- The loop body of FFormatterGraph::FindMedianNode: scan the node list
    keeping the running maximum degree difference (starting at 0) and the
    current result (starting at null); the update fires on DegreeDiff >=
    MaxDegreeDiff. -/
def fmAux : List FNode → Int → Option FNode → Option FNode
  | [], _, r => r
  | n :: t, mx, r =>
      if n.degreeDiff ≥ mx then fmAux t n.degreeDiff (some n) else fmAux t mx r

/-- FFormatterGraph::FindMedianNode. -/
def FGraph.findMedianNode (g : FGraph) : Option FNode :=
  fmAux g.nodes 0 none

/-- FFormatterGraph::FindSourceNode: first node with no in edges. -/
def FGraph.findSourceNode (g : FGraph) : Option FNode :=
  g.nodes.find? (·.isSource)

/-- FFormatterGraph::FindSinkNode: first node with no out edges. -/
def FGraph.findSinkNode (g : FGraph) : Option FNode :=
  g.nodes.find? (·.isSink)

/-- NodesMap lookup: find a node by guid. -/
def FGraph.findNode (g : FGraph) (γ : Nat) : Option FNode :=
  g.nodes.find? (·.guid == γ)

/-- All pins of a node in registration order (AddNode registers InPins,
    then OutPins). -/
def FNode.allPins (n : FNode) : List FPin :=
  n.inPins ++ n.outPins

/-- All pins registered in the graph (the PinsMap contents). -/
def allPinsG (g : FGraph) : List FPin :=
  (g.nodes.map FNode.allPins).flatten

/-- PinsMap lookup: find a pin by guid. -/
def FGraph.findPin (g : FGraph) (γ : Nat) : Option FPin :=
  (allPinsG g).find? (·.guid == γ)

/-- Both edge lists of a node. -/
def nodeEdges (n : FNode) : List FEdge :=
  n.inEdges ++ n.outEdges

/-- Remove the first edge whose From and To pins have the given guids.
    The code compares pin pointers; pin guids model pointer identity. -/
def erasePair (l : List FEdge) (s t : FPin) : List FEdge :=
  l.eraseP (fun e => e.fromPin.guid == s.guid && e.toPin.guid == t.guid)

/-- FFormatterNode::Disconnect: drop the first matching edge from the list
    selected by the direction of the source pin. -/
def FNode.disconnect (n : FNode) (s t : FPin) : FNode :=
  if s.dir = Dir.output then
    { n with outEdges := erasePair n.outEdges s t }
  else
    { n with inEdges := erasePair n.inEdges s t }

/-- FFormatterNode::Connect: append a new edge to the list selected by the
    direction of the source pin. -/
def FNode.connect (n : FNode) (s t : FPin) : FNode :=
  if s.dir = Dir.output then
    { n with outEdges := n.outEdges ++ [⟨s, t⟩] }
  else
    { n with inEdges := n.inEdges ++ [⟨s, t⟩] }

/-- Mutate the node with the given guid (the code mutates the node object
    through a pointer; the guid identifies it). -/
def FGraph.modifyNode (g : FGraph) (γ : Nat) (f : FNode → FNode) : FGraph :=
  ⟨g.nodes.map (fun n => if n.guid == γ then f n else n)⟩

/-- For each edge of the request list, disconnect the counterpart entry at
    the node owning the To pin: Edge.To.OwningNode.Disconnect(Edge.To,
    Edge.From).  Used by RemoveNode for both edge lists. -/
def disconnectDuals (g : FGraph) (reqs : List FEdge) : FGraph :=
  reqs.foldl
    (fun (h : FGraph) e =>
      h.modifyNode e.toPin.owner (fun m => m.disconnect e.toPin e.fromPin)) g

/-- FFormatterGraph::RemoveNode: disconnect the counterpart of every in
    edge, then of every out edge still held by the node (the in pass may
    already have removed self loop entries), then drop the node. -/
def FGraph.removeNode (g : FGraph) (nd : FNode) : FGraph :=
  let g1 := disconnectDuals g nd.inEdges
  let ndCur := (g1.findNode nd.guid).getD nd
  let g2 := disconnectDuals g1 ndCur.outEdges
  ⟨g2.nodes.filter (fun n => n.guid != nd.guid)⟩

/-- The FFormatterNode copy constructor: guid and pins are copied with
    identical guids; the edge lists are rebuilt afterwards by the graph
    copy constructor. -/
def FNode.cloneNode (n : FNode) : FNode :=
  { n with inEdges := [], outEdges := [] }

/-- The edge reconnection loops of the FFormatterGraph copy constructor for
    one source node: resolve both pins through the guid keyed pin map of
    the clone and Connect them on the clone of the owning node. -/
def rebuildEdges (other : FNode) (g : FGraph) : FGraph :=
  let g1 := other.inEdges.foldl
    (fun (h : FGraph) e =>
      match h.findPin e.fromPin.guid, h.findPin e.toPin.guid with
      | some f, some t => h.modifyNode other.guid (fun m => m.connect f t)
      | _, _ => h) g
  other.outEdges.foldl
    (fun (h : FGraph) e =>
      match h.findPin e.fromPin.guid, h.findPin e.toPin.guid with
      | some f, some t => h.modifyNode other.guid (fun m => m.connect f t)
      | _, _ => h) g1

/-- The FFormatterGraph copy constructor: clone every node (pins keep
    their guids), then reconnect every edge of every source node. -/
def FGraph.cloneGraph (g : FGraph) : FGraph :=
  let base : FGraph := ⟨g.nodes.map FNode.cloneNode⟩
  g.nodes.foldl (fun h other => rebuildEdges other h) base

/-- The source elimination loop of RemoveCycle.  The C++ loop is unbounded;
    one unit of fuel is consumed per removed node, so fuel equal to the
    node count makes the fuelled loop agree with the unbounded loop. -/
def removeSourcesLoopF : Nat → FGraph → FGraph
  | 0, g => g
  | fuel + 1, g =>
      match g.findSourceNode with
      | none => g
      | some n => removeSourcesLoopF fuel (g.removeNode n)

def FGraph.removeSourcesLoop (g : FGraph) : FGraph :=
  removeSourcesLoopF g.nodes.length g

/-- The sink elimination loop of RemoveCycle. -/
def removeSinksLoopF : Nat → FGraph → FGraph
  | 0, g => g
  | fuel + 1, g =>
      match g.findSinkNode with
      | none => g
      | some n => removeSinksLoopF fuel (g.removeNode n)

def FGraph.removeSinksLoop (g : FGraph) : FGraph :=
  removeSinksLoopF g.nodes.length g

/-- One original-graph mutation step of the median loop: for one in edge of
    the clone median node, resolve both pins in the original through the
    guid keyed pin map, Disconnect(From, To) on the median node of the
    original and Disconnect(To, From) on the node owning To. -/
def medianDisconnectStep (mnGuid : Nat) (o : FGraph) (e : FEdge) : FGraph :=
  match o.findPin e.fromPin.guid, o.findPin e.toPin.guid with
  | some f, some t =>
      let o1 := o.modifyNode mnGuid (fun m => m.disconnect f t)
      o1.modifyNode t.owner (fun m => m.disconnect t f)
  | _, _ => o

/-- The median elimination loop of RemoveCycle: while the clone has a
    median node, delete the counterparts of its in edges from the original
    graph and remove the node from the clone. -/
def medianLoopF : Nat → FGraph → FGraph → FGraph × FGraph
  | 0, orig, clone => (orig, clone)
  | fuel + 1, orig, clone =>
      match clone.findMedianNode with
      | none => (orig, clone)
      | some mn =>
          let orig2 := mn.inEdges.foldl (medianDisconnectStep mn.guid) orig
          medianLoopF fuel orig2 (clone.removeNode mn)

/-- FFormatterGraph::RemoveCycle: run the three elimination loops on a
    clone, mutating the original only in the median loop, and return the
    mutated original (the clone is deleted). -/
def FGraph.removeCycle (g : FGraph) : FGraph :=
  let cl := g.cloneGraph
  let cl1 := cl.removeSourcesLoop
  let cl2 := cl1.removeSinksLoop
  (medianLoopF cl2.nodes.length g cl2).1

/-- Node guids are pairwise distinct (the code indexes nodes by guid). -/
@[reducible] def GuidsNodup (g : FGraph) : Prop :=
  (g.nodes.map (·.guid)).Nodup

/-- All pins occurring in the graph, in pin lists or inside edges. -/
def occPins (g : FGraph) : List FPin :=
  allPinsG g ++
    (g.nodes.map (fun n => (nodeEdges n).map (·.fromPin) ++ (nodeEdges n).map (·.toPin))).flatten

/-- A pin guid determines the pin (the code indexes pins by guid). -/
@[reducible] def PinsUnique (g : FGraph) : Prop :=
  ∀ p ∈ occPins g, ∀ q ∈ occPins g, p.guid = q.guid → p = q

/-- Every edge entry sits in the list of the node owning its From pin, with
    the directions induced by Connect. -/
@[reducible] def EdgesOwned (g : FGraph) : Prop :=
  ∀ n ∈ g.nodes,
    (∀ e ∈ n.inEdges,
      e.fromPin.owner = n.guid ∧ e.fromPin.dir = Dir.input ∧ e.toPin.dir = Dir.output) ∧
    (∀ e ∈ n.outEdges,
      e.fromPin.owner = n.guid ∧ e.fromPin.dir = Dir.output ∧ e.toPin.dir = Dir.input)

/-- Guid pairs of all out edge entries of the graph. -/
def outPairs (g : FGraph) : List (Nat × Nat) :=
  (g.nodes.map (fun n => n.outEdges.map (fun e => (e.fromPin.guid, e.toPin.guid)))).flatten

/-- Swapped guid pairs of all in edge entries of the graph. -/
def inPairsSw (g : FGraph) : List (Nat × Nat) :=
  (g.nodes.map (fun n => n.inEdges.map (fun e => (e.toPin.guid, e.fromPin.guid)))).flatten

/-- The dual representation invariant: every conceptual edge appears once
    in the tail node out list and once in the head node in list. -/
@[reducible] def Consistent (g : FGraph) : Prop :=
  List.Perm (outPairs g) (inPairsSw g)

/-- The well-formedness the construction phase guarantees. -/
@[reducible] def WF (g : FGraph) : Prop :=
  GuidsNodup g ∧ PinsUnique g ∧ EdgesOwned g ∧ Consistent g

/-- Every edge pin is resolvable to itself via the guid keyed pin map. -/
@[reducible] def PinsResolvable (g : FGraph) : Prop :=
  ∀ n ∈ g.nodes, ∀ e ∈ nodeEdges n,
    g.findPin e.fromPin.guid = some e.fromPin ∧ g.findPin e.toPin.guid = some e.toPin

/-- Every edge target owner is a node of the graph. -/
@[reducible] def ClosedG (g : FGraph) : Prop :=
  ∀ n ∈ g.nodes, ∀ e ∈ nodeEdges n, e.toPin.owner ∈ g.nodes.map (·.guid)

/-- Guid pairs of the out edge entries of one node. -/
def nodeOutPairs (n : FNode) : List (Nat × Nat) :=
  n.outEdges.map (fun e => (e.fromPin.guid, e.toPin.guid))

/-- Swapped guid pairs of the in edge entries of one node. -/
def nodeInPairsSw (n : FNode) : List (Nat × Nat) :=
  n.inEdges.map (fun e => (e.toPin.guid, e.fromPin.guid))

/-- The guid pair erased by Disconnect(Edge.To, Edge.From). -/
def reqPair (e : FEdge) : Nat × Nat :=
  (e.toPin.guid, e.fromPin.guid)

/-- The swapped guid pair erased from an in edge list by
    Disconnect(Edge.To, Edge.From) when the To pin is an input pin. -/
def reqPairIn (e : FEdge) : Nat × Nat :=
  (e.fromPin.guid, e.toPin.guid)

/-- The pointwise effect of disconnectDuals on a single node. -/
def applyReqsToNode (reqs : List FEdge) (n : FNode) : FNode :=
  reqs.foldl
    (fun n e => if n.guid == e.toPin.owner then n.disconnect e.toPin e.fromPin else n) n

/-- A graph is acyclic when some measure on node guids strictly decreases
    along every out edge; a finite directed graph admits such a measure
    exactly when it has no directed cycle. -/
def FGraph.Acyclic (g : FGraph) : Prop :=
  ∃ f : Nat → Nat, ∀ n ∈ g.nodes, ∀ e ∈ n.outEdges, f e.toPin.owner < f n.guid

/-- The 3-cycle test graph A to B to C to A, nodes listed in order A, B, C,
    every edge recorded in both incident edge lists. -/
def pinAI : FPin := ⟨10, Dir.input, 1⟩
def pinAO : FPin := ⟨11, Dir.output, 1⟩
def pinBI : FPin := ⟨20, Dir.input, 2⟩
def pinBO : FPin := ⟨21, Dir.output, 2⟩
def pinCI : FPin := ⟨30, Dir.input, 3⟩
def pinCO : FPin := ⟨31, Dir.output, 3⟩

def cycle3 : FGraph :=
  ⟨[⟨1, [pinAI], [pinAO], [⟨pinAI, pinCO⟩], [⟨pinAO, pinBI⟩]⟩,
    ⟨2, [pinBI], [pinBO], [⟨pinBI, pinAO⟩], [⟨pinBO, pinCI⟩]⟩,
    ⟨3, [pinCI], [pinCO], [⟨pinCI, pinBO⟩], [⟨pinCO, pinAI⟩]⟩]⟩

/-- Helper predicate: some node of the list has degree difference at least
    the given bound. -/
def anyDiffGE (l : List FNode) (mx : Int) : Prop :=
  ∃ n ∈ l, mx ≤ n.degreeDiff

/-- The transient FromIndex / ToIndex pair an edge carries during the
    ordering phase. -/
structure IdxEdge where
  fromIndex : Nat
  toIndex : Nat
deriving DecidableEq, Repr

/-- FFormatterEdge::IsCrossing. -/
def isCrossing (e1 e2 : IdxEdge) : Bool :=
  (decide (e1.fromIndex < e2.fromIndex) && decide (e1.toIndex > e2.toIndex)) ||
  (decide (e1.fromIndex > e2.fromIndex) && decide (e1.toIndex < e2.toIndex))

/-- FFormatterNode::GetInputPinIndex, by guid (pointer identity).  The code
    returns INDEX_NONE when the pin is missing; under well-formed inputs the
    pin is always present. -/
def FNode.inPinIndex (n : FNode) (p : FPin) : Nat :=
  n.inPins.findIdx (fun q => q.guid == p.guid)

/-- FFormatterNode::GetOutputPinIndex, by guid. -/
def FNode.outPinIndex (n : FNode) (p : FPin) : Nat :=
  n.outPins.findIdx (fun q => q.guid == p.guid)

/-- The inner layer scan of FFormatterNode::GetEdgeLinkedToLayer for one
    edge: walk the layer accumulating pin counts of the side selected by
    the direction; when the node owning the To pin is met, add the pin
    index, record (FromIndex, ToIndex) and keep scanning with the updated
    index exactly as the code does. -/
def scanLayer (g : FGraph) (n : FNode) (e : FEdge) (dir : Dir) (startIndex : Nat) :
    List Nat → Nat → List IdxEdge
  | [], _ => []
  | γ :: rest, idx =>
      match g.findNode γ with
      | none => scanLayer g n e dir startIndex rest idx
      | some m =>
          if e.toPin.owner ≠ γ then
            scanLayer g n e dir startIndex rest
              (idx + (if dir = Dir.output then m.inPins.length else m.outPins.length))
          else
            let idx2 := idx +
              (if dir = Dir.output then m.inPinIndex e.toPin else m.outPinIndex e.toPin)
            ⟨startIndex +
                (if dir = Dir.output then n.outPinIndex e.fromPin else n.inPinIndex e.fromPin),
              idx2⟩ :: scanLayer g n e dir startIndex rest idx2

/-- FFormatterNode::GetEdgeLinkedToLayer: the index scan restarts at 0 for
    every edge of the selected edge list. -/
def getEdgeLinkedToLayer (g : FGraph) (n : FNode) (layer : List Nat) (startIndex : Nat)
    (dir : Dir) : List IdxEdge :=
  ((if dir = Dir.output then n.outEdges else n.inEdges).map
    (fun e => scanLayer g n e dir startIndex layer 0)).flatten

/-- FFormatterNode::CalcBarycenter: mean ToIndex of the edges linked to the
    layer, 0 when there are none.  Floats are modelled by the rationals. -/
def calcBarycenter (g : FGraph) (n : FNode) (layer : List Nat) (startIndex : Nat)
    (dir : Dir) : ℚ :=
  let edges := getEdgeLinkedToLayer g n layer startIndex dir
  if edges.length = 0 then 0
  else ((edges.map (fun e => (e.toIndex : ℚ))).sum) / (edges.length : ℚ)

/-- Order values of a free layer: the running StartIndex accumulates the
    pin count of the side selected by the direction. -/
def computeOrderValues (g : FGraph) (fixed : List Nat) (dir : Dir) :
    List Nat → Nat → List (Nat × ℚ)
  | [], _ => []
  | γ :: rest, start =>
      match g.findNode γ with
      | none => (γ, 0) :: computeOrderValues g fixed dir rest start
      | some n =>
          (γ, calcBarycenter g n fixed start dir) ::
            computeOrderValues g fixed dir rest
              (start + (if dir = Dir.output then n.outPins.length else n.inPins.length))

/-- Insertion sort by order value (TArray::Sort with OrderValue comparison;
    the engine sort leaves ties in unspecified order, insertion sort fixes
    one deterministic choice). -/
def insertByValue (p : Nat × ℚ) : List (Nat × ℚ) → List (Nat × ℚ)
  | [] => [p]
  | q :: t => if p.2 < q.2 then p :: q :: t else q :: insertByValue p t

def sortByValue : List (Nat × ℚ) → List (Nat × ℚ)
  | [] => []
  | p :: t => insertByValue p (sortByValue t)

/-- One free layer step of FFormatterGraph::SortInLayer. -/
def sortLayer (g : FGraph) (fixed free : List Nat) (dir : Dir) : List Nat :=
  (sortByValue (computeOrderValues g fixed dir free 0)).map (·.1)

/-- The forward sweep of SortInLayer (EGPD_Input): each free layer is
    sorted against the already processed previous layer. -/
def sortPassInputGo (g : FGraph) (fixed : List Nat) : List (List Nat) → List (List Nat)
  | [] => []
  | free :: rest =>
      sortLayer g fixed free Dir.input :: sortPassInputGo g (sortLayer g fixed free Dir.input) rest

def sortPassInput (g : FGraph) : List (List Nat) → List (List Nat)
  | [] => []
  | l1 :: rest => l1 :: sortPassInputGo g l1 rest

/-- The backward sweep of SortInLayer (EGPD_Output): layers are processed
    from the last one backwards, each free layer sorted against the already
    processed next layer. -/
def sortPassOutput (g : FGraph) : List (List Nat) → List (List Nat)
  | [] => []
  | [l] => [l]
  | l1 :: l2 :: rest =>
      match sortPassOutput g (l2 :: rest) with
      | [] => [l1]
      | l2p :: restp => sortLayer g l2p l1 Dir.output :: l2p :: restp

/-- FFormatterGraph::SortInLayer. -/
def sortInLayer (g : FGraph) (order : List (List Nat)) (dir : Dir) : List (List Nat) :=
  if dir = Dir.output then sortPassOutput g order else sortPassInput g order

/-- GetEdgeBetweenTwoLayer: the running index over the first layer
    accumulates the pin counts of the side selected by the direction. -/
def edgesBetweenLayers (g : FGraph) (layer2 : List Nat) (dir : Dir) :
    List Nat → Nat → List IdxEdge
  | [], _ => []
  | γ :: rest, idx =>
      match g.findNode γ with
      | none => edgesBetweenLayers g layer2 dir rest idx
      | some n =>
          getEdgeLinkedToLayer g n layer2 idx dir
            ++ edgesBetweenLayers g layer2 dir rest
                (idx + (if dir = Dir.output then n.outPins.length else n.inPins.length))

def getEdgeBetweenTwoLayer (g : FGraph) (layer1 layer2 : List Nat) (dir : Dir) :
    List IdxEdge :=
  edgesBetweenLayers g layer2 dir layer1 0

/-- The pop loop of CalculateCrossing: repeatedly pop the last edge and
    count its crossings with the remaining edges.  Popping the last element
    is the head of the reversed list, which keeps the recursion
    structural. -/
def crossingLoopRev : List IdxEdge → Nat
  | [] => 0
  | e1 :: rest => (rest.reverse.countP (fun e2 => isCrossing e1 e2)) + crossingLoopRev rest

def crossingLoop (es : List IdxEdge) : Nat :=
  crossingLoopRev es.reverse

/-- CalculateCrossing: sum the pairwise crossing counts of every adjacent
    layer pair. -/
def calculateCrossing (g : FGraph) : List (List Nat) → Nat
  | [] => 0
  | [_] => 0
  | l1 :: l2 :: rest =>
      crossingLoop (getEdgeBetweenTwoLayer g l1 l2 Dir.output)
        + calculateCrossing g (l2 :: rest)

/-- The inversion formula of the crossing predicate, as stated by the
    specification. -/
@[reducible] def inverted (e1 e2 : IdxEdge) : Prop :=
  (e1.fromIndex < e2.fromIndex ∧ e2.toIndex < e1.toIndex) ∨
  (e2.fromIndex < e1.fromIndex ∧ e1.toIndex < e2.toIndex)

/-- Brute force unordered pair count of inverted edge pairs. -/
def bruteForceCount : List IdxEdge → Nat
  | [] => 0
  | e :: es => (es.countP (fun e2 => decide (inverted e e2))) + bruteForceCount es

/-- Brute force crossing count over every adjacent layer pair. -/
def bruteForceCrossing (g : FGraph) : List (List Nat) → Nat
  | [] => 0
  | [_] => 0
  | l1 :: l2 :: rest =>
      bruteForceCount (getEdgeBetweenTwoLayer g l1 l2 Dir.output)
        + bruteForceCrossing g (l2 :: rest)

/-- The iteration loop of FFormatterGraph::DoOrderingSweep: alternate the
    sweep direction by the parity of the iteration index and keep the best
    seen ordering under CalculateCrossing. -/
def doOrderingSweepGo (g : FGraph) :
    Nat → Nat → List (List Nat) → List (List Nat) → List (List Nat)
  | 0, _, _, best => best
  | r + 1, i, order, best =>
      let order2 := sortInLayer g order (if i % 2 = 0 then Dir.input else Dir.output)
      let best2 := if calculateCrossing g order2 < calculateCrossing g best
        then order2 else best
      doOrderingSweepGo g r (i + 1) order2 best2

/-- FFormatterGraph::DoOrderingSweep with the iteration cap
    MaxOrderingIterations as a parameter. -/
def doOrderingSweep (g : FGraph) (layeredList : List (List Nat)) (maxIter : Nat) :
    List (List Nat) :=
  doOrderingSweepGo g maxIter 0 layeredList layeredList

/-- The ordering produced after j sweep passes. -/
def orderIter (g : FGraph) (ll : List (List Nat)) : Nat → List (List Nat)
  | 0 => ll
  | j + 1 => sortInLayer g (orderIter g ll j) (if j % 2 = 0 then Dir.input else Dir.output)

/-- A two layer test graph: nodes 1, 2 above, 3, 4 below, with the
    crossing edges 1 to 4 and 2 to 3. -/
def pin1O : FPin := ⟨111, Dir.output, 1⟩
def pin2O : FPin := ⟨121, Dir.output, 2⟩
def pin3I : FPin := ⟨131, Dir.input, 3⟩
def pin4I : FPin := ⟨141, Dir.input, 4⟩

def ordG : FGraph :=
  ⟨[⟨1, [], [pin1O], [], [⟨pin1O, pin4I⟩]⟩,
    ⟨2, [], [pin2O], [], [⟨pin2O, pin3I⟩]⟩,
    ⟨3, [pin3I], [], [⟨pin3I, pin2O⟩], []⟩,
    ⟨4, [pin4I], [], [⟨pin4I, pin1O⟩], []⟩]⟩

def ordLL : List (List Nat) := [[1, 2], [3, 4]]

/-- The expected result of RemoveCycle on the 3-cycle: the median loop
    picks C (the last node with maximal degree difference) and deletes its
    in edge B to C from the graph; A to B and C to A survive. -/
def cycle3Removed : FGraph :=
  ⟨[⟨1, [pinAI], [pinAO], [⟨pinAI, pinCO⟩], [⟨pinAO, pinBI⟩]⟩,
    ⟨2, [pinBI], [pinBO], [⟨pinBI, pinAO⟩], []⟩,
    ⟨3, [pinCI], [pinCO], [], [⟨pinCO, pinAI⟩]⟩]⟩

/-- FFormatterNode::AnySuccessorPathDepthEqu0, with the PathDepth fields
    modelled as a map from node guid to depth (0 means unassigned). -/
def anySucc0 (d : Nat → Nat) (n : FNode) : Bool :=
  n.outEdges.any (fun e => d e.toPin.owner == 0)

/-- FFormatterGraph::GetLeavesWidthPathDepthEqu0. -/
def leaves0 (g : FGraph) (d : Nat → Nat) : List FNode :=
  g.nodes.filter (fun n => d n.guid == 0 && !anySucc0 d n)

/-- One round of CalculateLongestPath: set every leaf PathDepth to the
    running LongestPath value. -/
def assignLeaves (ls : List FNode) (cur : Nat) (d : Nat → Nat) : Nat → Nat :=
  fun γ => if ls.any (fun n => n.guid == γ) then cur else d γ

/-- The CalculateLongestPath loop, fuelled; returns the final PathDepth map
    and the returned LongestPath value (the loop counter minus one). -/
def clpAux (g : FGraph) : Nat → (Nat → Nat) → Nat → ((Nat → Nat) × Nat)
  | 0, d, cur => (d, cur - 1)
  | fuel + 1, d, cur =>
      if (leaves0 g d).isEmpty then (d, cur - 1)
      else clpAux g fuel (assignLeaves (leaves0 g d) cur d) (cur + 1)

/-- The PathDepth map after FFormatterGraph::CalculateLongestPath; fuel
    Nodes.Num()+1 always reaches the fixed point, because every productive
    round assigns a nonzero depth to at least one PathDepth 0 node. -/
def depthMap (g : FGraph) : Nat → Nat :=
  (clpAux g (g.nodes.length + 1) (fun _ => 0) 1).1

/-- The value returned by FFormatterGraph::CalculateLongestPath. -/
def longestPath (g : FGraph) : Nat :=
  (clpAux g (g.nodes.length + 1) (fun _ => 0) 1).2

/-- The number of nodes whose PathDepth is still 0 (the quantity each
    productive CalculateLongestPath round strictly decreases). -/
def countZero (g : FGraph) (d : Nat → Nat) : Nat :=
  g.nodes.countP (fun n => d n.guid == 0)

/-- The invariant CalculateLongestPath maintains: along every out edge of an
    assigned node the successor is already assigned a strictly smaller
    depth. -/
def EdgeResp (g : FGraph) (d : Nat → Nat) : Prop :=
  ∀ u ∈ g.nodes, ∀ e ∈ u.outEdges, d u.guid ≠ 0 →
    d e.toPin.owner ≠ 0 ∧ d e.toPin.owner < d u.guid

/-- All predecessors (in edge remote owners, as FFormatterNode
    GetPredecessors enumerates them) lie in the processed set. -/
def predsAllIn (s : List Nat) (n : FNode) : Bool :=
  n.inEdges.all (fun e => s.contains e.toPin.owner)

/-- TSet::Add: append when not already present. -/
def addUnique (l : List Nat) (a : Nat) : List Nat :=
  if l.contains a then l else l ++ [a]

/-- A TSet built from a candidate list: first occurrences, in order. -/
def tsetArray (l : List Nat) : List Nat :=
  l.foldl addUnique []

/-- One iteration of the DoLayering loop at counter value i with processed
    set s: the candidates are GetNodesGreaterThan(i, Set) followed by
    GetSuccessorsForNodes(Set), and a candidate enters the layer TSet when
    all its predecessors already lie in Set. -/
def layerStep (g : FGraph) (d : Nat → Nat) (i : Nat) (s : List Nat) : List Nat :=
  let gtGuids := (g.nodes.filter
    (fun n => !s.contains n.guid && decide (i ≤ d n.guid))).map (·.guid)
  let succGuids := ((g.nodes.filter (fun n => s.contains n.guid)).map
    (fun n => (n.outEdges.map (fun e => e.toPin.owner)).filter
      (fun γ => !s.contains γ))).flatten
  tsetArray ((gtGuids ++ succGuids).filter (fun γ =>
    match g.findNode γ with
    | some n => predsAllIn s n
    | none => false))

/-- The DoLayering loop from counter value i down to 1, accumulating the
    processed set. -/
def doLayeringAux (g : FGraph) (d : Nat → Nat) : Nat → List Nat → List (List Nat)
  | 0, _ => []
  | i + 1, s =>
      let layer := layerStep g d (i + 1) s
      layer :: doLayeringAux g d i (s ++ layer)

/-- FFormatterGraph::DoLayering: the layered list of node guids, one list
    per rank in top down order (the order of nodes inside a layer plays no
    role here). -/
def FGraph.doLayering (g : FGraph) : List (List Nat) :=
  doLayeringAux g (depthMap g) (longestPath g) []

/-- The FFormatterNode default constructor: a synthetic node with exactly
    one input pin and one output pin; the three fresh FGuid::NewGuid values
    are modelled by a counter. -/
def mkDummy (c : Nat) : FNode :=
  ⟨c, [⟨c + 1, Dir.input, c⟩], [⟨c + 2, Dir.output, c⟩], [], []⟩

/-- The body of the long edge loop of AddDummyNodes: disconnect the long
    edge at the tail, add a fresh dummy node, connect tail to dummy (both
    representations) and dummy to the old head (both representations). -/
def processEdge (g : FGraph) (γ : Nat) (e : FEdge) (c : Nat) : FGraph :=
  let g1 := g.modifyNode γ (fun n => n.disconnect e.fromPin e.toPin)
  let g2 : FGraph := ⟨g1.nodes ++ [mkDummy c]⟩
  let g3 := g2.modifyNode γ (fun n => n.connect e.fromPin ⟨c + 1, Dir.input, c⟩)
  let g4 := g3.modifyNode c (fun n => n.connect ⟨c + 1, Dir.input, c⟩ e.fromPin)
  let g5 := g4.modifyNode c (fun n => n.connect ⟨c + 2, Dir.output, c⟩ e.toPin)
  g5.modifyNode e.toPin.owner (fun n => n.connect e.toPin ⟨c + 2, Dir.output, c⟩)

/-- Process the collected long edges of one node: each spawns one dummy,
    appended to the next layer, and advances the guid counter by three. -/
def processEdges (γ : Nat) : List FEdge → FGraph → List Nat → Nat →
    FGraph × List Nat × Nat
  | [], g, nl, c => (g, nl, c)
  | e :: rest, g, nl, c => processEdges γ rest (processEdge g γ e c) (nl ++ [c]) (c + 3)

/-- Process one node of the current layer: collect its long out edges
    (those whose head does not lie in the next layer) and replace each. -/
def processNode (g : FGraph) (γ : Nat) (nl : List Nat) (c : Nat) :
    FGraph × List Nat × Nat :=
  match g.findNode γ with
  | none => (g, nl, c)
  | some n =>
      processEdges γ (n.outEdges.filter (fun e => !nl.contains e.toPin.owner)) g nl c

/-- Process every node of the current layer in order; the next layer grows
    as dummies are appended. -/
def processLayer : List Nat → FGraph → List Nat → Nat → FGraph × List Nat × Nat
  | [], g, nl, c => (g, nl, c)
  | γ :: rest, g, nl, c =>
      let r := processNode g γ nl c
      processLayer rest r.1 r.2.1 r.2.2

/-- The AddDummyNodes outer loop over consecutive layer pairs; the current
    layer is the accumulator, the updated next layer is carried into the
    following iteration. -/
def adAux : List (List Nat) → List Nat → FGraph → Nat →
    FGraph × List (List Nat) × Nat
  | [], cur, g, c => (g, [cur], c)
  | l2 :: rest, cur, g, c =>
      let r := processLayer cur g l2 c
      let r2 := adAux rest r.2.1 r.1 r.2.2
      (r2.1, cur :: r2.2.1, r2.2.2)

/-- FFormatterGraph::AddDummyNodes on a graph with its layered list; c is
    the fresh guid counter (FGuid::NewGuid never collides with an existing
    guid). -/
def addDummyNodes (g : FGraph) (ll : List (List Nat)) (c : Nat) :
    FGraph × List (List Nat) :=
  match ll with
  | [] => (g, [])
  | l1 :: rest => ((adAux rest l1 g c).1, (adAux rest l1 g c).2.1)

/-- Every edge stored at a node whose guid lies in some layer points to an
    owner in a strictly later layer of the layered list. -/
@[reducible] def Forward (g : FGraph) (L : List (List Nat)) : Prop :=
  ∀ p ∈ L.enum, ∀ γ ∈ p.2, ∀ n ∈ g.nodes, n.guid = γ → ∀ e ∈ n.outEdges,
    ∃ q ∈ L.enum, p.1 < q.1 ∧ e.toPin.owner ∈ q.2

/-- Every out edge of a node whose guid lies in layer k points to an owner
    in layer k+1: each edge spans exactly one rank boundary. -/
@[reducible] def Adjacent (g : FGraph) (L : List (List Nat)) : Prop :=
  ∀ (k : Nat) (lay : List Nat), L[k]? = some lay → ∀ γ ∈ lay,
    ∀ n ∈ g.nodes, n.guid = γ → ∀ e ∈ n.outEdges,
      ∃ lay2 : List Nat, L[k + 1]? = some lay2 ∧ e.toPin.owner ∈ lay2

/-- The effect of one AddDummyNodes long edge replacement on an already
    present node: the tail loses the long edge and gains an edge into the
    dummy; the old head gains the dual entry of the dummy to head edge. -/
def peNodeMap (e : FEdge) (γ c : Nat) (n : FNode) : FNode :=
  let n1 := if n.guid == γ
    then (n.disconnect e.fromPin e.toPin).connect e.fromPin ⟨c + 1, Dir.input, c⟩
    else n
  if n1.guid == e.toPin.owner then n1.connect e.toPin ⟨c + 2, Dir.output, c⟩ else n1

/-- The dummy node as it stands after one long edge replacement. -/
def peDummy (e : FEdge) (c : Nat) : FNode :=
  ⟨c, [⟨c + 1, Dir.input, c⟩], [⟨c + 2, Dir.output, c⟩],
    [⟨⟨c + 1, Dir.input, c⟩, e.fromPin⟩], [⟨⟨c + 2, Dir.output, c⟩, e.toPin⟩]⟩

/-- Within every node the out edge pin guid pairs are pairwise distinct
    (distinct edge objects never share both endpoint pins). -/
@[reducible] def OutPairsNodup (g : FGraph) : Prop :=
  ∀ n ∈ g.nodes, (nodeOutPairs n).Nodup

/-- All pin guids referenced from edge lists are below the counter. -/
@[reducible] def EdgePinBound (g : FGraph) (c : Nat) : Prop :=
  ∀ n ∈ g.nodes, ∀ e ∈ nodeEdges n, e.fromPin.guid < c ∧ e.toPin.guid < c

/-- Every out edge of a node of the current layer already points into the
    next layer or into one of the remaining layers. -/
@[reducible] def TailsOk (lay : List Nat) (restL : List (List Nat)) (g : FGraph)
    (nl : List Nat) : Prop :=
  ∀ γ ∈ lay, ∀ n ∈ g.nodes, n.guid = γ → ∀ e ∈ n.outEdges,
    e.toPin.owner ∈ nl ∨ ∃ q ∈ restL.enum, e.toPin.owner ∈ q.2

/-- Every out edge of a node of the given set points into the next layer. -/
@[reducible] def DoneOk (lay : List Nat) (g : FGraph) (nl : List Nat) : Prop :=
  ∀ γ ∈ lay, ∀ n ∈ g.nodes, n.guid = γ → ∀ e ∈ n.outEdges, e.toPin.owner ∈ nl

/-- A node of the output graph that keeps an input node pin structure. -/
@[reducible] def PinShape (g : FGraph) (n2 : FNode) : Prop :=
  (∃ n1 ∈ g.nodes, n1.guid = n2.guid ∧ n1.inPins = n2.inPins ∧
    n1.outPins = n2.outPins) ∨
  (n2.inPins.length = 1 ∧ n2.outPins.length = 1)

/-- The bundled state invariant carried through the AddDummyNodes loops. -/
@[reducible] def SInv (g : FGraph) (nl : List Nat) (c : Nat) : Prop :=
  GuidsNodup g ∧ EdgesOwned g ∧ ClosedG g ∧ OutPairsNodup g ∧
  (∀ n ∈ g.nodes, n.guid < c) ∧ EdgePinBound g c ∧
  (∀ x ∈ nl, x < c) ∧ nl.Nodup

/-- Bundled conclusions about the state reached after processing the long
    edges of the node with guid γ. -/
def PEOut (restL : List (List Nat)) (γ : Nat) (g : FGraph) (nl : List Nat)
    (c : Nat) (r : FGraph × List Nat × Nat) : Prop :=
  SInv r.1 r.2.1 r.2.2 ∧ c ≤ r.2.2 ∧
  (∃ ds, r.2.1 = nl ++ ds ∧ ds.Nodup ∧ ∀ x ∈ ds, c ≤ x ∧ x < r.2.2) ∧
  (∀ n ∈ r.1.nodes, n.guid = γ → ∀ x ∈ n.outEdges, x.toPin.owner ∈ r.2.1) ∧
  (∀ n2 ∈ r.1.nodes, n2.guid ≠ γ →
    (∃ n1 ∈ g.nodes, n1.guid = n2.guid ∧ n1.outEdges = n2.outEdges ∧
      n1.inPins = n2.inPins ∧ n1.outPins = n2.outPins) ∨
    (c ≤ n2.guid ∧ n2.guid ∈ r.2.1 ∧ n2.inPins.length = 1 ∧
      n2.outPins.length = 1 ∧
      ∀ x ∈ n2.outEdges, ∃ q ∈ restL.enum, x.toPin.owner ∈ q.2)) ∧
  (∀ n2 ∈ r.1.nodes, PinShape g n2) ∧
  (∀ n : FNode, n.guid ≠ γ → n.guid < c →
    (∀ q ∈ restL.enum, n.guid ∉ q.2) → (n ∈ g.nodes ↔ n ∈ r.1.nodes))

/-- FLT_MAX of the float model: a rational larger than every coordinate the
    positioning phase can produce. -/
def FLT_MAX_Q : ℚ := 2 ^ 128

/-- The LeftMost scan of FFastAndSimplePositioningStrategy::Combine:
    fold over the map entries starting from FLT_MAX. -/
def lmAux : List (Nat × ℚ) → ℚ → ℚ
  | [], acc => acc
  | p :: t, acc => lmAux t (if p.2 < acc then p.2 else acc)

def leftMost (m : List (Nat × ℚ)) : ℚ := lmAux m FLT_MAX_Q

/-- The RightMost scan, starting from -FLT_MAX. -/
def rmAux : List (Nat × ℚ) → ℚ → ℚ
  | [], acc => acc
  | p :: t, acc => rmAux t (if acc < p.2 then p.2 else acc)

def rightMost (m : List (Nat × ℚ)) : ℚ := rmAux m (-FLT_MAX_Q)

/-- The MinWidthIndex scan: strict less than, so the first minimum wins;
    the index starts at -1 and the running width at FLT_MAX. -/
def mwAux : List (List (Nat × ℚ)) → Int → ℚ → Int → Int × ℚ
  | [], bi, bw, _ => (bi, bw)
  | l :: t, bi, bw, i =>
      if rightMost l - leftMost l < bw
      then mwAux t i (rightMost l - leftMost l) (i + 1)
      else mwAux t bi bw (i + 1)

def minWidthIdx (ls : List (List (Nat × ℚ))) : Int := (mwAux ls (-1) FLT_MAX_Q 0).1

/-- The layout stored at the minimum width index. -/
def layoutAt (ls : List (List (Nat × ℚ))) : List (Nat × ℚ) :=
  (ls[(minWidthIdx ls).toNat]?).getD []

/-- Add a constant to every stored coordinate of one layout. -/
def shiftMap (off : ℚ) (m : List (Nat × ℚ)) : List (Nat × ℚ) :=
  m.map (fun p => (p.1, p.2 + off))

/-- The offset pass of Combine: every layout other than the minimum width
    one is shifted so its leftmost coordinate coincides with the minimum
    width layout leftmost coordinate. -/
def combineShift (ls : List (List (Nat × ℚ))) : List (List (Nat × ℚ)) :=
  ls.enum.map (fun p =>
    if (p.1 : Int) = minWidthIdx ls then p.2
    else shiftMap (leftMost (layoutAt ls) - leftMost p.2) p.2)

/-- TMap lookup of a node coordinate. -/
def lookupQ (m : List (Nat × ℚ)) (γ : Nat) : ℚ :=
  ((m.find? (fun p => p.1 == γ)).map Prod.snd).getD 0

/-- TArray::Sort on the four per node values (ascending). -/
def sortQ (l : List ℚ) : List ℚ := l.insertionSort (· ≤ ·)

/-- The combined coordinate of one node: mean of the two middle sorted
    values for the Top method, mean of the two extreme sorted values for
    the Median method. -/
def combinedPos (ls : List (List (Nat × ℚ))) (isTop : Bool) (γ : Nat) : ℚ :=
  let values := sortQ ((combineShift ls).map (fun l => lookupQ l γ))
  if isTop then ((values[1]?).getD 0 + (values[2]?).getD 0) / 2
  else ((values[0]?).getD 0 + (values[3]?).getD 0) / 2

/-- FSlateRect with rational coordinates; a default constructed rect is
    invalid, modelled by Option. -/
structure FRect where
  left : ℚ
  top : ℚ
  right : ℚ
  bottom : ℚ
deriving DecidableEq, Repr

/-- FSlateRect::Expand with another rect: the union bound. -/
def FRect.expand (a b : FRect) : FRect :=
  ⟨min a.left b.left, min a.top b.top, max a.right b.right, max a.bottom b.bottom⟩

/-- FSlateRect::OffsetBy. -/
def FRect.offsetBy (a : FRect) (dx dy : ℚ) : FRect :=
  ⟨a.left + dx, a.top + dy, a.right + dx, a.bottom + dy⟩

/-- FFormatterGraph::SetPosition: offset the whole graph so the bound top
    left corner lands on the given point. -/
def FRect.setTopLeft (a : FRect) (px py : ℚ) : FRect :=
  a.offsetBy (px - a.left) (py - a.top)

/-- The multi component branch of FFormatterGraph::Format, abstracted over
    the bound each isolated sub layout has right after its own Format call:
    every later component is moved to the bottom left corner of the running
    total bound offset down by VerticalSpacing, and the total bound expands
    over the placed bounds.  Returns the placed bounds and the final total
    bound. -/
def formatMultiGo (spacing : ℚ) :
    List FRect → Option FRect → Option FRect → List FRect × Option FRect
  | [], total, _ => ([], total)
  | b :: rest, total, pre =>
      let b2 := match pre with
        | some p => b.setTopLeft p.left p.bottom
        | none => b
      let t2 := match total with
        | some t => t.expand b2
        | none => b2
      let r := formatMultiGo spacing rest (some t2) (some (t2.offsetBy 0 spacing))
      (b2 :: r.1, r.2)

def formatMulti (spacing : ℚ) (bs : List FRect) : List FRect × Option FRect :=
  formatMultiGo spacing bs none none

/-- The running union bound of a list of rects (invalid while empty). -/
def unionBound (l : List FRect) : Option FRect :=
  match l with
  | [] => none
  | b :: rest => some (rest.foldl FRect.expand b)

/-- Bundled conclusions about the state reached after processing a whole
    layer of the AddDummyNodes sweep. -/
def PLOut (lay : List Nat) (restL : List (List Nat)) (g : FGraph)
    (nl : List Nat) (c : Nat) (r : FGraph × List Nat × Nat) : Prop :=
  SInv r.1 r.2.1 r.2.2 ∧ c ≤ r.2.2 ∧
  (∃ ds, r.2.1 = nl ++ ds ∧ ds.Nodup ∧ ∀ x ∈ ds, c ≤ x ∧ x < r.2.2) ∧
  DoneOk lay r.1 r.2.1 ∧
  (∀ n2 ∈ r.1.nodes, n2.guid ∉ lay →
    (∃ n1 ∈ g.nodes, n1.guid = n2.guid ∧ n1.outEdges = n2.outEdges ∧
      n1.inPins = n2.inPins ∧ n1.outPins = n2.outPins) ∨
    (c ≤ n2.guid ∧ n2.guid ∈ r.2.1 ∧ n2.inPins.length = 1 ∧
      n2.outPins.length = 1 ∧
      ∀ x ∈ n2.outEdges, ∃ q ∈ restL.enum, x.toPin.owner ∈ q.2)) ∧
  (∀ n2 ∈ r.1.nodes, PinShape g n2) ∧
  (∀ n : FNode, n.guid ∉ lay → n.guid < c →
    (∀ q ∈ restL.enum, n.guid ∉ q.2) → (n ∈ g.nodes ↔ n ∈ r.1.nodes))

end GraphFormatter

namespace GraphFormatter

theorem fmAux_none_of_all_lt :
    ∀ (l : List FNode) (mx : Int) (r : Option FNode),
      (∀ n ∈ l, n.degreeDiff < mx) → fmAux l mx r = r := by
  intro l
  induction l with
  | nil => intro mx r _; rfl
  | cons n t ih =>
      intro mx r h
      have hn : n.degreeDiff < mx := h n (by simp)
      have : ¬ (n.degreeDiff ≥ mx) := by omega
      simp only [fmAux, if_neg this]
      exact ih mx r (fun m hm => h m (by simp [hm]))

/-- Main characterisation of the FindMedianNode scan: if some remaining node
    reaches the running maximum, the scan returns the last node attaining
    the maximum degree difference among the remaining nodes. -/
theorem fmAux_spec :
    ∀ (l : List FNode) (mx : Int) (r : Option FNode),
      anyDiffGE l mx →
      ∃ (l1 l2 : List FNode) (m : FNode),
        l = l1 ++ m :: l2 ∧
        fmAux l mx r = some m ∧
        mx ≤ m.degreeDiff ∧
        (∀ n ∈ l, n.degreeDiff ≤ m.degreeDiff) ∧
        (∀ n ∈ l2, n.degreeDiff < m.degreeDiff) := by
  intro l
  induction l with
  | nil =>
      intro mx r h
      rcases h with ⟨n, hn, _⟩
      exact absurd hn (by simp)
  | cons a t ih =>
      intro mx r h
      by_cases ha : a.degreeDiff ≥ mx
      · -- the update fires on the head, state becomes (a.degreeDiff, a)
        by_cases hrest : anyDiffGE t a.degreeDiff
        · -- some later node ties or beats the head: recurse
          rcases ih a.degreeDiff (some a) hrest with ⟨l1, l2, m, he, hres, hge, hmax, hlast⟩
          refine ⟨a :: l1, l2, m, by simp [he], ?_, by omega, ?_, hlast⟩
          · simp only [fmAux, if_pos ha]; exact hres
          · intro n hn
            rcases List.mem_cons.mp hn with h1 | h2
            · subst h1; omega
            · exact hmax n h2
        · -- every later node is strictly below the head: the head wins
          have htail : ∀ n ∈ t, n.degreeDiff < a.degreeDiff := by
            intro n hn
            by_contra hc
            exact hrest ⟨n, hn, by omega⟩
          refine ⟨[], t, a, by simp, ?_, ha, ?_, htail⟩
          · simp only [fmAux, if_pos ha]
            exact fmAux_none_of_all_lt t a.degreeDiff (some a) htail
          · intro n hn
            rcases List.mem_cons.mp hn with h1 | h2
            · subst h1; omega
            · have := htail n h2; omega
      · -- the head is below the running maximum: state is unchanged
        have h2 : anyDiffGE t mx := by
          rcases h with ⟨n, hn, hge⟩
          rcases List.mem_cons.mp hn with h1 | hmem
          · subst h1; omega
          · exact ⟨n, hmem, hge⟩
        rcases ih mx r h2 with ⟨l1, l2, m, he, hres, hge, hmax, hlast⟩
        refine ⟨a :: l1, l2, m, by simp [he], ?_, hge, ?_, hlast⟩
        · simp only [fmAux, if_neg ha]; exact hres
        · intro n hn
          rcases List.mem_cons.mp hn with h1 | hmem
          · subst h1; omega
          · exact hmax n hmem

/-- C2 counterexample: on the 3-cycle A to B to C to A, RemoveCycle breaks
    the cycle by deleting an edge outright (FFormatterEdge has no inverted
    flag and RemoveCycle only calls Disconnect), so after it runs only two
    of the three input edges remain: the claim that every edge is still
    present (none deleted, one merely marked inverted) fails. -/
theorem removeCycle_cycle3_deletes_an_edge :
    (outPairs (FGraph.removeCycle cycle3)).length = 2 ∧
    (outPairs cycle3).length = 3 ∧
    FGraph.removeCycle cycle3 ≠ cycle3 := by
  refine ⟨by decide, by decide, by decide⟩

/-- C2 amended: on the 3-cycle with equal weights, RemoveCycle terminates
    with an acyclic graph in which exactly one edge (the in edge of the
    median node C, namely B to C) has been deleted from both incident edge
    lists, and the remaining two edges are unchanged. -/
theorem removeCycle_cycle3_result :
    FGraph.removeCycle cycle3 = cycle3Removed ∧
    FGraph.Acyclic cycle3Removed ∧
    (outPairs cycle3Removed).length + 1 = (outPairs cycle3).length ∧
    outPairs cycle3Removed = [(pinAO.guid, pinBI.guid), (pinCO.guid, pinAI.guid)] := by
  refine ⟨by decide, ⟨fun γ => if γ = 1 then 1 else if γ = 3 then 2 else 0, by decide⟩,
    by decide, by decide⟩

theorem FNode.allPins_connect (n : FNode) (s t : FPin) :
    (n.connect s t).allPins = n.allPins := by
  unfold FNode.connect FNode.allPins
  split <;> rfl

theorem FNode.guid_connect (n : FNode) (s t : FPin) :
    (n.connect s t).guid = n.guid := by
  unfold FNode.connect
  split <;> rfl

theorem FNode.allPins_cloneNode (n : FNode) : n.cloneNode.allPins = n.allPins := rfl

theorem FNode.guid_cloneNode (n : FNode) : n.cloneNode.guid = n.guid := rfl

theorem allPinsG_modifyNode (g : FGraph) (γ : Nat) (f : FNode → FNode)
    (hf : ∀ n, (f n).allPins = n.allPins) :
    allPinsG (g.modifyNode γ f) = allPinsG g := by
  unfold allPinsG FGraph.modifyNode
  simp only [List.map_map]
  refine congrArg List.flatten ?_
  refine List.map_congr_left ?_
  intro n _
  by_cases h : n.guid = γ <;> simp [h, hf]

theorem findPin_modifyNode (g : FGraph) (γ : Nat) (f : FNode → FNode)
    (hf : ∀ n, (f n).allPins = n.allPins) :
    (g.modifyNode γ f).findPin = g.findPin := by
  funext δ
  unfold FGraph.findPin
  rw [allPinsG_modifyNode g γ f hf]

theorem modifyNode_modifyNode (g : FGraph) (γ : Nat) (f1 f2 : FNode → FNode)
    (h1 : ∀ n, (f1 n).guid = n.guid) :
    (g.modifyNode γ f1).modifyNode γ f2 = g.modifyNode γ (fun n => f2 (f1 n)) := by
  unfold FGraph.modifyNode
  simp only [List.map_map]
  refine congrArg FGraph.mk ?_
  refine List.map_congr_left ?_
  intro n _
  by_cases h : n.guid = γ <;> simp [h, h1]

theorem modifyNode_id (g : FGraph) (γ : Nat) :
    g.modifyNode γ (fun n => n) = g := by
  unfold FGraph.modifyNode
  simp

/-- The pin resolution fold of the copy constructor reduces, when every
    lookup succeeds and returns the pin itself, to a single node update
    appending the connected edges. -/
theorem foldConnect_eq (γ : Nat) :
    ∀ (el : List FEdge) (h : FGraph),
      (∀ e ∈ el, h.findPin e.fromPin.guid = some e.fromPin ∧
                 h.findPin e.toPin.guid = some e.toPin) →
      el.foldl (fun (h2 : FGraph) e =>
        match h2.findPin e.fromPin.guid, h2.findPin e.toPin.guid with
        | some f, some t => h2.modifyNode γ (fun m => m.connect f t)
        | _, _ => h2) h
      = h.modifyNode γ (fun m => el.foldl (fun m e => m.connect e.fromPin e.toPin) m) := by
  intro el
  induction el with
  | nil => intro h _; simp [modifyNode_id]
  | cons e rest ih =>
      intro h hres
      have he := hres e (by simp)
      have hstep :
          (rest.foldl (fun (h2 : FGraph) e =>
            match h2.findPin e.fromPin.guid, h2.findPin e.toPin.guid with
            | some f, some t => h2.modifyNode γ (fun m => m.connect f t)
            | _, _ => h2) (h.modifyNode γ (fun m => m.connect e.fromPin e.toPin)))
          = (h.modifyNode γ (fun m => m.connect e.fromPin e.toPin)).modifyNode γ
              (fun m => rest.foldl (fun m e => m.connect e.fromPin e.toPin) m) := by
        refine ih _ ?_
        intro e2 he2
        rw [findPin_modifyNode h γ _ (fun n => FNode.allPins_connect n _ _)]
        exact hres e2 (by simp [he2])
      calc (e :: rest).foldl (fun (h2 : FGraph) e =>
              match h2.findPin e.fromPin.guid, h2.findPin e.toPin.guid with
              | some f, some t => h2.modifyNode γ (fun m => m.connect f t)
              | _, _ => h2) h
          = rest.foldl (fun (h2 : FGraph) e =>
              match h2.findPin e.fromPin.guid, h2.findPin e.toPin.guid with
              | some f, some t => h2.modifyNode γ (fun m => m.connect f t)
              | _, _ => h2) (h.modifyNode γ (fun m => m.connect e.fromPin e.toPin)) := by
            simp only [List.foldl_cons, he.1, he.2]
        _ = h.modifyNode γ (fun m =>
              rest.foldl (fun m e => m.connect e.fromPin e.toPin) (m.connect e.fromPin e.toPin)) := by
            rw [hstep, modifyNode_modifyNode h γ _ _ (fun n => FNode.guid_connect n _ _)]
        _ = h.modifyNode γ (fun m =>
              (e :: rest).foldl (fun m e => m.connect e.fromPin e.toPin) m) := rfl

theorem foldl_connect_inEdges (el : List FEdge) :
    ∀ (m : FNode), (∀ e ∈ el, e.fromPin.dir = Dir.input) →
      el.foldl (fun m e => m.connect e.fromPin e.toPin) m
        = { m with inEdges := m.inEdges ++ el } := by
  induction el with
  | nil => intro m _; simp
  | cons e rest ih =>
      intro m hdir
      have h1 : m.connect e.fromPin e.toPin = { m with inEdges := m.inEdges ++ [e] } := by
        unfold FNode.connect
        rw [if_neg (by rw [hdir e (by simp)]; intro hc; cases hc)]
      simp only [List.foldl_cons, h1]
      rw [ih _ (fun e2 he2 => hdir e2 (by simp [he2]))]
      simp

theorem foldl_connect_outEdges (el : List FEdge) :
    ∀ (m : FNode), (∀ e ∈ el, e.fromPin.dir = Dir.output) →
      el.foldl (fun m e => m.connect e.fromPin e.toPin) m
        = { m with outEdges := m.outEdges ++ el } := by
  induction el with
  | nil => intro m _; simp
  | cons e rest ih =>
      intro m hdir
      have h1 : m.connect e.fromPin e.toPin = { m with outEdges := m.outEdges ++ [e] } := by
        unfold FNode.connect
        rw [if_pos (hdir e (by simp))]
      simp only [List.foldl_cons, h1]
      rw [ih _ (fun e2 he2 => hdir e2 (by simp [he2]))]
      simp

theorem modifyNode_middle (done rest : List FNode) (mid : FNode) (γ : Nat)
    (F : FNode → FNode)
    (hd : ∀ n ∈ done, n.guid ≠ γ) (hr : ∀ n ∈ rest, n.guid ≠ γ) (hm : mid.guid = γ) :
    FGraph.modifyNode ⟨done ++ mid :: rest⟩ γ F = ⟨done ++ F mid :: rest⟩ := by
  unfold FGraph.modifyNode
  refine congrArg FGraph.mk ?_
  simp only [List.map_append, List.map_cons]
  have e1 : done.map (fun n => if n.guid == γ then F n else n) = done := by
    conv_rhs => rw [show done = done.map id from (List.map_id done).symm]
    refine List.map_congr_left ?_
    intro n hn
    simp [hd n hn]
  have e2 : rest.map (fun n => if n.guid == γ then F n else n) = rest := by
    conv_rhs => rw [show rest = rest.map id from (List.map_id rest).symm]
    refine List.map_congr_left ?_
    intro n hn
    simp [hr n hn]
  rw [e1, e2, if_pos (by simp [hm])]

theorem allPinsG_append_clones (done todo : List FNode) :
    allPinsG ⟨done ++ todo.map FNode.cloneNode⟩ = allPinsG ⟨done ++ todo⟩ := by
  unfold allPinsG
  simp only [List.map_append, List.map_map]
  refine congrArg List.flatten (congrArg (done.map FNode.allPins ++ ·) ?_)
  refine List.map_congr_left ?_
  intro n _
  simp [FNode.allPins_cloneNode]

/-- Rebuilding the edges of one source node turns its bare clone back into
    the source node and leaves every other node untouched. -/
theorem rebuildEdges_step (g : FGraph) (done rest : List FNode) (other : FNode)
    (h1 : GuidsNodup g) (h2 : PinsResolvable g) (h3 : EdgesOwned g)
    (hsplit : g.nodes = done ++ other :: rest) :
    rebuildEdges other ⟨done ++ other.cloneNode :: rest.map FNode.cloneNode⟩
      = ⟨done ++ other :: rest.map FNode.cloneNode⟩ := by
  have hother : other ∈ g.nodes := by rw [hsplit]; simp
  set h : FGraph := ⟨done ++ other.cloneNode :: rest.map FNode.cloneNode⟩ with hh
  have hpins : allPinsG h = allPinsG g := by
    have := allPinsG_append_clones done (other :: rest)
    simp only [List.map_cons] at this
    rw [hh, this, ← hsplit]
  have hfind : h.findPin = g.findPin := by
    funext δ
    unfold FGraph.findPin
    rw [hpins]
  have hresIn : ∀ e ∈ other.inEdges,
      h.findPin e.fromPin.guid = some e.fromPin ∧ h.findPin e.toPin.guid = some e.toPin := by
    intro e he
    rw [hfind]
    exact h2 other hother e (by simp [nodeEdges, he])
  have hdirIn : ∀ e ∈ other.inEdges, e.fromPin.dir = Dir.input := by
    intro e he
    exact ((h3 other hother).1 e he).2.1
  have hdirOut : ∀ e ∈ other.outEdges, e.fromPin.dir = Dir.output := by
    intro e he
    exact ((h3 other hother).2 e he).2.1
  have hInFun : (fun (m : FNode) => other.inEdges.foldl (fun m e => m.connect e.fromPin e.toPin) m)
      = (fun m => { m with inEdges := m.inEdges ++ other.inEdges }) := by
    funext m
    exact foldl_connect_inEdges other.inEdges m hdirIn
  have hOutFun : (fun (m : FNode) => other.outEdges.foldl (fun m e => m.connect e.fromPin e.toPin) m)
      = (fun m => { m with outEdges := m.outEdges ++ other.outEdges }) := by
    funext m
    exact foldl_connect_outEdges other.outEdges m hdirOut
  have step1 : other.inEdges.foldl
      (fun (h2 : FGraph) e =>
        match h2.findPin e.fromPin.guid, h2.findPin e.toPin.guid with
        | some f, some t => h2.modifyNode other.guid (fun m => m.connect f t)
        | _, _ => h2) h
      = h.modifyNode other.guid (fun m => { m with inEdges := m.inEdges ++ other.inEdges }) := by
    rw [foldConnect_eq other.guid other.inEdges h hresIn, hInFun]
  have hpins1 : allPinsG (h.modifyNode other.guid
      (fun m => { m with inEdges := m.inEdges ++ other.inEdges })) = allPinsG h :=
    allPinsG_modifyNode h other.guid _ (fun n => rfl)
  have hresOut : ∀ e ∈ other.outEdges,
      (h.modifyNode other.guid (fun m => { m with inEdges := m.inEdges ++ other.inEdges })).findPin
        e.fromPin.guid = some e.fromPin ∧
      (h.modifyNode other.guid (fun m => { m with inEdges := m.inEdges ++ other.inEdges })).findPin
        e.toPin.guid = some e.toPin := by
    intro e he
    rw [findPin_modifyNode h other.guid
      (fun m => { m with inEdges := m.inEdges ++ other.inEdges }) (fun n => rfl), hfind]
    exact h2 other hother e (by simp [nodeEdges, he])
  have step2 : rebuildEdges other h
      = (h.modifyNode other.guid (fun m => { m with inEdges := m.inEdges ++ other.inEdges })).modifyNode
          other.guid (fun m => { m with outEdges := m.outEdges ++ other.outEdges }) := by
    unfold rebuildEdges
    rw [step1, foldConnect_eq other.guid other.outEdges _ hresOut, hOutFun]
  rw [step2, modifyNode_modifyNode h other.guid
    (fun m => { m with inEdges := m.inEdges ++ other.inEdges })
    (fun m => { m with outEdges := m.outEdges ++ other.outEdges }) (fun n => rfl)]
  -- guid disjointness facts from nodup
  have h1s : ((done.map (·.guid)) ++ other.guid :: rest.map (·.guid)).Nodup := by
    have hx : (g.nodes.map (·.guid)).Nodup := h1
    rw [hsplit] at hx
    simpa using hx
  have hd1 : other.guid ∉ done.map (·.guid) := by
    intro hmem
    exact (List.disjoint_of_nodup_append h1s) hmem (by simp)
  have hr1 : other.guid ∉ rest.map (·.guid) := by
    have := (List.Nodup.of_append_right h1s)
    exact (List.nodup_cons.mp this).1
  have hd : ∀ n ∈ done, n.guid ≠ other.guid := by
    intro n hn he
    exact hd1 (he ▸ List.mem_map_of_mem (·.guid) hn)
  have hr : ∀ n ∈ rest.map FNode.cloneNode, n.guid ≠ other.guid := by
    intro n hn he
    rcases List.mem_map.mp hn with ⟨r, hrm, hre⟩
    refine hr1 ?_
    have : r.guid = other.guid := by rw [← hre] at he; exact he
    exact this ▸ List.mem_map_of_mem (·.guid) hrm
  rw [hh]
  rw [modifyNode_middle done (rest.map FNode.cloneNode) other.cloneNode other.guid _ hd hr rfl]
  refine congrArg FGraph.mk (congrArg (done ++ · :: rest.map FNode.cloneNode) ?_)
  cases other
  simp [FNode.cloneNode]

/-- The copy constructor fold restores every node of the graph in place. -/
theorem clone_fold_spec (g : FGraph) (h1 : GuidsNodup g) (h2 : PinsResolvable g)
    (h3 : EdgesOwned g) :
    ∀ (todo done : List FNode), g.nodes = done ++ todo →
      (todo.foldl (fun h other => rebuildEdges other h)
        ⟨done ++ todo.map FNode.cloneNode⟩) = ⟨g.nodes⟩ := by
  intro todo
  induction todo with
  | nil =>
      intro done hsplit
      simp [hsplit]
  | cons other rest ih =>
      intro done hsplit
      simp only [List.foldl_cons, List.map_cons]
      rw [rebuildEdges_step g done rest other h1 h2 h3 hsplit]
      have := ih (done ++ [other]) (by simp [hsplit])
      simpa using this

theorem cloneGraph_restores (g : FGraph) (h1 : GuidsNodup g) (h2 : PinsResolvable g)
    (h3 : EdgesOwned g) : g.cloneGraph = g := by
  unfold FGraph.cloneGraph
  have := clone_fold_spec g h1 h2 h3 g.nodes [] rfl
  simpa using this

/-- C9: the copy constructor reproduces the graph exactly: every cloned
    node, pin and edge carries the guid identity of its original and the
    rebuilt structure is equal to the source structure.  Mutations of the
    clone (for example RemoveNode during cycle removal) therefore operate
    on an equal but separate value and leave the original unchanged. -/
theorem cloneGraph_eq (g : FGraph) (h1 : GuidsNodup g) (h2 : PinsResolvable g)
    (h3 : EdgesOwned g) : g.cloneGraph = g :=
  cloneGraph_restores g h1 h2 h3

/-- Witness for C9 at the 3-cycle graph. -/
theorem cloneGraph_eq_witness :
    FGraph.cloneGraph cycle3 = cycle3 :=
  cloneGraph_eq cycle3 (by decide) (by decide) (by decide)

theorem map_eraseP {α β : Type} (f : α → β) (p : β → Bool) :
    ∀ l : List α, (l.map f).eraseP p = (l.eraseP (fun x => p (f x))).map f := by
  intro l
  induction l with
  | nil => rfl
  | cons a t ih =>
      by_cases h : p (f a)
      · simp [List.eraseP_cons, h]
      · simp [List.eraseP_cons, h, ih]

theorem count_eraseP_of_mem (t : Nat × Nat) :
    ∀ l : List (Nat × Nat), t ∈ l →
      ((l.eraseP (· == t)).count t) + 1 = l.count t := by
  intro l
  induction l with
  | nil => intro h; cases h
  | cons a rest ih =>
      intro hm
      by_cases h : a = t
      · subst h
        simp [List.eraseP_cons, List.count_cons]
      · have hb : (a == t) = false := by simp [h]
        have hm2 : t ∈ rest := by
          rcases List.mem_cons.mp hm with h1 | h2
          · exact absurd h1.symm h
          · exact h2
        simp only [List.eraseP_cons, hb, cond_false]
        have hc : (t == a) = false := by
          rw [beq_eq_false_iff_ne]
          exact fun hx => h hx.symm
        have hi := ih hm2
        simp [List.count_cons, hc, h]
        omega

theorem count_eraseP_of_ne (t q : Nat × Nat) (hne : q ≠ t) :
    ∀ l : List (Nat × Nat), (l.eraseP (· == t)).count q = l.count q := by
  intro l
  induction l with
  | nil => rfl
  | cons a rest ih =>
      by_cases h : a = t
      · subst h
        have hc : (q == a) = false := by
          rw [beq_eq_false_iff_ne]
          exact hne
        simp [List.eraseP_cons, List.count_cons, hc]
        exact fun hx => hne hx.symm
      · have hb : (a == t) = false := by simp [h]
        simp only [List.eraseP_cons, hb, cond_false]
        simp [List.count_cons, ih]

theorem disconnectDuals_nodes_eq :
    ∀ (R : List FEdge) (g : FGraph),
      (disconnectDuals g R).nodes = g.nodes.map (applyReqsToNode R) := by
  intro R
  induction R with
  | nil =>
      intro g
      rw [show (applyReqsToNode []) = fun n => n from rfl]
      simp [disconnectDuals]
  | cons e rest ih =>
      intro g
      have h0 : disconnectDuals g (e :: rest)
          = disconnectDuals
              (g.modifyNode e.toPin.owner (fun m => m.disconnect e.toPin e.fromPin)) rest := rfl
      rw [h0, ih]
      unfold FGraph.modifyNode
      simp only [List.map_map]
      refine List.map_congr_left ?_
      intro n _
      simp only [Function.comp]
      rfl

theorem applyReqs_guid (R : List FEdge) :
    ∀ n, (applyReqsToNode R n).guid = n.guid := by
  induction R with
  | nil => intro n; rfl
  | cons e rest ih =>
      intro n
      show (applyReqsToNode rest _).guid = n.guid
      rw [ih]
      by_cases h : n.guid == e.toPin.owner
      · simp only [applyReqsToNode]
        unfold FNode.disconnect
        simp only [h, if_true]
        split <;> rfl
      · simp [h]

theorem applyReqs_pins (R : List FEdge) :
    ∀ n, (applyReqsToNode R n).inPins = n.inPins ∧ (applyReqsToNode R n).outPins = n.outPins := by
  induction R with
  | nil => intro n; exact ⟨rfl, rfl⟩
  | cons e rest ih =>
      intro n
      show (applyReqsToNode rest _).inPins = n.inPins ∧ (applyReqsToNode rest _).outPins = n.outPins
      rcases ih (if n.guid == e.toPin.owner then n.disconnect e.toPin e.fromPin else n) with ⟨h1, h2⟩
      rw [h1, h2]
      by_cases h : n.guid == e.toPin.owner
      · simp only [h, if_true]
        unfold FNode.disconnect
        constructor <;> (split <;> rfl)
      · simp [h]

theorem applyReqs_inEdges_of_outdir (R : List FEdge)
    (hdir : ∀ e ∈ R, e.toPin.dir = Dir.output) :
    ∀ n, (applyReqsToNode R n).inEdges = n.inEdges := by
  induction R with
  | nil => intro n; rfl
  | cons e rest ih =>
      intro n
      show (applyReqsToNode rest _).inEdges = n.inEdges
      rw [ih (fun e2 he2 => hdir e2 (by simp [he2]))]
      by_cases h : n.guid == e.toPin.owner
      · simp only [h, if_true]
        unfold FNode.disconnect
        rw [if_pos (hdir e (by simp))]
      · simp [h]

theorem applyReqs_outEdges_of_indir (R : List FEdge)
    (hdir : ∀ e ∈ R, e.toPin.dir = Dir.input) :
    ∀ n, (applyReqsToNode R n).outEdges = n.outEdges := by
  induction R with
  | nil => intro n; rfl
  | cons e rest ih =>
      intro n
      show (applyReqsToNode rest _).outEdges = n.outEdges
      rw [ih (fun e2 he2 => hdir e2 (by simp [he2]))]
      by_cases h : n.guid == e.toPin.owner
      · simp only [h, if_true]
        unfold FNode.disconnect
        rw [if_neg (by rw [hdir e (by simp)]; intro hc; cases hc)]
      · simp [h]

theorem disconnect_out_subset (n : FNode) (s t : FPin) :
    ∀ d ∈ (n.disconnect s t).outEdges, d ∈ n.outEdges := by
  intro d hd
  unfold FNode.disconnect at hd
  by_cases h : s.dir = Dir.output
  · rw [if_pos h] at hd
    exact (List.eraseP_sublist _).mem hd
  · rw [if_neg h] at hd
    exact hd

theorem disconnect_in_subset (n : FNode) (s t : FPin) :
    ∀ d ∈ (n.disconnect s t).inEdges, d ∈ n.inEdges := by
  intro d hd
  unfold FNode.disconnect at hd
  by_cases h : s.dir = Dir.output
  · rw [if_pos h] at hd
    exact hd
  · rw [if_neg h] at hd
    exact (List.eraseP_sublist _).mem hd

theorem applyReqs_out_subset (R : List FEdge) :
    ∀ n, ∀ d ∈ (applyReqsToNode R n).outEdges, d ∈ n.outEdges := by
  induction R with
  | nil => intro n d hd; exact hd
  | cons e rest ih =>
      intro n d hd
      have hd2 := ih (if n.guid == e.toPin.owner then n.disconnect e.toPin e.fromPin else n) d hd
      by_cases h : n.guid == e.toPin.owner
      · rw [if_pos h] at hd2
        exact disconnect_out_subset n _ _ d hd2
      · rw [if_neg h] at hd2
        exact hd2

theorem applyReqs_in_subset (R : List FEdge) :
    ∀ n, ∀ d ∈ (applyReqsToNode R n).inEdges, d ∈ n.inEdges := by
  induction R with
  | nil => intro n d hd; exact hd
  | cons e rest ih =>
      intro n d hd
      have hd2 := ih (if n.guid == e.toPin.owner then n.disconnect e.toPin e.fromPin else n) d hd
      by_cases h : n.guid == e.toPin.owner
      · rw [if_pos h] at hd2
        exact disconnect_in_subset n _ _ d hd2
      · rw [if_neg h] at hd2
        exact hd2

theorem applyReqs_id_of_not_target (R : List FEdge) :
    ∀ n, (∀ e ∈ R, e.toPin.owner ≠ n.guid) → applyReqsToNode R n = n := by
  induction R with
  | nil => intro n _; rfl
  | cons e rest ih =>
      intro n h
      show applyReqsToNode rest
        (if n.guid == e.toPin.owner then n.disconnect e.toPin e.fromPin else n) = n
      have hb : (n.guid == e.toPin.owner) = false := by
        rw [beq_eq_false_iff_ne]
        intro hc
        exact h e (by simp) hc.symm
      rw [hb]
      simp only [Bool.false_eq_true, if_false]
      exact ih n (fun e2 he2 => h e2 (by simp [he2]))

theorem findNode_disconnectDuals (g : FGraph) (R : List FEdge) (γ : Nat) :
    (disconnectDuals g R).findNode γ = (g.findNode γ).map (applyReqsToNode R) := by
  unfold FGraph.findNode
  rw [disconnectDuals_nodes_eq]
  rw [List.find?_map]
  have hpred : ((fun x : FNode => x.guid == γ) ∘ applyReqsToNode R)
      = (fun x : FNode => x.guid == γ) := by
    funext n
    simp [Function.comp, applyReqs_guid]
  rw [hpred]

theorem outPairs_decomp (pre suf : List FNode) (m : FNode) :
    outPairs ⟨pre ++ m :: suf⟩
      = (pre.map nodeOutPairs).flatten ++ nodeOutPairs m ++ (suf.map nodeOutPairs).flatten := by
  unfold outPairs nodeOutPairs
  simp [List.map_append, List.flatten_append]

theorem inPairsSw_decomp (pre suf : List FNode) (m : FNode) :
    inPairsSw ⟨pre ++ m :: suf⟩
      = (pre.map nodeInPairsSw).flatten ++ nodeInPairsSw m ++ (suf.map nodeInPairsSw).flatten := by
  unfold inPairsSw nodeInPairsSw
  simp [List.map_append, List.flatten_append]

theorem exists_node_of_mem_outPairs (g : FGraph) (q : Nat × Nat) (h : q ∈ outPairs g) :
    ∃ m ∈ g.nodes, q ∈ nodeOutPairs m := by
  unfold outPairs at h
  rcases List.mem_flatten.mp h with ⟨lp, hlp, hq⟩
  rcases List.mem_map.mp hlp with ⟨m, hm, he⟩
  exact ⟨m, hm, by rw [← he] at hq; exact hq⟩

theorem exists_node_of_mem_inPairsSw (g : FGraph) (q : Nat × Nat) (h : q ∈ inPairsSw g) :
    ∃ m ∈ g.nodes, q ∈ nodeInPairsSw m := by
  unfold inPairsSw at h
  rcases List.mem_flatten.mp h with ⟨lp, hlp, hq⟩
  rcases List.mem_map.mp hlp with ⟨m, hm, he⟩
  exact ⟨m, hm, by rw [← he] at hq; exact hq⟩

theorem nodup_split_guids (g : FGraph) (hnd : GuidsNodup g) (pre suf : List FNode) (m : FNode)
    (hsplit : g.nodes = pre ++ m :: suf) :
    (∀ n ∈ pre, n.guid ≠ m.guid) ∧ (∀ n ∈ suf, n.guid ≠ m.guid) := by
  have hx : (g.nodes.map (·.guid)).Nodup := hnd
  rw [hsplit] at hx
  simp only [List.map_append, List.map_cons] at hx
  constructor
  · intro n hn he
    have hmm : n.guid ∈ pre.map (fun x : FNode => x.guid) := List.mem_map_of_mem _ hn
    rw [he] at hmm
    exact (List.disjoint_of_nodup_append hx) hmm (by simp)
  · intro n hn he
    have h2 := List.Nodup.of_append_right hx
    have hmm : n.guid ∈ suf.map (fun x : FNode => x.guid) := List.mem_map_of_mem _ hn
    rw [he] at hmm
    exact (List.nodup_cons.mp h2).1 hmm

theorem eq_mk_nodes (g : FGraph) (l : List FNode) (h : g.nodes = l) : g = ⟨l⟩ := by
  cases g with
  | mk ns =>
      simp only at h
      rw [h]

theorem eq_mk_of_split (g : FGraph) (pre suf : List FNode) (m : FNode)
    (hsplit : g.nodes = pre ++ m :: suf) : g = ⟨pre ++ m :: suf⟩ := by
  cases g with
  | mk ns =>
      simp only at hsplit
      rw [hsplit]

theorem disconnect_guid (n : FNode) (s t : FPin) : (n.disconnect s t).guid = n.guid := by
  unfold FNode.disconnect
  split <;> rfl

theorem disconnect_inEdges_of_output (n : FNode) (s t : FPin) (h : s.dir = Dir.output) :
    (n.disconnect s t).inEdges = n.inEdges := by
  unfold FNode.disconnect
  rw [if_pos h]

theorem disconnect_outEdges_of_input (n : FNode) (s t : FPin) (h : s.dir = Dir.input) :
    (n.disconnect s t).outEdges = n.outEdges := by
  unfold FNode.disconnect
  rw [if_neg (by rw [h]; intro hc; cases hc)]

theorem disconnect_out_of_output (n : FNode) (s t : FPin) (h : s.dir = Dir.output) :
    (n.disconnect s t).outEdges
      = n.outEdges.eraseP (fun d => d.fromPin.guid == s.guid && d.toPin.guid == t.guid) := by
  unfold FNode.disconnect erasePair
  rw [if_pos h]

theorem disconnect_in_of_input (n : FNode) (s t : FPin) (h : s.dir = Dir.input) :
    (n.disconnect s t).inEdges
      = n.inEdges.eraseP (fun d => d.fromPin.guid == s.guid && d.toPin.guid == t.guid) := by
  unfold FNode.disconnect erasePair
  rw [if_neg (by rw [h]; intro hc; cases hc)]

theorem modifyNode_guids (g : FGraph) (γ : Nat) (f : FNode → FNode)
    (hf : ∀ n, (f n).guid = n.guid) :
    (g.modifyNode γ f).nodes.map (·.guid) = g.nodes.map (·.guid) := by
  unfold FGraph.modifyNode
  simp only [List.map_map]
  refine List.map_congr_left ?_
  intro n _
  by_cases h : n.guid = γ <;> simp [h, hf]

theorem modifyNode_nodes_rel (g : FGraph) (γ : Nat) (f : FNode → FNode)
    (hsub : ∀ n, (f n).guid = n.guid ∧ (∀ d ∈ (f n).outEdges, d ∈ n.outEdges) ∧
      (∀ d ∈ (f n).inEdges, d ∈ n.inEdges)) :
    ∀ m2 ∈ (g.modifyNode γ f).nodes, ∃ m ∈ g.nodes,
      m2.guid = m.guid ∧ (∀ d ∈ m2.outEdges, d ∈ m.outEdges) ∧
        (∀ d ∈ m2.inEdges, d ∈ m.inEdges) := by
  intro m2 hm2
  unfold FGraph.modifyNode at hm2
  simp only at hm2
  rcases List.mem_map.mp hm2 with ⟨m, hm, he⟩
  refine ⟨m, hm, ?_⟩
  by_cases h : m.guid == γ
  · rw [if_pos h] at he
    rw [← he]
    exact hsub m
  · rw [if_neg h] at he
    rw [← he]
    exact ⟨rfl, fun d hd => hd, fun d hd => hd⟩

theorem step_in_preserved (g : FGraph) (e : FEdge) (hdir : e.toPin.dir = Dir.output) :
    inPairsSw (g.modifyNode e.toPin.owner (fun m => m.disconnect e.toPin e.fromPin))
      = inPairsSw g := by
  unfold inPairsSw FGraph.modifyNode
  simp only [List.map_map]
  refine congrArg List.flatten (List.map_congr_left ?_)
  intro n _
  by_cases h : n.guid = e.toPin.owner
  · simp only [Function.comp, h, beq_self_eq_true, if_true]
    rw [disconnect_inEdges_of_output n _ _ hdir]
  · simp [Function.comp, h]

theorem step_out_preserved (g : FGraph) (e : FEdge) (hdir : e.toPin.dir = Dir.input) :
    outPairs (g.modifyNode e.toPin.owner (fun m => m.disconnect e.toPin e.fromPin))
      = outPairs g := by
  unfold outPairs FGraph.modifyNode
  simp only [List.map_map]
  refine congrArg List.flatten (List.map_congr_left ?_)
  intro n _
  by_cases h : n.guid = e.toPin.owner
  · simp only [Function.comp, h, beq_self_eq_true, if_true]
    rw [disconnect_outEdges_of_input n _ _ hdir]
  · simp [Function.comp, h]

theorem step_out_count (g : FGraph) (e : FEdge)
    (hnd : GuidsNodup g)
    (hdir : e.toPin.dir = Dir.output)
    (hloc : ∀ m ∈ g.nodes, ∀ d ∈ m.outEdges, d.fromPin.guid = e.toPin.guid →
        m.guid = e.toPin.owner)
    (havail : 1 ≤ (outPairs g).count (reqPair e)) :
    ∀ q, (outPairs (g.modifyNode e.toPin.owner
        (fun m => m.disconnect e.toPin e.fromPin))).count q
      + (if q = reqPair e then 1 else 0) = (outPairs g).count q := by
  have hmem : reqPair e ∈ outPairs g := by
    by_contra hc
    rw [List.count_eq_zero_of_not_mem hc] at havail
    omega
  rcases exists_node_of_mem_outPairs g _ hmem with ⟨m0, hm0, hq0⟩
  have hm0g : m0.guid = e.toPin.owner := by
    rcases List.mem_map.mp hq0 with ⟨d, hd, hde⟩
    have hfg : d.fromPin.guid = e.toPin.guid := by
      have := congrArg Prod.fst hde
      simpa [reqPair] using this
    exact hloc m0 hm0 d hd hfg
  rcases List.append_of_mem hm0 with ⟨pre, suf, hsplit⟩
  have hguids := nodup_split_guids g hnd pre suf m0 hsplit
  have hg : g = ⟨pre ++ m0 :: suf⟩ := eq_mk_of_split g pre suf m0 hsplit
  have hmid : g.modifyNode e.toPin.owner (fun m => m.disconnect e.toPin e.fromPin)
      = ⟨pre ++ (m0.disconnect e.toPin e.fromPin) :: suf⟩ := by
    rw [hg]
    refine modifyNode_middle pre suf m0 e.toPin.owner _ ?_ ?_ hm0g
    · intro n hn
      rw [← hm0g]
      exact hguids.1 n hn
    · intro n hn
      rw [← hm0g]
      exact hguids.2 n hn
  have hdout : nodeOutPairs (m0.disconnect e.toPin e.fromPin)
      = (nodeOutPairs m0).eraseP (· == reqPair e) := by
    unfold nodeOutPairs
    rw [disconnect_out_of_output m0 _ _ hdir]
    rw [map_eraseP (fun d : FEdge => (d.fromPin.guid, d.toPin.guid)) (· == reqPair e)
      m0.outEdges]
    rfl
  have key : ∀ n ∈ g.nodes, n.guid ≠ e.toPin.owner → reqPair e ∉ nodeOutPairs n := by
    intro n hn hne hc
    rcases List.mem_map.mp hc with ⟨d, hd, hde⟩
    have hfg : d.fromPin.guid = e.toPin.guid := by
      have := congrArg Prod.fst hde
      simpa [reqPair] using this
    exact hne (hloc n hn d hd hfg)
  have hpre0 : ((pre.map nodeOutPairs).flatten).count (reqPair e) = 0 := by
    rw [List.count_eq_zero]
    intro hc
    rcases List.mem_flatten.mp hc with ⟨lp, hlp, hq⟩
    rcases List.mem_map.mp hlp with ⟨n, hn, he2⟩
    refine key n (by rw [hsplit]; simp [hn]) ?_ (by rw [← he2] at hq; exact hq)
    intro hx
    exact hguids.1 n hn (by rw [hx, hm0g])
  have hsuf0 : ((suf.map nodeOutPairs).flatten).count (reqPair e) = 0 := by
    rw [List.count_eq_zero]
    intro hc
    rcases List.mem_flatten.mp hc with ⟨lp, hlp, hq⟩
    rcases List.mem_map.mp hlp with ⟨n, hn, he2⟩
    refine key n (by rw [hsplit]; simp [hn]) ?_ (by rw [← he2] at hq; exact hq)
    intro hx
    exact hguids.2 n hn (by rw [hx, hm0g])
  intro q
  rw [hmid]
  conv_rhs => rw [hg]
  rw [outPairs_decomp, outPairs_decomp, hdout]
  simp only [List.count_append]
  by_cases hq : q = reqPair e
  · subst hq
    have h3 := count_eraseP_of_mem (reqPair e) (nodeOutPairs m0) hq0
    rw [if_pos rfl, hpre0, hsuf0]
    omega
  · have h3 := count_eraseP_of_ne (reqPair e) q hq (nodeOutPairs m0)
    rw [if_neg hq, h3]
    omega

theorem step_in_count (g : FGraph) (e : FEdge)
    (hnd : GuidsNodup g)
    (hdir : e.toPin.dir = Dir.input)
    (hloc : ∀ m ∈ g.nodes, ∀ d ∈ m.inEdges, d.fromPin.guid = e.toPin.guid →
        m.guid = e.toPin.owner)
    (havail : 1 ≤ (inPairsSw g).count (reqPairIn e)) :
    ∀ q, (inPairsSw (g.modifyNode e.toPin.owner
        (fun m => m.disconnect e.toPin e.fromPin))).count q
      + (if q = reqPairIn e then 1 else 0) = (inPairsSw g).count q := by
  have hmem : reqPairIn e ∈ inPairsSw g := by
    by_contra hc
    rw [List.count_eq_zero_of_not_mem hc] at havail
    omega
  rcases exists_node_of_mem_inPairsSw g _ hmem with ⟨m0, hm0, hq0⟩
  have hm0g : m0.guid = e.toPin.owner := by
    rcases List.mem_map.mp hq0 with ⟨d, hd, hde⟩
    have hfg : d.fromPin.guid = e.toPin.guid := by
      have := congrArg Prod.snd hde
      simpa [reqPairIn] using this
    exact hloc m0 hm0 d hd hfg
  rcases List.append_of_mem hm0 with ⟨pre, suf, hsplit⟩
  have hguids := nodup_split_guids g hnd pre suf m0 hsplit
  have hg : g = ⟨pre ++ m0 :: suf⟩ := eq_mk_of_split g pre suf m0 hsplit
  have hmid : g.modifyNode e.toPin.owner (fun m => m.disconnect e.toPin e.fromPin)
      = ⟨pre ++ (m0.disconnect e.toPin e.fromPin) :: suf⟩ := by
    rw [hg]
    refine modifyNode_middle pre suf m0 e.toPin.owner _ ?_ ?_ hm0g
    · intro n hn
      rw [← hm0g]
      exact hguids.1 n hn
    · intro n hn
      rw [← hm0g]
      exact hguids.2 n hn
  have hpred : (fun d : FEdge => d.fromPin.guid == e.toPin.guid && d.toPin.guid == e.fromPin.guid)
      = (fun d : FEdge => ((d.toPin.guid, d.fromPin.guid) : Nat × Nat) == reqPairIn e) := by
    funext d
    show (d.fromPin.guid == e.toPin.guid && d.toPin.guid == e.fromPin.guid)
      = (d.toPin.guid == e.fromPin.guid && d.fromPin.guid == e.toPin.guid)
    exact Bool.and_comm _ _
  have hdin : nodeInPairsSw (m0.disconnect e.toPin e.fromPin)
      = (nodeInPairsSw m0).eraseP (· == reqPairIn e) := by
    unfold nodeInPairsSw
    rw [disconnect_in_of_input m0 _ _ hdir, hpred]
    rw [map_eraseP (fun d : FEdge => (d.toPin.guid, d.fromPin.guid)) (· == reqPairIn e)
      m0.inEdges]
  have key : ∀ n ∈ g.nodes, n.guid ≠ e.toPin.owner → reqPairIn e ∉ nodeInPairsSw n := by
    intro n hn hne hc
    rcases List.mem_map.mp hc with ⟨d, hd, hde⟩
    have hfg : d.fromPin.guid = e.toPin.guid := by
      have := congrArg Prod.snd hde
      simpa [reqPairIn] using this
    exact hne (hloc n hn d hd hfg)
  have hpre0 : ((pre.map nodeInPairsSw).flatten).count (reqPairIn e) = 0 := by
    rw [List.count_eq_zero]
    intro hc
    rcases List.mem_flatten.mp hc with ⟨lp, hlp, hq⟩
    rcases List.mem_map.mp hlp with ⟨n, hn, he2⟩
    refine key n (by rw [hsplit]; simp [hn]) ?_ (by rw [← he2] at hq; exact hq)
    intro hx
    exact hguids.1 n hn (by rw [hx, hm0g])
  have hsuf0 : ((suf.map nodeInPairsSw).flatten).count (reqPairIn e) = 0 := by
    rw [List.count_eq_zero]
    intro hc
    rcases List.mem_flatten.mp hc with ⟨lp, hlp, hq⟩
    rcases List.mem_map.mp hlp with ⟨n, hn, he2⟩
    refine key n (by rw [hsplit]; simp [hn]) ?_ (by rw [← he2] at hq; exact hq)
    intro hx
    exact hguids.2 n hn (by rw [hx, hm0g])
  intro q
  rw [hmid]
  conv_rhs => rw [hg]
  rw [inPairsSw_decomp, inPairsSw_decomp, hdin]
  simp only [List.count_append]
  by_cases hq : q = reqPairIn e
  · subst hq
    have h3 := count_eraseP_of_mem (reqPairIn e) (nodeInPairsSw m0) hq0
    rw [if_pos rfl, hpre0, hsuf0]
    omega
  · have h3 := count_eraseP_of_ne (reqPairIn e) q hq (nodeInPairsSw m0)
    rw [if_neg hq, h3]
    omega

theorem disconnectDuals_out_ledger (R : List FEdge) :
    ∀ (g : FGraph),
      GuidsNodup g →
      (∀ e ∈ R, e.toPin.dir = Dir.output) →
      (∀ e ∈ R, ∀ m ∈ g.nodes, ∀ d ∈ m.outEdges,
          d.fromPin.guid = e.toPin.guid → m.guid = e.toPin.owner) →
      (∀ q, (R.map reqPair).count q ≤ (outPairs g).count q) →
      (∀ q, (outPairs (disconnectDuals g R)).count q + (R.map reqPair).count q
          = (outPairs g).count q) ∧
        inPairsSw (disconnectDuals g R) = inPairsSw g := by
  induction R with
  | nil =>
      intro g _ _ _ _
      exact ⟨fun q => by simp [disconnectDuals], rfl⟩
  | cons e rest ih =>
      intro g hnd hdir hloc havail
      have hd_e : e.toPin.dir = Dir.output := hdir e (by simp)
      have hloc_e := hloc e (by simp)
      have hcount_cons : ∀ q, ((e :: rest).map reqPair).count q
          = (rest.map reqPair).count q + (if q = reqPair e then 1 else 0) := by
        intro q
        simp only [List.map_cons, List.count_cons]
        by_cases hq : q = reqPair e
        · simp [hq]
        · simp [hq]
          exact fun hx => hq hx.symm
      have havail_e : 1 ≤ (outPairs g).count (reqPair e) := by
        have h2 := havail (reqPair e)
        rw [hcount_cons (reqPair e)] at h2
        simp at h2
        omega
      have hstep := step_out_count g e hnd hd_e hloc_e havail_e
      have hstepin := step_in_preserved g e hd_e
      have hnd1 : GuidsNodup (g.modifyNode e.toPin.owner
          (fun m => m.disconnect e.toPin e.fromPin)) := by
        show ((g.modifyNode e.toPin.owner
          (fun m => m.disconnect e.toPin e.fromPin)).nodes.map (·.guid)).Nodup
        rw [modifyNode_guids g _ _ (fun n => disconnect_guid n _ _)]
        exact hnd
      have hrel := modifyNode_nodes_rel g e.toPin.owner
        (fun m => m.disconnect e.toPin e.fromPin)
        (fun n => ⟨disconnect_guid n _ _, disconnect_out_subset n _ _,
          disconnect_in_subset n _ _⟩)
      have hloc1 : ∀ e2 ∈ rest, ∀ m ∈ (g.modifyNode e.toPin.owner
          (fun m => m.disconnect e.toPin e.fromPin)).nodes, ∀ d ∈ m.outEdges,
          d.fromPin.guid = e2.toPin.guid → m.guid = e2.toPin.owner := by
        intro e2 he2 m hm d hd hfg
        rcases hrel m hm with ⟨m0, hm0, hge, hos, _⟩
        rw [hge]
        exact hloc e2 (by simp [he2]) m0 hm0 d (hos d hd) hfg
      have havail1 : ∀ q, ((rest.map reqPair).count q)
          ≤ (outPairs (g.modifyNode e.toPin.owner
              (fun m => m.disconnect e.toPin e.fromPin))).count q := by
        intro q
        have h1 := hstep q
        have h2 := havail q
        rw [hcount_cons q] at h2
        by_cases hq : q = reqPair e
        · rw [if_pos hq] at h1 h2
          omega
        · rw [if_neg hq] at h1 h2
          omega
      rcases ih _ hnd1 (fun e2 he2 => hdir e2 (by simp [he2])) hloc1 havail1 with ⟨hcnt, hinp⟩
      have hfold : disconnectDuals g (e :: rest)
          = disconnectDuals (g.modifyNode e.toPin.owner
              (fun m => m.disconnect e.toPin e.fromPin)) rest := rfl
      constructor
      · intro q
        have h1 := hstep q
        have h2 := hcnt q
        rw [hfold, hcount_cons q]
        omega
      · rw [hfold, hinp, hstepin]

theorem disconnectDuals_in_ledger (R : List FEdge) :
    ∀ (g : FGraph),
      GuidsNodup g →
      (∀ e ∈ R, e.toPin.dir = Dir.input) →
      (∀ e ∈ R, ∀ m ∈ g.nodes, ∀ d ∈ m.inEdges,
          d.fromPin.guid = e.toPin.guid → m.guid = e.toPin.owner) →
      (∀ q, (R.map reqPairIn).count q ≤ (inPairsSw g).count q) →
      (∀ q, (inPairsSw (disconnectDuals g R)).count q + (R.map reqPairIn).count q
          = (inPairsSw g).count q) ∧
        outPairs (disconnectDuals g R) = outPairs g := by
  induction R with
  | nil =>
      intro g _ _ _ _
      exact ⟨fun q => by simp [disconnectDuals], rfl⟩
  | cons e rest ih =>
      intro g hnd hdir hloc havail
      have hd_e : e.toPin.dir = Dir.input := hdir e (by simp)
      have hloc_e := hloc e (by simp)
      have hcount_cons : ∀ q, ((e :: rest).map reqPairIn).count q
          = (rest.map reqPairIn).count q + (if q = reqPairIn e then 1 else 0) := by
        intro q
        simp only [List.map_cons, List.count_cons]
        by_cases hq : q = reqPairIn e
        · simp [hq]
        · simp [hq]
          exact fun hx => hq hx.symm
      have havail_e : 1 ≤ (inPairsSw g).count (reqPairIn e) := by
        have h2 := havail (reqPairIn e)
        rw [hcount_cons (reqPairIn e)] at h2
        simp at h2
        omega
      have hstep := step_in_count g e hnd hd_e hloc_e havail_e
      have hstepout := step_out_preserved g e hd_e
      have hnd1 : GuidsNodup (g.modifyNode e.toPin.owner
          (fun m => m.disconnect e.toPin e.fromPin)) := by
        show ((g.modifyNode e.toPin.owner
          (fun m => m.disconnect e.toPin e.fromPin)).nodes.map (·.guid)).Nodup
        rw [modifyNode_guids g _ _ (fun n => disconnect_guid n _ _)]
        exact hnd
      have hrel := modifyNode_nodes_rel g e.toPin.owner
        (fun m => m.disconnect e.toPin e.fromPin)
        (fun n => ⟨disconnect_guid n _ _, disconnect_out_subset n _ _,
          disconnect_in_subset n _ _⟩)
      have hloc1 : ∀ e2 ∈ rest, ∀ m ∈ (g.modifyNode e.toPin.owner
          (fun m => m.disconnect e.toPin e.fromPin)).nodes, ∀ d ∈ m.inEdges,
          d.fromPin.guid = e2.toPin.guid → m.guid = e2.toPin.owner := by
        intro e2 he2 m hm d hd hfg
        rcases hrel m hm with ⟨m0, hm0, hge, _, his⟩
        rw [hge]
        exact hloc e2 (by simp [he2]) m0 hm0 d (his d hd) hfg
      have havail1 : ∀ q, ((rest.map reqPairIn).count q)
          ≤ (inPairsSw (g.modifyNode e.toPin.owner
              (fun m => m.disconnect e.toPin e.fromPin))).count q := by
        intro q
        have h1 := hstep q
        have h2 := havail q
        rw [hcount_cons q] at h2
        by_cases hq : q = reqPairIn e
        · rw [if_pos hq] at h1 h2
          omega
        · rw [if_neg hq] at h1 h2
          omega
      rcases ih _ hnd1 (fun e2 he2 => hdir e2 (by simp [he2])) hloc1 havail1 with ⟨hcnt, houtp⟩
      have hfold : disconnectDuals g (e :: rest)
          = disconnectDuals (g.modifyNode e.toPin.owner
              (fun m => m.disconnect e.toPin e.fromPin)) rest := rfl
      constructor
      · intro q
        have h1 := hstep q
        have h2 := hcnt q
        rw [hfold, hcount_cons q]
        omega
      · rw [hfold, houtp, hstepout]

theorem edgePin_mem_occPins (g : FGraph) (m : FNode) (hm : m ∈ g.nodes) (d : FEdge)
    (hd : d ∈ nodeEdges m) : d.fromPin ∈ occPins g ∧ d.toPin ∈ occPins g := by
  unfold occPins
  constructor
  · refine List.mem_append.mpr (Or.inr ?_)
    refine List.mem_flatten.mpr ⟨_, List.mem_map_of_mem _ hm, ?_⟩
    exact List.mem_append.mpr (Or.inl (List.mem_map_of_mem _ hd))
  · refine List.mem_append.mpr (Or.inr ?_)
    refine List.mem_flatten.mpr ⟨_, List.mem_map_of_mem _ hm, ?_⟩
    exact List.mem_append.mpr (Or.inr (List.mem_map_of_mem _ hd))

theorem count_comp_out_le (g : FGraph) (m : FNode) (hm : m ∈ g.nodes) (q : Nat × Nat) :
    (nodeOutPairs m).count q ≤ (outPairs g).count q := by
  rcases List.append_of_mem hm with ⟨pre, suf, hsplit⟩
  rw [eq_mk_of_split g pre suf m hsplit, outPairs_decomp]
  simp only [List.count_append]
  omega

theorem count_comp_in_le (g : FGraph) (m : FNode) (hm : m ∈ g.nodes) (q : Nat × Nat) :
    (nodeInPairsSw m).count q ≤ (inPairsSw g).count q := by
  rcases List.append_of_mem hm with ⟨pre, suf, hsplit⟩
  rw [eq_mk_of_split g pre suf m hsplit, inPairsSw_decomp]
  simp only [List.count_append]
  omega

theorem count_localized_out (g : FGraph) (hnd : GuidsNodup g) (q : Nat × Nat) (γ : Nat)
    (m0 : FNode) (hm0 : m0 ∈ g.nodes) (hm0g : m0.guid = γ)
    (hloc : ∀ m ∈ g.nodes, q ∈ nodeOutPairs m → m.guid = γ) :
    (outPairs g).count q = (nodeOutPairs m0).count q := by
  rcases List.append_of_mem hm0 with ⟨pre, suf, hsplit⟩
  have hguids := nodup_split_guids g hnd pre suf m0 hsplit
  have hzero : ∀ n ∈ g.nodes, n.guid ≠ m0.guid → q ∉ nodeOutPairs n := by
    intro n hn hne hc
    exact hne (by rw [hloc n hn hc, ← hm0g])
  conv_lhs => rw [eq_mk_of_split g pre suf m0 hsplit]
  rw [outPairs_decomp]
  simp only [List.count_append]
  have hpre0 : ((pre.map nodeOutPairs).flatten).count q = 0 := by
    rw [List.count_eq_zero]
    intro hc
    rcases List.mem_flatten.mp hc with ⟨lp, hlp, hq⟩
    rcases List.mem_map.mp hlp with ⟨n, hn, he2⟩
    exact hzero n (by rw [hsplit]; simp [hn]) (hguids.1 n hn) (by rw [← he2] at hq; exact hq)
  have hsuf0 : ((suf.map nodeOutPairs).flatten).count q = 0 := by
    rw [List.count_eq_zero]
    intro hc
    rcases List.mem_flatten.mp hc with ⟨lp, hlp, hq⟩
    rcases List.mem_map.mp hlp with ⟨n, hn, he2⟩
    exact hzero n (by rw [hsplit]; simp [hn]) (hguids.2 n hn) (by rw [← he2] at hq; exact hq)
  omega

theorem count_localized_in (g : FGraph) (hnd : GuidsNodup g) (q : Nat × Nat) (γ : Nat)
    (m0 : FNode) (hm0 : m0 ∈ g.nodes) (hm0g : m0.guid = γ)
    (hloc : ∀ m ∈ g.nodes, q ∈ nodeInPairsSw m → m.guid = γ) :
    (inPairsSw g).count q = (nodeInPairsSw m0).count q := by
  rcases List.append_of_mem hm0 with ⟨pre, suf, hsplit⟩
  have hguids := nodup_split_guids g hnd pre suf m0 hsplit
  have hzero : ∀ n ∈ g.nodes, n.guid ≠ m0.guid → q ∉ nodeInPairsSw n := by
    intro n hn hne hc
    exact hne (by rw [hloc n hn hc, ← hm0g])
  conv_lhs => rw [eq_mk_of_split g pre suf m0 hsplit]
  rw [inPairsSw_decomp]
  simp only [List.count_append]
  have hpre0 : ((pre.map nodeInPairsSw).flatten).count q = 0 := by
    rw [List.count_eq_zero]
    intro hc
    rcases List.mem_flatten.mp hc with ⟨lp, hlp, hq⟩
    rcases List.mem_map.mp hlp with ⟨n, hn, he2⟩
    exact hzero n (by rw [hsplit]; simp [hn]) (hguids.1 n hn) (by rw [← he2] at hq; exact hq)
  have hsuf0 : ((suf.map nodeInPairsSw).flatten).count q = 0 := by
    rw [List.count_eq_zero]
    intro hc
    rcases List.mem_flatten.mp hc with ⟨lp, hlp, hq⟩
    rcases List.mem_map.mp hlp with ⟨n, hn, he2⟩
    exact hzero n (by rw [hsplit]; simp [hn]) (hguids.2 n hn) (by rw [← he2] at hq; exact hq)
  omega

theorem findNode_eq_of_nodup (g : FGraph) (hnd : GuidsNodup g) (nd : FNode)
    (hmem : nd ∈ g.nodes) : g.findNode nd.guid = some nd := by
  rcases List.append_of_mem hmem with ⟨pre, suf, hsplit⟩
  have hguids := nodup_split_guids g hnd pre suf nd hsplit
  unfold FGraph.findNode
  rw [hsplit]
  have hfalse : ∀ n ∈ pre, ¬((n.guid == nd.guid) = true) := by
    intro n hn hc
    exact hguids.1 n hn (by simpa using hc)
  clear hsplit
  induction pre with
  | nil => simp
  | cons a t ih =>
      have ha : ¬((a.guid == nd.guid) = true) := hfalse a (by simp)
      have ha2 : (a.guid == nd.guid) = false := by
        cases hx : (a.guid == nd.guid)
        · rfl
        · exact absurd hx ha
      simp only [List.cons_append, List.find?_cons, ha2]
      exact ih ⟨fun n hn => hguids.1 n (by simp [hn]), hguids.2⟩
        (fun n hn hc => hfalse n (by simp [hn]) hc)

theorem outPairs_mk_append (A B : List FNode) :
    outPairs ⟨A ++ B⟩ = outPairs ⟨A⟩ ++ outPairs ⟨B⟩ := by
  unfold outPairs
  simp [List.map_append, List.flatten_append]

theorem inPairsSw_mk_append (A B : List FNode) :
    inPairsSw ⟨A ++ B⟩ = inPairsSw ⟨A⟩ ++ inPairsSw ⟨B⟩ := by
  unfold inPairsSw
  simp [List.map_append, List.flatten_append]

theorem occPins_transfer (g g2 : FGraph)
    (hrel : ∀ m2 ∈ g2.nodes, ∃ m ∈ g.nodes, m2.inPins = m.inPins ∧ m2.outPins = m.outPins ∧
      (∀ d ∈ m2.inEdges, d ∈ m.inEdges) ∧ (∀ d ∈ m2.outEdges, d ∈ m.outEdges)) :
    ∀ p ∈ occPins g2, p ∈ occPins g := by
  intro p hp
  unfold occPins at hp ⊢
  rcases List.mem_append.mp hp with hp1 | hp2
  · -- a pin list pin
    unfold allPinsG at hp1
    rcases List.mem_flatten.mp hp1 with ⟨lp, hlp, hq⟩
    rcases List.mem_map.mp hlp with ⟨m2, hm2, he⟩
    rcases hrel m2 hm2 with ⟨m, hm, hip, hop, _, _⟩
    refine List.mem_append.mpr (Or.inl ?_)
    unfold allPinsG
    refine List.mem_flatten.mpr ⟨m.allPins, List.mem_map_of_mem _ hm, ?_⟩
    rw [← he] at hq
    unfold FNode.allPins at hq ⊢
    rw [hip, hop] at hq
    exact hq
  · -- an edge pin
    rcases List.mem_flatten.mp hp2 with ⟨lp, hlp, hq⟩
    rcases List.mem_map.mp hlp with ⟨m2, hm2, he⟩
    rcases hrel m2 hm2 with ⟨m, hm, _, _, his, hos⟩
    have hsubE : ∀ d ∈ nodeEdges m2, d ∈ nodeEdges m := by
      intro d hd
      unfold nodeEdges at hd ⊢
      rcases List.mem_append.mp hd with h1 | h2
      · exact List.mem_append.mpr (Or.inl (his d h1))
      · exact List.mem_append.mpr (Or.inr (hos d h2))
    refine List.mem_append.mpr (Or.inr ?_)
    refine List.mem_flatten.mpr
      ⟨(nodeEdges m).map (·.fromPin) ++ (nodeEdges m).map (·.toPin),
        List.mem_map_of_mem _ hm, ?_⟩
    rw [← he] at hq
    rcases List.mem_append.mp hq with h1 | h2
    · rcases List.mem_map.mp h1 with ⟨d, hd, hde⟩
      exact List.mem_append.mpr (Or.inl (by rw [← hde]; exact List.mem_map_of_mem _ (hsubE d hd)))
    · rcases List.mem_map.mp h2 with ⟨d, hd, hde⟩
      exact List.mem_append.mpr (Or.inr (by rw [← hde]; exact List.mem_map_of_mem _ (hsubE d hd)))

theorem beqProd_eq (a b : Nat × Nat) :
    (@BEq.beq _ instBEqProd a b) = decide (a = b) := by
  cases a with
  | mk x y =>
      cases b with
      | mk z w =>
          show ((x == z) && (y == w)) = decide ((x, y) = (z, w))
          by_cases h1 : x = z <;> by_cases h2 : y = w <;> simp [h1, h2]

theorem count_inst_eq (q : Nat × Nat) :
    ∀ l : List (Nat × Nat),
      @List.count _ instBEqProd q l = @List.count _ instBEqOfDecidableEq q l := by
  intro l
  induction l with
  | nil => rfl
  | cons a t ih =>
      rw [@List.count_cons _ instBEqProd, @List.count_cons _ instBEqOfDecidableEq, ih,
        beqProd_eq]
      rfl

/-- RemoveNode keeps the graph well formed: all bookkeeping invariants of
    the dual edge representation survive, and exactly one node disappears.
    This is the heart of the termination argument for RemoveCycle. -/
theorem removeNode_preserves (g : FGraph) (nd : FNode)
    (hnd : GuidsNodup g) (hpu : PinsUnique g) (heo : EdgesOwned g)
    (hcons : Consistent g) (hmem : nd ∈ g.nodes) :
    GuidsNodup (g.removeNode nd) ∧ PinsUnique (g.removeNode nd) ∧
    EdgesOwned (g.removeNode nd) ∧ Consistent (g.removeNode nd) ∧
    (g.removeNode nd).nodes.length + 1 = g.nodes.length := by
  have hcnt : ∀ q, (outPairs g).count q = (inPairsSw g).count q := by
    intro q
    rw [count_inst_eq, count_inst_eq]
    exact (List.perm_iff_count.mp hcons) q
  have heo_nd := heo nd hmem
  have hdir1 : ∀ e ∈ nd.inEdges, e.toPin.dir = Dir.output :=
    fun e he => (heo_nd.1 e he).2.2
  have hloc1 : ∀ e ∈ nd.inEdges, ∀ m ∈ g.nodes, ∀ d ∈ m.outEdges,
      d.fromPin.guid = e.toPin.guid → m.guid = e.toPin.owner := by
    intro e he m hm d hd hfg
    have hp1 := (edgePin_mem_occPins g nd hmem e (by simp [nodeEdges, he])).2
    have hp2 := (edgePin_mem_occPins g m hm d (by simp [nodeEdges, hd])).1
    have heq : d.fromPin = e.toPin := hpu _ hp2 _ hp1 hfg
    have ho := ((heo m hm).2 d hd).1
    rw [← ho, heq]
  have hreq1 : nd.inEdges.map reqPair = nodeInPairsSw nd := rfl
  have havail1 : ∀ q, (nd.inEdges.map reqPair).count q ≤ (outPairs g).count q := by
    intro q
    rw [hreq1]
    have h1 := count_comp_in_le g nd hmem q
    have h2 := hcnt q
    omega
  rcases disconnectDuals_out_ledger nd.inEdges g hnd hdir1 hloc1 havail1 with ⟨P1cnt, P1in⟩
  have hg1nodes : (disconnectDuals g nd.inEdges).nodes
      = g.nodes.map (applyReqsToNode nd.inEdges) := disconnectDuals_nodes_eq _ _
  have hnd1 : GuidsNodup (disconnectDuals g nd.inEdges) := by
    show ((disconnectDuals g nd.inEdges).nodes.map (·.guid)).Nodup
    rw [hg1nodes]
    simp only [List.map_map]
    have : (g.nodes.map ((fun x : FNode => x.guid) ∘ applyReqsToNode nd.inEdges))
        = g.nodes.map (fun x : FNode => x.guid) := by
      refine List.map_congr_left ?_
      intro n _
      exact applyReqs_guid _ n
    rw [this]
    exact hnd
  have hfind1 : (disconnectDuals g nd.inEdges).findNode nd.guid
      = some (applyReqsToNode nd.inEdges nd) := by
    rw [findNode_disconnectDuals, findNode_eq_of_nodup g hnd nd hmem]
    rfl
  -- the working copy of nd after the first pass
  have hndCin : (applyReqsToNode nd.inEdges nd).inEdges = nd.inEdges :=
    applyReqs_inEdges_of_outdir _ hdir1 nd
  have hndCguid : (applyReqsToNode nd.inEdges nd).guid = nd.guid := applyReqs_guid _ nd
  have hndCout : ∀ d ∈ (applyReqsToNode nd.inEdges nd).outEdges, d ∈ nd.outEdges :=
    applyReqs_out_subset _ nd
  have hndCmem : (applyReqsToNode nd.inEdges nd) ∈ (disconnectDuals g nd.inEdges).nodes := by
    rw [hg1nodes]
    exact List.mem_map_of_mem _ hmem
  have hdir2 : ∀ e ∈ (applyReqsToNode nd.inEdges nd).outEdges, e.toPin.dir = Dir.input :=
    fun e he => ((heo_nd).2 e (hndCout e he)).2.2
  -- no out edge of the working copy still points back at nd
  have hselffree : ∀ e ∈ (applyReqsToNode nd.inEdges nd).outEdges,
      e.toPin.owner ≠ nd.guid := by
    intro e he hcontra
    have hend : e ∈ nd.outEdges := hndCout e he
    have hefo : e.fromPin.owner = nd.guid := ((heo_nd).2 e hend).1
    have hefp := (edgePin_mem_occPins g nd hmem e (by simp [nodeEdges, hend])).1
    have hetp := (edgePin_mem_occPins g nd hmem e (by simp [nodeEdges, hend])).2
    have hlocg : ∀ m ∈ g.nodes, (e.fromPin.guid, e.toPin.guid) ∈ nodeOutPairs m →
        m.guid = nd.guid := by
      intro m hm hqm
      rcases List.mem_map.mp hqm with ⟨d, hd, hde⟩
      have hfg : d.fromPin.guid = e.fromPin.guid := by
        have := congrArg Prod.fst hde
        simpa using this
      have hdp := (edgePin_mem_occPins g m hm d (by simp [nodeEdges, hd])).1
      have heq : d.fromPin = e.fromPin := hpu _ hdp _ hefp hfg
      rw [← ((heo m hm).2 d hd).1, heq, hefo]
    have hcout : (outPairs g).count (e.fromPin.guid, e.toPin.guid)
        = (nodeOutPairs nd).count (e.fromPin.guid, e.toPin.guid) :=
      count_localized_out g hnd _ nd.guid nd hmem rfl hlocg
    have hlocin : ∀ m ∈ g.nodes, (e.fromPin.guid, e.toPin.guid) ∈ nodeInPairsSw m →
        m.guid = nd.guid := by
      intro m hm hqm
      rcases List.mem_map.mp hqm with ⟨d, hd, hde⟩
      have hfg : d.fromPin.guid = e.toPin.guid := by
        have := congrArg Prod.snd hde
        simpa using this
      have hdp := (edgePin_mem_occPins g m hm d (by simp [nodeEdges, hd])).1
      have heq : d.fromPin = e.toPin := hpu _ hdp _ hetp hfg
      rw [← ((heo m hm).1 d hd).1, heq, hcontra]
    have hcin : (inPairsSw g).count (e.fromPin.guid, e.toPin.guid)
        = (nodeInPairsSw nd).count (e.fromPin.guid, e.toPin.guid) :=
      count_localized_in g hnd _ nd.guid nd hmem rfl hlocin
    have hlocg1 : ∀ m ∈ (disconnectDuals g nd.inEdges).nodes,
        (e.fromPin.guid, e.toPin.guid) ∈ nodeOutPairs m → m.guid = nd.guid := by
      intro m hm hqm
      rw [hg1nodes] at hm
      rcases List.mem_map.mp hm with ⟨m0, hm0, he0⟩
      rcases List.mem_map.mp hqm with ⟨d, hd, hde⟩
      have hd0 : d ∈ m0.outEdges := by
        have := applyReqs_out_subset nd.inEdges m0 d (by rw [he0]; exact hd)
        exact this
      have hq0 : (e.fromPin.guid, e.toPin.guid) ∈ nodeOutPairs m0 := by
        rw [← hde]
        exact List.mem_map_of_mem _ hd0
      rw [← he0, applyReqs_guid]
      exact hlocg m0 hm0 hq0
    have hcout1 : (outPairs (disconnectDuals g nd.inEdges)).count (e.fromPin.guid, e.toPin.guid)
        = (nodeOutPairs (applyReqsToNode nd.inEdges nd)).count (e.fromPin.guid, e.toPin.guid) :=
      count_localized_out _ hnd1 _ nd.guid _ hndCmem hndCguid hlocg1
    have hqmem : (e.fromPin.guid, e.toPin.guid)
        ∈ nodeOutPairs (applyReqsToNode nd.inEdges nd) := List.mem_map_of_mem _ he
    have hpos : 0 < (nodeOutPairs (applyReqsToNode nd.inEdges nd)).count
        (e.fromPin.guid, e.toPin.guid) := by
      rcases Nat.eq_zero_or_pos ((nodeOutPairs (applyReqsToNode nd.inEdges nd)).count
        (e.fromPin.guid, e.toPin.guid)) with h0 | hp
      · exact absurd (List.count_eq_zero.mp h0) (by simp [hqmem])
      · exact hp
    have hP1 := P1cnt (e.fromPin.guid, e.toPin.guid)
    rw [hreq1] at hP1
    have hc := hcnt (e.fromPin.guid, e.toPin.guid)
    omega
  have hloc2 : ∀ e ∈ (applyReqsToNode nd.inEdges nd).outEdges,
      ∀ m ∈ (disconnectDuals g nd.inEdges).nodes, ∀ d ∈ m.inEdges,
      d.fromPin.guid = e.toPin.guid → m.guid = e.toPin.owner := by
    intro e he m hm d hd hfg
    have hend : e ∈ nd.outEdges := hndCout e he
    rw [hg1nodes] at hm
    rcases List.mem_map.mp hm with ⟨m0, hm0, he0⟩
    have hin0 : d ∈ m0.inEdges := by
      have hie : (applyReqsToNode nd.inEdges m0).inEdges = m0.inEdges :=
        applyReqs_inEdges_of_outdir _ hdir1 m0
      rw [← he0, hie] at hd
      exact hd
    have hp1 := (edgePin_mem_occPins g nd hmem e (by simp [nodeEdges, hend])).2
    have hp2 := (edgePin_mem_occPins g m0 hm0 d (by simp [nodeEdges, hin0])).1
    have heq : d.fromPin = e.toPin := hpu _ hp2 _ hp1 hfg
    rw [← he0, applyReqs_guid, ← ((heo m0 hm0).1 d hin0).1, heq]
  have hreq2 : (applyReqsToNode nd.inEdges nd).outEdges.map reqPairIn
      = nodeOutPairs (applyReqsToNode nd.inEdges nd) := rfl
  have havail2 : ∀ q, ((applyReqsToNode nd.inEdges nd).outEdges.map reqPairIn).count q
      ≤ (inPairsSw (disconnectDuals g nd.inEdges)).count q := by
    intro q
    rw [hreq2, P1in]
    have h1 := count_comp_out_le _ _ hndCmem q
    have h2 := P1cnt q
    have h3 := hcnt q
    omega
  rcases disconnectDuals_in_ledger (applyReqsToNode nd.inEdges nd).outEdges
    (disconnectDuals g nd.inEdges) hnd1 hdir2 hloc2 havail2 with ⟨P2cnt, P2out⟩
  have hg2nodes : (disconnectDuals (disconnectDuals g nd.inEdges)
      (applyReqsToNode nd.inEdges nd).outEdges).nodes
      = (disconnectDuals g nd.inEdges).nodes.map
          (applyReqsToNode (applyReqsToNode nd.inEdges nd).outEdges) :=
    disconnectDuals_nodes_eq _ _
  -- unfold RemoveNode
  have hrem : g.removeNode nd
      = ⟨(disconnectDuals (disconnectDuals g nd.inEdges)
          (applyReqsToNode nd.inEdges nd).outEdges).nodes.filter
            (fun n => n.guid != nd.guid)⟩ := by
    simp only [FGraph.removeNode]
    rw [hfind1]
    rfl
  -- decompose the node list
  rcases List.append_of_mem hmem with ⟨pre, suf, hsplit⟩
  have hguids := nodup_split_guids g hnd pre suf nd hsplit
  have hf2nd : applyReqsToNode (applyReqsToNode nd.inEdges nd).outEdges
      (applyReqsToNode nd.inEdges nd) = applyReqsToNode nd.inEdges nd := by
    refine applyReqs_id_of_not_target _ _ ?_
    intro e he
    rw [hndCguid]
    exact hselffree e he
  have hg2decomp : (disconnectDuals (disconnectDuals g nd.inEdges)
      (applyReqsToNode nd.inEdges nd).outEdges).nodes
      = ((pre.map (applyReqsToNode nd.inEdges)).map
          (applyReqsToNode (applyReqsToNode nd.inEdges nd).outEdges))
        ++ (applyReqsToNode nd.inEdges nd)
        :: ((suf.map (applyReqsToNode nd.inEdges)).map
          (applyReqsToNode (applyReqsToNode nd.inEdges nd).outEdges)) := by
    rw [hg2nodes, hg1nodes, hsplit]
    simp only [List.map_append, List.map_cons]
    rw [hf2nd]
  -- the filter drops exactly the middle node
  have hAguid : ∀ m2 ∈ ((pre.map (applyReqsToNode nd.inEdges)).map
      (applyReqsToNode (applyReqsToNode nd.inEdges nd).outEdges)),
      m2.guid ≠ nd.guid := by
    intro m2 hm2
    rcases List.mem_map.mp hm2 with ⟨m1, hm1, he1⟩
    rcases List.mem_map.mp hm1 with ⟨m0, hm0, he0⟩
    rw [← he1, applyReqs_guid, ← he0, applyReqs_guid]
    exact hguids.1 m0 hm0
  have hBguid : ∀ m2 ∈ ((suf.map (applyReqsToNode nd.inEdges)).map
      (applyReqsToNode (applyReqsToNode nd.inEdges nd).outEdges)),
      m2.guid ≠ nd.guid := by
    intro m2 hm2
    rcases List.mem_map.mp hm2 with ⟨m1, hm1, he1⟩
    rcases List.mem_map.mp hm1 with ⟨m0, hm0, he0⟩
    rw [← he1, applyReqs_guid, ← he0, applyReqs_guid]
    exact hguids.2 m0 hm0
  have hfilter : (g.removeNode nd).nodes
      = ((pre.map (applyReqsToNode nd.inEdges)).map
          (applyReqsToNode (applyReqsToNode nd.inEdges nd).outEdges))
        ++ ((suf.map (applyReqsToNode nd.inEdges)).map
          (applyReqsToNode (applyReqsToNode nd.inEdges nd).outEdges)) := by
    rw [hrem]
    show ((disconnectDuals (disconnectDuals g nd.inEdges)
      (applyReqsToNode nd.inEdges nd).outEdges).nodes.filter
        (fun n => n.guid != nd.guid)) = _
    rw [hg2decomp, List.filter_append, List.filter_cons]
    have hmidguid : (((applyReqsToNode nd.inEdges nd).guid != nd.guid) = true) = False := by
      simp [hndCguid]
    rw [if_neg (by simp [hndCguid])]
    rw [List.filter_eq_self.mpr (fun a ha => by simpa using hAguid a ha),
      List.filter_eq_self.mpr (fun a ha => by simpa using hBguid a ha)]
  refine ⟨?_, ?_, ?_, ?_, ?_⟩
  · -- GuidsNodup
    show ((g.removeNode nd).nodes.map (·.guid)).Nodup
    rw [hfilter]
    have hmg : ∀ l : List FNode, ((l.map (applyReqsToNode nd.inEdges)).map
        (applyReqsToNode (applyReqsToNode nd.inEdges nd).outEdges)).map (·.guid)
        = l.map (·.guid) := by
      intro l
      simp only [List.map_map]
      refine List.map_congr_left ?_
      intro n _
      simp only [Function.comp]
      rw [applyReqs_guid, applyReqs_guid]
    rw [List.map_append, hmg pre, hmg suf]
    have hx : (g.nodes.map (·.guid)).Nodup := hnd
    rw [hsplit] at hx
    simp only [List.map_append, List.map_cons] at hx
    have hsub : (pre.map (·.guid) ++ suf.map (·.guid)).Sublist
        (pre.map (·.guid) ++ nd.guid :: suf.map (·.guid)) :=
      List.Sublist.append_left (List.sublist_cons_self _ _) _
    exact hx.sublist hsub
  · -- PinsUnique
    have hrel : ∀ m2 ∈ (g.removeNode nd).nodes, ∃ m ∈ g.nodes,
        m2.inPins = m.inPins ∧ m2.outPins = m.outPins ∧
        (∀ d ∈ m2.inEdges, d ∈ m.inEdges) ∧ (∀ d ∈ m2.outEdges, d ∈ m.outEdges) := by
      intro m2 hm2
      rw [hfilter] at hm2
      have hm2b : m2 ∈ ((pre ++ suf).map (applyReqsToNode nd.inEdges)).map
          (applyReqsToNode (applyReqsToNode nd.inEdges nd).outEdges) := by
        simp only [List.map_append]
        exact hm2
      rcases List.mem_map.mp hm2b with ⟨m1, hm1, he1⟩
      rcases List.mem_map.mp hm1 with ⟨m0, hm0, he0⟩
      refine ⟨m0, by rw [hsplit]; rcases List.mem_append.mp hm0 with h | h <;> simp [h], ?_⟩
      have hpins1 := applyReqs_pins nd.inEdges m0
      have hpins2 := applyReqs_pins (applyReqsToNode nd.inEdges nd).outEdges m1
      refine ⟨?_, ?_, ?_, ?_⟩
      · rw [← he1, hpins2.1, ← he0, hpins1.1]
      · rw [← he1, hpins2.2, ← he0, hpins1.2]
      · intro d hd
        have h1 := applyReqs_in_subset (applyReqsToNode nd.inEdges nd).outEdges m1 d
          (by rw [he1]; exact hd)
        have h2 := applyReqs_in_subset nd.inEdges m0 d (by rw [he0]; exact h1)
        exact h2
      · intro d hd
        have h1 := applyReqs_out_subset (applyReqsToNode nd.inEdges nd).outEdges m1 d
          (by rw [he1]; exact hd)
        have h2 := applyReqs_out_subset nd.inEdges m0 d (by rw [he0]; exact h1)
        exact h2
    intro p hp q hq he
    exact hpu p (occPins_transfer g _ hrel p hp) q (occPins_transfer g _ hrel q hq) he
  · -- EdgesOwned
    intro n2 hn2
    rw [hfilter] at hn2
    have hn2b : n2 ∈ ((pre ++ suf).map (applyReqsToNode nd.inEdges)).map
        (applyReqsToNode (applyReqsToNode nd.inEdges nd).outEdges) := by
      simp only [List.map_append]
      exact hn2
    rcases List.mem_map.mp hn2b with ⟨m1, hm1, he1⟩
    rcases List.mem_map.mp hm1 with ⟨m0, hm0, he0⟩
    have hm0g : m0 ∈ g.nodes := by
      rw [hsplit]
      rcases List.mem_append.mp hm0 with h | h <;> simp [h]
    have hgeq : n2.guid = m0.guid := by
      rw [← he1, applyReqs_guid, ← he0, applyReqs_guid]
    constructor
    · intro e he
      have h1 := applyReqs_in_subset (applyReqsToNode nd.inEdges nd).outEdges m1 e
        (by rw [he1]; exact he)
      have h2 := applyReqs_in_subset nd.inEdges m0 e (by rw [he0]; exact h1)
      have := (heo m0 hm0g).1 e h2
      exact ⟨by rw [hgeq, ← this.1], this.2.1, this.2.2⟩
    · intro e he
      have h1 := applyReqs_out_subset (applyReqsToNode nd.inEdges nd).outEdges m1 e
        (by rw [he1]; exact he)
      have h2 := applyReqs_out_subset nd.inEdges m0 e (by rw [he0]; exact h1)
      have := (heo m0 hm0g).2 e h2
      exact ⟨by rw [hgeq, ← this.1], this.2.1, this.2.2⟩
  · -- Consistent
    refine List.perm_iff_count.mpr ?_
    intro q
    rw [← count_inst_eq, ← count_inst_eq]
    -- count identities for the final graph
    have hg2eq : (disconnectDuals (disconnectDuals g nd.inEdges)
        (applyReqsToNode nd.inEdges nd).outEdges)
        = ⟨((pre.map (applyReqsToNode nd.inEdges)).map
            (applyReqsToNode (applyReqsToNode nd.inEdges nd).outEdges))
          ++ (applyReqsToNode nd.inEdges nd)
          :: ((suf.map (applyReqsToNode nd.inEdges)).map
            (applyReqsToNode (applyReqsToNode nd.inEdges nd).outEdges))⟩ :=
      eq_mk_of_split _ _ _ _ hg2decomp
    have hreseq : g.removeNode nd
        = ⟨((pre.map (applyReqsToNode nd.inEdges)).map
            (applyReqsToNode (applyReqsToNode nd.inEdges nd).outEdges))
          ++ ((suf.map (applyReqsToNode nd.inEdges)).map
            (applyReqsToNode (applyReqsToNode nd.inEdges nd).outEdges))⟩ :=
      eq_mk_nodes _ _ hfilter
    have hout2 := P2cnt q
    rw [hreq2] at hout2
    have hout1 := P1cnt q
    rw [hreq1] at hout1
    have hc := hcnt q
    have hP2out := congrArg (List.count q) P2out
    have hP1in := congrArg (List.count q) P1in
    have houtmk : ∀ l : List FNode, outPairs ⟨l⟩ = (l.map nodeOutPairs).flatten :=
      fun l => rfl
    have hinmk : ∀ l : List FNode, inPairsSw ⟨l⟩ = (l.map nodeInPairsSw).flatten :=
      fun l => rfl
    have hCin : nodeInPairsSw (applyReqsToNode nd.inEdges nd) = nodeInPairsSw nd := by
      unfold nodeInPairsSw
      rw [hndCin]
    have ho : (outPairs (g.removeNode nd)).count q
        + (nodeOutPairs (applyReqsToNode nd.inEdges nd)).count q
        = (outPairs (disconnectDuals (disconnectDuals g nd.inEdges)
            (applyReqsToNode nd.inEdges nd).outEdges)).count q := by
      rw [hreseq, hg2eq, outPairs_mk_append, outPairs_decomp]
      simp only [List.count_append, houtmk]
      omega
    have hi : (inPairsSw (g.removeNode nd)).count q
        + (nodeInPairsSw (applyReqsToNode nd.inEdges nd)).count q
        = (inPairsSw (disconnectDuals (disconnectDuals g nd.inEdges)
            (applyReqsToNode nd.inEdges nd).outEdges)).count q := by
      rw [hreseq, hg2eq, inPairsSw_mk_append, inPairsSw_decomp]
      simp only [List.count_append, hinmk]
      omega
    rw [hCin] at hi
    omega
  · -- length
    rw [hfilter, hsplit]
    simp only [List.length_append, List.length_map, List.length_cons]
    omega

theorem sum_le_of_ptwise (f g2 : FNode → Nat) :
    ∀ l : List FNode, (∀ n ∈ l, f n ≤ g2 n) → (l.map f).sum ≤ (l.map g2).sum := by
  intro l
  induction l with
  | nil => intro _; simp
  | cons a t ih =>
      intro h
      simp only [List.map_cons, List.sum_cons]
      have h1 := h a (by simp)
      have h2 := ih (fun n hn => h n (by simp [hn]))
      omega

theorem sum_lt_of_ptwise (f g2 : FNode → Nat) :
    ∀ l : List FNode, l ≠ [] → (∀ n ∈ l, f n < g2 n) → (l.map f).sum < (l.map g2).sum := by
  intro l
  induction l with
  | nil => intro h _; exact absurd rfl h
  | cons a t ih =>
      intro _ h
      simp only [List.map_cons, List.sum_cons]
      have h1 := h a (by simp)
      have h2 := sum_le_of_ptwise f g2 t (fun n hn => Nat.le_of_lt (h n (by simp [hn])))
      omega

theorem outPairs_length (g : FGraph) :
    (outPairs g).length = (g.nodes.map (fun n => n.outEdges.length)).sum := by
  unfold outPairs
  rw [List.length_flatten]
  simp only [List.map_map]
  refine congrArg List.sum (List.map_congr_left ?_)
  intro n _
  simp [Function.comp]

theorem inPairsSw_length (g : FGraph) :
    (inPairsSw g).length = (g.nodes.map (fun n => n.inEdges.length)).sum := by
  unfold inPairsSw
  rw [List.length_flatten]
  simp only [List.map_map]
  refine congrArg List.sum (List.map_congr_left ?_)
  intro n _
  simp [Function.comp]

/-- In a consistent graph the total out degree equals the total in degree,
    so some node has out-degree at least its in-degree and FindMedianNode
    cannot return null on a non-empty graph. -/
theorem exists_nonneg_diff (g : FGraph) (hcons : Consistent g) (hne : g.nodes ≠ []) :
    ∃ n ∈ g.nodes, (0 : Int) ≤ n.degreeDiff := by
  by_contra hc
  push_neg at hc
  have hall : ∀ n ∈ g.nodes, n.outEdges.length < n.inEdges.length := by
    intro n hn
    have := hc n hn
    unfold FNode.degreeDiff at this
    omega
  have hlt := sum_lt_of_ptwise (fun n => n.outEdges.length) (fun n => n.inEdges.length)
    g.nodes hne hall
  have hlen : (outPairs g).length = (inPairsSw g).length := hcons.length_eq
  rw [outPairs_length, inPairsSw_length] at hlen
  omega

theorem fmAux_mem : ∀ (l : List FNode) (mx : Int) (r : Option FNode) (m : FNode),
    fmAux l mx r = some m → r = some m ∨ m ∈ l := by
  intro l
  induction l with
  | nil => intro mx r m h; exact Or.inl h
  | cons a t ih =>
      intro mx r m h
      unfold fmAux at h
      by_cases ha : a.degreeDiff ≥ mx
      · rw [if_pos ha] at h
        rcases ih _ _ _ h with h1 | h2
        · exact Or.inr (by simp [Option.some.injEq] at h1; simp [h1])
        · exact Or.inr (by simp [h2])
      · rw [if_neg ha] at h
        rcases ih _ _ _ h with h1 | h2
        · exact Or.inl h1
        · exact Or.inr (by simp [h2])

theorem findMedianNode_mem (g : FGraph) (m : FNode) (h : g.findMedianNode = some m) :
    m ∈ g.nodes := by
  rcases fmAux_mem g.nodes 0 none m h with h1 | h2
  · cases h1
  · exact h2

/-- C5: whenever some node of the graph has out-degree minus in-degree at
    least 0, FindMedianNode returns a node attaining the maximal degree
    difference, and among the nodes attaining the maximum it returns the
    last one in the node list iteration order. -/
theorem findMedianNode_max_last (g : FGraph)
    (h : ∃ n ∈ g.nodes, (0 : Int) ≤ n.degreeDiff) :
    ∃ (l1 l2 : List FNode) (m : FNode),
      g.nodes = l1 ++ m :: l2 ∧
      g.findMedianNode = some m ∧
      (∀ n ∈ g.nodes, n.degreeDiff ≤ m.degreeDiff) ∧
      (∀ n ∈ l2, n.degreeDiff < m.degreeDiff) := by
  rcases fmAux_spec g.nodes 0 none h with ⟨l1, l2, m, he, hres, _, hmax, hlast⟩
  exact ⟨l1, l2, m, he, hres, hmax, hlast⟩

theorem isCrossing_eq_decide (e1 e2 : IdxEdge) :
    isCrossing e1 e2 = decide (inverted e1 e2) := by
  unfold isCrossing inverted
  by_cases h1 : e1.fromIndex < e2.fromIndex <;>
    by_cases h2 : e2.toIndex < e1.toIndex <;>
    by_cases h3 : e2.fromIndex < e1.fromIndex <;>
    by_cases h4 : e1.toIndex < e2.toIndex <;>
    simp [h1, h2, h3, h4, gt_iff_lt]

theorem inverted_symm (e1 e2 : IdxEdge) : inverted e1 e2 ↔ inverted e2 e1 := by
  unfold inverted
  omega

theorem crossingLoopRev_eq (l : List IdxEdge) : crossingLoopRev l = bruteForceCount l := by
  induction l with
  | nil => rfl
  | cons e1 rest ih =>
      show (rest.reverse.countP (fun e2 => isCrossing e1 e2)) + crossingLoopRev rest
        = (rest.countP (fun e2 => decide (inverted e1 e2))) + bruteForceCount rest
      rw [ih]
      have h1 : rest.reverse.countP (fun e2 => isCrossing e1 e2)
          = rest.countP (fun e2 => isCrossing e1 e2) :=
        (List.reverse_perm rest).countP_eq _
      rw [h1]
      have h2 : rest.countP (fun e2 => isCrossing e1 e2)
          = rest.countP (fun e2 => decide (inverted e1 e2)) := by
        refine List.countP_congr ?_
        intro e2 _
        rw [isCrossing_eq_decide]
      rw [h2]

theorem bruteForce_perm {l1 l2 : List IdxEdge} (h : l1.Perm l2) :
    bruteForceCount l1 = bruteForceCount l2 := by
  induction h with
  | nil => rfl
  | cons x h ih =>
      show (_ + bruteForceCount _) = (_ + bruteForceCount _)
      rw [ih, h.countP_eq]
  | swap x y l =>
      show ((x :: l).countP (fun e2 => decide (inverted y e2)))
          + ((l.countP (fun e2 => decide (inverted x e2))) + bruteForceCount l)
        = ((y :: l).countP (fun e2 => decide (inverted x e2)))
          + ((l.countP (fun e2 => decide (inverted y e2))) + bruteForceCount l)
      rw [List.countP_cons, List.countP_cons]
      have hsym : (decide (inverted y x) : Bool) = decide (inverted x y) := by
        by_cases h : inverted x y
        · simp [h, (inverted_symm x y).mp h]
        · have h2 : ¬ inverted y x := fun hc => h ((inverted_symm y x).mp hc)
          simp [h, h2]
      rw [hsym]
      omega
  | trans h1 h2 ih1 ih2 => rw [ih1, ih2]

theorem crossingLoop_eq (es : List IdxEdge) : crossingLoop es = bruteForceCount es := by
  unfold crossingLoop
  rw [crossingLoopRev_eq]
  exact bruteForce_perm (List.reverse_perm es)

/-- C6: IsCrossing decides exactly the endpoint inversion formula, and the
    pop based CalculateCrossing loop computes the brute force count of
    inverted unordered edge pairs over every adjacent layer pair. -/
theorem isCrossing_iff_and_calculateCrossing_eq_bruteforce :
    (∀ e1 e2 : IdxEdge, isCrossing e1 e2 = true ↔ inverted e1 e2) ∧
    (∀ (g : FGraph) (order : List (List Nat)),
      calculateCrossing g order = bruteForceCrossing g order) := by
  constructor
  · intro e1 e2
    rw [isCrossing_eq_decide]
    exact decide_eq_true_iff
  · intro g order
    induction order with
    | nil => rfl
    | cons l1 rest ih =>
        cases rest with
        | nil => rfl
        | cons l2 rest2 =>
            show crossingLoop _ + calculateCrossing g (l2 :: rest2)
              = bruteForceCount _ + bruteForceCrossing g (l2 :: rest2)
            rw [crossingLoop_eq, ih]

theorem sweepGo_spec (g : FGraph) (ll : List (List Nat)) :
    ∀ (r i : Nat) (best : List (List Nat)),
      (∃ j, j ≤ i ∧ best = orderIter g ll j) →
      (∀ j, j ≤ i → calculateCrossing g best ≤ calculateCrossing g (orderIter g ll j)) →
      (∃ j, j ≤ i + r ∧ doOrderingSweepGo g r i (orderIter g ll i) best = orderIter g ll j) ∧
      (∀ j, j ≤ i + r →
        calculateCrossing g (doOrderingSweepGo g r i (orderIter g ll i) best)
          ≤ calculateCrossing g (orderIter g ll j)) := by
  intro r
  induction r with
  | zero =>
      intro i best hex hmin
      constructor
      · rcases hex with ⟨j, hj, hb⟩
        exact ⟨j, by omega, by simpa [doOrderingSweepGo] using hb⟩
      · intro j hj
        have := hmin j (by omega)
        simpa [doOrderingSweepGo] using this
  | succ r ih =>
      intro i best hex hmin
      have hstep : doOrderingSweepGo g (r + 1) i (orderIter g ll i) best
          = doOrderingSweepGo g r (i + 1) (orderIter g ll (i + 1))
              (if calculateCrossing g (orderIter g ll (i + 1)) < calculateCrossing g best
               then orderIter g ll (i + 1) else best) := rfl
      rw [hstep]
      have hex2 : ∃ j, j ≤ i + 1 ∧
          (if calculateCrossing g (orderIter g ll (i + 1)) < calculateCrossing g best
           then orderIter g ll (i + 1) else best) = orderIter g ll j := by
        by_cases hc : calculateCrossing g (orderIter g ll (i + 1)) < calculateCrossing g best
        · exact ⟨i + 1, le_rfl, by rw [if_pos hc]⟩
        · rcases hex with ⟨j, hj, hb⟩
          exact ⟨j, by omega, by rw [if_neg hc]; exact hb⟩
      have hmin2 : ∀ j, j ≤ i + 1 →
          calculateCrossing g
            (if calculateCrossing g (orderIter g ll (i + 1)) < calculateCrossing g best
             then orderIter g ll (i + 1) else best)
          ≤ calculateCrossing g (orderIter g ll j) := by
        intro j hj
        by_cases hc : calculateCrossing g (orderIter g ll (i + 1)) < calculateCrossing g best
        · rw [if_pos hc]
          by_cases hji : j = i + 1
          · subst hji
            exact le_rfl
          · have := hmin j (by omega)
            omega
        · rw [if_neg hc]
          by_cases hji : j = i + 1
          · subst hji
            omega
          · exact hmin j (by omega)
      have hres := ih (i + 1) _ hex2 hmin2
      constructor
      · rcases hres.1 with ⟨j, hj, he⟩
        exact ⟨j, by omega, he⟩
      · intro j hj
        exact hres.2 j (by omega)

/-- C4: the layered list stored by DoOrderingSweep is one of the orderings
    produced by the successive alternating-direction passes (or the initial
    one), and its crossing count is minimal among all of them; in
    particular it never exceeds the crossing count of the initial
    ordering. -/
theorem doOrderingSweep_min (g : FGraph) (ll : List (List Nat)) (m : Nat) :
    (∃ j, j ≤ m ∧ doOrderingSweep g ll m = orderIter g ll j) ∧
    (∀ j, j ≤ m → calculateCrossing g (doOrderingSweep g ll m)
        ≤ calculateCrossing g (orderIter g ll j)) ∧
    calculateCrossing g (doOrderingSweep g ll m) ≤ calculateCrossing g ll := by
  have h0 : (∃ j, j ≤ 0 ∧ ll = orderIter g ll j) := ⟨0, le_rfl, rfl⟩
  have hm0 : ∀ j, j ≤ 0 → calculateCrossing g ll ≤ calculateCrossing g (orderIter g ll j) := by
    intro j hj
    have : j = 0 := by omega
    subst this
    exact le_rfl
  have hres := sweepGo_spec g ll m 0 ll h0 hm0
  refine ⟨?_, ?_, ?_⟩
  · rcases hres.1 with ⟨j, hj, he⟩
    exact ⟨j, by omega, he⟩
  · intro j hj
    exact hres.2 j (by omega)
  · exact hres.2 0 (by omega)

/-- Witness for C4 on the two layer crossing example with three sweep
    iterations. -/
theorem doOrderingSweep_min_witness :
    calculateCrossing ordG (doOrderingSweep ordG ordLL 3)
      ≤ calculateCrossing ordG (orderIter ordG ordLL 2) :=
  (doOrderingSweep_min ordG ordLL 3).2.1 2 (by decide)

/-- The mechanism behind the median elimination loop: a non-empty
    consistent well formed graph always yields a median node, the node is
    a member, and removing it shrinks the graph by exactly one node while
    keeping it well formed. -/
theorem median_step (h2 : FGraph) (hnd : GuidsNodup h2) (hpu : PinsUnique h2)
    (heo : EdgesOwned h2) (hcons : Consistent h2) (hne : h2.nodes ≠ []) :
    ∃ mn, h2.findMedianNode = some mn ∧ mn ∈ h2.nodes ∧
      (h2.removeNode mn).nodes.length + 1 = h2.nodes.length := by
  have hdiff := exists_nonneg_diff h2 hcons hne
  rcases fmAux_spec h2.nodes 0 none hdiff with ⟨l1, l2, m, hsp, hres, _, _, _⟩
  have hmem : m ∈ h2.nodes := by rw [hsp]; simp
  have hp := removeNode_preserves h2 m hnd hpu heo hcons hmem
  exact ⟨m, hres, hmem, hp.2.2.2.2⟩

theorem medianLoop_empties :
    ∀ (fuel : Nat) (orig clone : FGraph),
      GuidsNodup clone → PinsUnique clone → EdgesOwned clone → Consistent clone →
      clone.nodes.length ≤ fuel →
      ((medianLoopF fuel orig clone).2).nodes = [] := by
  intro fuel
  induction fuel with
  | zero =>
      intro orig clone _ _ _ _ hlen
      have : clone.nodes = [] := List.length_eq_zero.mp (by omega)
      simpa [medianLoopF] using this
  | succ fuel ih =>
      intro orig clone hnd hpu heo hcons hlen
      unfold medianLoopF
      cases hmed : clone.findMedianNode with
      | none =>
          by_cases hne : clone.nodes = []
          · simpa using hne
          · rcases median_step clone hnd hpu heo hcons hne with ⟨mn, hres, _, _⟩
            rw [hmed] at hres
            cases hres
      | some mn =>
          have hmem := findMedianNode_mem clone mn hmed
          have hp := removeNode_preserves clone mn hnd hpu heo hcons hmem
          exact ih _ (clone.removeNode mn) hp.1 hp.2.1 hp.2.2.1 hp.2.2.2.1
            (by have := hp.2.2.2.2; omega)

theorem removeSourcesLoopF_preserves :
    ∀ (fuel : Nat) (g : FGraph),
      GuidsNodup g → PinsUnique g → EdgesOwned g → Consistent g →
      GuidsNodup (removeSourcesLoopF fuel g) ∧ PinsUnique (removeSourcesLoopF fuel g) ∧
      EdgesOwned (removeSourcesLoopF fuel g) ∧ Consistent (removeSourcesLoopF fuel g) := by
  intro fuel
  induction fuel with
  | zero => intro g h1 h2 h3 h4; exact ⟨h1, h2, h3, h4⟩
  | succ fuel ih =>
      intro g h1 h2 h3 h4
      unfold removeSourcesLoopF
      cases hs : g.findSourceNode with
      | none => exact ⟨h1, h2, h3, h4⟩
      | some n =>
          have hmem : n ∈ g.nodes := List.mem_of_find?_eq_some hs
          have hp := removeNode_preserves g n h1 h2 h3 h4 hmem
          exact ih _ hp.1 hp.2.1 hp.2.2.1 hp.2.2.2.1

theorem removeSinksLoopF_preserves :
    ∀ (fuel : Nat) (g : FGraph),
      GuidsNodup g → PinsUnique g → EdgesOwned g → Consistent g →
      GuidsNodup (removeSinksLoopF fuel g) ∧ PinsUnique (removeSinksLoopF fuel g) ∧
      EdgesOwned (removeSinksLoopF fuel g) ∧ Consistent (removeSinksLoopF fuel g) := by
  intro fuel
  induction fuel with
  | zero => intro g h1 h2 h3 h4; exact ⟨h1, h2, h3, h4⟩
  | succ fuel ih =>
      intro g h1 h2 h3 h4
      unfold removeSinksLoopF
      cases hs : g.findSinkNode with
      | none => exact ⟨h1, h2, h3, h4⟩
      | some n =>
          have hmem : n ∈ g.nodes := List.mem_of_find?_eq_some hs
          have hp := removeNode_preserves g n h1 h2 h3 h4 hmem
          exact ih _ hp.1 hp.2.1 hp.2.2.1 hp.2.2.2.1

/-- C10: the RemoveCycle loops always empty the working clone.  For every
    well formed graph (guids indexable, every edge recorded in both its
    tail node out list and its head node in list), whenever the source and
    sink loops can make no further progress the median loop still finds a
    node on a non-empty clone (the degree differences sum to zero, so some
    node has out-degree at least in-degree), each iteration removes exactly
    one node, and the clone RemoveCycle discards at the end is empty. -/
theorem removeCycle_clone_empties (g : FGraph)
    (hnd : GuidsNodup g) (hpu : PinsUnique g) (heo : EdgesOwned g)
    (hcons : Consistent g) (hres : PinsResolvable g) :
    (∀ h2 : FGraph, GuidsNodup h2 → PinsUnique h2 → EdgesOwned h2 → Consistent h2 →
      h2.nodes ≠ [] → ∃ mn, h2.findMedianNode = some mn ∧ mn ∈ h2.nodes ∧
        (h2.removeNode mn).nodes.length + 1 = h2.nodes.length) ∧
    ((medianLoopF ((g.cloneGraph.removeSourcesLoop).removeSinksLoop).nodes.length g
        ((g.cloneGraph.removeSourcesLoop).removeSinksLoop)).2).nodes = [] := by
  constructor
  · exact fun h2 => median_step h2
  · have hclone : g.cloneGraph = g := cloneGraph_restores g hnd hres heo
    rw [hclone]
    have hsrc := removeSourcesLoopF_preserves g.nodes.length g hnd hpu heo hcons
    have hsink := removeSinksLoopF_preserves
      g.removeSourcesLoop.nodes.length g.removeSourcesLoop
      hsrc.1 hsrc.2.1 hsrc.2.2.1 hsrc.2.2.2
    exact medianLoop_empties _ g _ hsink.1 hsink.2.1 hsink.2.2.1 hsink.2.2.2 le_rfl

/-- Witness for C5 at the 3-cycle graph: all degree differences are 0, so
    FindMedianNode returns the last node C. -/
theorem findMedianNode_max_last_witness :
    ∃ (l1 l2 : List FNode) (m : FNode),
      cycle3.nodes = l1 ++ m :: l2 ∧
      cycle3.findMedianNode = some m ∧
      (∀ n ∈ cycle3.nodes, n.degreeDiff ≤ m.degreeDiff) ∧
      (∀ n ∈ l2, n.degreeDiff < m.degreeDiff) :=
  findMedianNode_max_last cycle3
    ⟨⟨1, [pinAI], [pinAO], [⟨pinAI, pinCO⟩], [⟨pinAO, pinBI⟩]⟩, by decide, by decide⟩

/-- Witness for C10 at the 3-cycle graph: the clone of the removal pipeline
    is empty at the end. -/
theorem removeCycle_clone_empties_witness :
    ((medianLoopF ((cycle3.cloneGraph.removeSourcesLoop).removeSinksLoop).nodes.length cycle3
        ((cycle3.cloneGraph.removeSourcesLoop).removeSinksLoop)).2).nodes = [] :=
  (removeCycle_clone_empties cycle3 (by decide) (by decide) (by decide)
    (by decide) (by decide)).2

theorem mem_leaves0 (g : FGraph) (d : Nat → Nat) (n : FNode) :
    n ∈ leaves0 g d ↔ n ∈ g.nodes ∧ d n.guid = 0 ∧ anySucc0 d n = false := by
  unfold leaves0
  rw [List.mem_filter, Bool.and_eq_true, Bool.not_eq_true', beq_iff_eq]

theorem assignLeaves_ne_zero (g : FGraph) (d : Nat → Nat) (cur γ : Nat)
    (h : d γ ≠ 0) : assignLeaves (leaves0 g d) cur d γ = d γ := by
  unfold assignLeaves
  have hfalse : (leaves0 g d).any (fun n => n.guid == γ) = false := by
    rw [List.any_eq_false]
    intro n hn hc
    have hg : n.guid = γ := by simpa using hc
    have := ((mem_leaves0 g d n).mp hn).2.1
    rw [hg] at this
    exact h this
  simp [hfalse]

theorem guid_inj (g : FGraph) (hnd : GuidsNodup g) (u v : FNode)
    (hu : u ∈ g.nodes) (hv : v ∈ g.nodes) (h : u.guid = v.guid) : u = v := by
  have hx : (g.nodes.map (·.guid)).Nodup := hnd
  exact List.inj_on_of_nodup_map hx hu hv h

theorem assignLeaves_step (g : FGraph) (d : Nat → Nat) (cur : Nat)
    (hnd : GuidsNodup g) (hcur : ∀ γ, d γ < cur) (hresp : EdgeResp g d) :
    EdgeResp g (assignLeaves (leaves0 g d) cur d) := by
  intro u hu e he hne
  have htgt : ∀ γt, d γt ≠ 0 → assignLeaves (leaves0 g d) cur d γt = d γt :=
    fun γt h => assignLeaves_ne_zero g d cur γt h
  by_cases hcase : (leaves0 g d).any (fun n => n.guid == u.guid) = true
  · rcases List.any_eq_true.mp hcase with ⟨m, hm, hmg⟩
    have hmg2 : m.guid = u.guid := by simpa using hmg
    rcases (mem_leaves0 g d m).mp hm with ⟨hmn, _, hms⟩
    have hmu : m = u := guid_inj g hnd m u hmn hu hmg2
    subst hmu
    have hsz : d e.toPin.owner ≠ 0 := by
      unfold anySucc0 at hms
      rw [List.any_eq_false] at hms
      intro hz
      exact hms e he (by simpa using hz)
    refine ⟨by rw [htgt _ hsz]; exact hsz, ?_⟩
    rw [htgt _ hsz]
    have h1 : assignLeaves (leaves0 g d) cur d m.guid = cur := by
      unfold assignLeaves
      simp [hcase]
    rw [h1]
    exact hcur _
  · have hfa : (leaves0 g d).any (fun n => n.guid == u.guid) = false :=
      Bool.eq_false_iff.mpr hcase
    have hueq : assignLeaves (leaves0 g d) cur d u.guid = d u.guid := by
      unfold assignLeaves
      simp [hfa]
    rw [hueq] at hne
    rcases hresp u hu e he hne with ⟨h1, h2⟩
    rw [hueq, htgt _ h1]
    exact ⟨h1, h2⟩

theorem clpAux_invariant (g : FGraph) (hnd : GuidsNodup g) :
    ∀ (fuel : Nat) (d : Nat → Nat) (cur : Nat), 1 ≤ cur → (∀ γ, d γ < cur) →
      EdgeResp g d →
      (∀ γ, (clpAux g fuel d cur).1 γ ≤ (clpAux g fuel d cur).2) ∧
      EdgeResp g (clpAux g fuel d cur).1 := by
  intro fuel
  induction fuel with
  | zero =>
      intro d cur h1 h2 h3
      refine ⟨?_, h3⟩
      intro γ
      show d γ ≤ cur - 1
      have := h2 γ
      omega
  | succ fuel ih =>
      intro d cur h1 h2 h3
      have hstep : clpAux g (fuel + 1) d cur =
          if (leaves0 g d).isEmpty then (d, cur - 1)
          else clpAux g fuel (assignLeaves (leaves0 g d) cur d) (cur + 1) := rfl
      by_cases hemp : (leaves0 g d).isEmpty = true
      · rw [hstep, if_pos hemp]
        refine ⟨?_, h3⟩
        intro γ
        have := h2 γ
        show d γ ≤ cur - 1
        omega
      · rw [hstep, if_neg hemp]
        apply ih
        · omega
        · intro γ
          unfold assignLeaves
          by_cases hc : (leaves0 g d).any (fun n => n.guid == γ) = true
          · simp [hc]
          · have := h2 γ
            simp [hc]
            omega
        · exact assignLeaves_step g d cur hnd h2 h3

theorem countP_lt_of_witness {α : Type} (l : List α) (p q : α → Bool)
    (hpq : ∀ a ∈ l, q a = true → p a = true) (m : α) (hm : m ∈ l)
    (hp : p m = true) (hq : q m = false) : l.countP q < l.countP p := by
  rcases List.append_of_mem hm with ⟨s, t, rfl⟩
  rw [List.countP_append, List.countP_append, List.countP_cons, List.countP_cons,
    hp, hq]
  have h1 : s.countP q ≤ s.countP p :=
    List.countP_mono_left (fun a ha => hpq a (by simp [ha]))
  have h2 : t.countP q ≤ t.countP p :=
    List.countP_mono_left (fun a ha => hpq a (by simp [ha]))
  simp only [Bool.false_eq_true, reduceIte, if_false]
  omega

theorem clpAux_fixpoint (g : FGraph) :
    ∀ (fuel : Nat) (d : Nat → Nat) (cur : Nat), 1 ≤ cur → countZero g d < fuel →
      leaves0 g ((clpAux g fuel d cur).1) = [] := by
  intro fuel
  induction fuel with
  | zero =>
      intro d cur h1 h2
      omega
  | succ fuel ih =>
      intro d cur h1 h2
      have hstep : clpAux g (fuel + 1) d cur =
          if (leaves0 g d).isEmpty then (d, cur - 1)
          else clpAux g fuel (assignLeaves (leaves0 g d) cur d) (cur + 1) := rfl
      by_cases hemp : (leaves0 g d).isEmpty = true
      · rw [hstep, if_pos hemp]
        exact List.isEmpty_iff.mp hemp
      · rw [hstep, if_neg hemp]
        apply ih _ _ (by omega)
        have hne : leaves0 g d ≠ [] := fun h => hemp (by simp [h])
        rcases List.exists_mem_of_ne_nil _ hne with ⟨m, hm⟩
        rcases (mem_leaves0 g d m).mp hm with ⟨hmn, hmd, _⟩
        have hlt : countZero g (assignLeaves (leaves0 g d) cur d) < countZero g d := by
          apply countP_lt_of_witness _ _ _ ?_ m hmn (by simp [hmd]) ?_
          · intro a _ hq
            have haz : assignLeaves (leaves0 g d) cur d a.guid = 0 := by simpa using hq
            unfold assignLeaves at haz
            by_cases hc : (leaves0 g d).any (fun n => n.guid == a.guid) = true
            · rw [if_pos hc] at haz
              omega
            · rw [if_neg hc] at haz
              simp [haz]
          · have hany : (leaves0 g d).any (fun n => n.guid == m.guid) = true :=
              List.any_eq_true.mpr ⟨m, hm, by simp⟩
            have : assignLeaves (leaves0 g d) cur d m.guid = cur := by
              unfold assignLeaves
              rw [if_pos hany]
            simp [this]
            omega
        omega

theorem countZero_le (g : FGraph) (d : Nat → Nat) : countZero g d ≤ g.nodes.length :=
  List.countP_le_length _

theorem depthMap_fixpoint (g : FGraph) : leaves0 g (depthMap g) = [] := by
  unfold depthMap
  apply clpAux_fixpoint g (g.nodes.length + 1) _ 1 le_rfl
  have := countZero_le g (fun _ => 0)
  omega

theorem depthMap_basic (g : FGraph) (hnd : GuidsNodup g) :
    EdgeResp g (depthMap g) ∧ ∀ γ, depthMap g γ ≤ longestPath g := by
  have h := clpAux_invariant g hnd (g.nodes.length + 1) (fun _ => 0) 1 le_rfl
    (fun γ => by show (0 : Nat) < 1; omega) (fun u _ e _ hne => absurd rfl hne)
  exact ⟨h.2, h.1⟩

theorem depthMap_pos (g : FGraph) (hcl : ClosedG g) (hac : g.Acyclic) :
    ∀ n ∈ g.nodes, depthMap g n.guid ≠ 0 := by
  rcases hac with ⟨f, hf⟩
  have hle := depthMap_fixpoint g
  have main : ∀ k, ∀ n ∈ g.nodes, f n.guid < k → depthMap g n.guid ≠ 0 := by
    intro k
    induction k with
    | zero =>
        intro n _ h
        omega
    | succ k ih =>
        intro n hn hfk hd0
        have hmem : n ∈ leaves0 g (depthMap g) := by
          rw [mem_leaves0]
          refine ⟨hn, hd0, ?_⟩
          unfold anySucc0
          rw [List.any_eq_false]
          intro e he hc
          have hcz : depthMap g e.toPin.owner = 0 := by simpa using hc
          have hmemg := hcl n hn e (List.mem_append.mpr (Or.inr he))
          rcases List.mem_map.mp hmemg with ⟨m, hm, hmg⟩
          have hfm : f m.guid < k := by
            have := hf n hn e he
            rw [hmg]
            omega
          exact ih m hm hfm (by rw [hmg]; exact hcz)
        rw [hle] at hmem
        exact absurd hmem (List.not_mem_nil _)
  intro n hn
  exact main (f n.guid + 1) n hn (by omega)

theorem mem_outPairs_of_edge (g : FGraph) (u : FNode) (hu : u ∈ g.nodes) (e : FEdge)
    (he : e ∈ u.outEdges) : (e.fromPin.guid, e.toPin.guid) ∈ outPairs g := by
  unfold outPairs
  exact List.mem_flatten.mpr ⟨_, List.mem_map_of_mem _ hu, List.mem_map_of_mem _ he⟩

theorem mem_inPairsSw_of_edge (g : FGraph) (v : FNode) (hv : v ∈ g.nodes) (e : FEdge)
    (he : e ∈ v.inEdges) : (e.toPin.guid, e.fromPin.guid) ∈ inPairsSw g := by
  unfold inPairsSw
  exact List.mem_flatten.mpr ⟨_, List.mem_map_of_mem _ hv, List.mem_map_of_mem _ he⟩

theorem dual_out_to_in (g : FGraph) (hpu : PinsUnique g) (hew : EdgesOwned g)
    (hco : Consistent g) :
    ∀ u ∈ g.nodes, ∀ e ∈ u.outEdges, ∃ v ∈ g.nodes,
      v.guid = e.toPin.owner ∧ ∃ e2 ∈ v.inEdges, e2.toPin.owner = u.guid := by
  intro u hu e he
  have hmem := mem_outPairs_of_edge g u hu e he
  have hmem2 : (e.fromPin.guid, e.toPin.guid) ∈ inPairsSw g := hco.mem_iff.mp hmem
  rcases exists_node_of_mem_inPairsSw g _ hmem2 with ⟨w, hw, hwp⟩
  unfold nodeInPairsSw at hwp
  rcases List.mem_map.mp hwp with ⟨e2, he2, heq⟩
  have h1 : e2.toPin.guid = e.fromPin.guid := congrArg Prod.fst heq
  have h2 : e2.fromPin.guid = e.toPin.guid := congrArg Prod.snd heq
  have hocc1 := edgePin_mem_occPins g w hw e2 (List.mem_append.mpr (Or.inl he2))
  have hocc2 := edgePin_mem_occPins g u hu e (List.mem_append.mpr (Or.inr he))
  have hfrom : e2.fromPin = e.toPin := hpu _ hocc1.1 _ hocc2.2 h2
  have hto : e2.toPin = e.fromPin := hpu _ hocc1.2 _ hocc2.1 h1
  have hwown := ((hew w hw).1 e2 he2).1
  have huown := ((hew u hu).2 e he).1
  refine ⟨w, hw, ?_, e2, he2, ?_⟩
  · rw [← hfrom, hwown]
  · rw [hto, huown]

theorem dual_in_to_out (g : FGraph) (hpu : PinsUnique g) (hew : EdgesOwned g)
    (hco : Consistent g) :
    ∀ v ∈ g.nodes, ∀ e2 ∈ v.inEdges, ∃ u ∈ g.nodes,
      u.guid = e2.toPin.owner ∧ ∃ e ∈ u.outEdges, e.toPin.owner = v.guid := by
  intro v hv e2 he2
  have hmem := mem_inPairsSw_of_edge g v hv e2 he2
  have hmem2 : (e2.toPin.guid, e2.fromPin.guid) ∈ outPairs g := hco.symm.mem_iff.mp hmem
  rcases exists_node_of_mem_outPairs g _ hmem2 with ⟨u, hu, hup⟩
  unfold nodeOutPairs at hup
  rcases List.mem_map.mp hup with ⟨e, he, heq⟩
  have h1 : e.fromPin.guid = e2.toPin.guid := congrArg Prod.fst heq
  have h2 : e.toPin.guid = e2.fromPin.guid := congrArg Prod.snd heq
  have hocc1 := edgePin_mem_occPins g u hu e (List.mem_append.mpr (Or.inr he))
  have hocc2 := edgePin_mem_occPins g v hv e2 (List.mem_append.mpr (Or.inl he2))
  have hfrom : e.fromPin = e2.toPin := hpu _ hocc1.1 _ hocc2.2 h1
  have hto : e.toPin = e2.fromPin := hpu _ hocc1.2 _ hocc2.1 h2
  have huown := ((hew u hu).2 e he).1
  have hvown := ((hew v hv).1 e2 he2).1
  refine ⟨u, hu, ?_, e, he, ?_⟩
  · rw [← hfrom, huown]
  · rw [hto, hvown]

theorem depth_pred_gt (g : FGraph) (hnd : GuidsNodup g) (hpu : PinsUnique g)
    (hew : EdgesOwned g) (hco : Consistent g) (hcl : ClosedG g) (hac : g.Acyclic) :
    ∀ v ∈ g.nodes, ∀ e2 ∈ v.inEdges, ∃ u ∈ g.nodes,
      u.guid = e2.toPin.owner ∧ depthMap g v.guid < depthMap g u.guid := by
  intro v hv e2 he2
  rcases dual_in_to_out g hpu hew hco v hv e2 he2 with ⟨u, hu, hug, e, he, het⟩
  have hupos := depthMap_pos g hcl hac u hu
  have hresp := (depthMap_basic g hnd).1 u hu e he hupos
  rw [het] at hresp
  exact ⟨u, hu, hug, hresp.2⟩

theorem foldl_addUnique_nodup :
    ∀ (l acc : List Nat), acc.Nodup → (l.foldl addUnique acc).Nodup := by
  intro l
  induction l with
  | nil => intro acc h; exact h
  | cons a t ih =>
      intro acc h
      rw [List.foldl_cons]
      apply ih
      unfold addUnique
      by_cases hc : acc.contains a = true
      · rw [if_pos hc]; exact h
      · rw [if_neg hc]
        have ha : a ∉ acc := by simpa using hc
        have h2 : (a :: acc).Nodup := List.nodup_cons.mpr ⟨ha, h⟩
        exact (List.perm_append_singleton a acc).nodup_iff.mpr h2

theorem mem_foldl_addUnique :
    ∀ (l acc : List Nat) (x : Nat), x ∈ l.foldl addUnique acc ↔ x ∈ acc ∨ x ∈ l := by
  intro l
  induction l with
  | nil => intro acc x; simp
  | cons a t ih =>
      intro acc x
      rw [List.foldl_cons, ih]
      unfold addUnique
      by_cases hc : acc.contains a = true
      · rw [if_pos hc]
        have ha : a ∈ acc := by simpa using hc
        constructor
        · rintro (h | h)
          · exact Or.inl h
          · exact Or.inr (List.mem_cons_of_mem _ h)
        · rintro (h | h)
          · exact Or.inl h
          · rcases List.mem_cons.mp h with h | h
            · exact Or.inl (h ▸ ha)
            · exact Or.inr h
      · rw [if_neg hc]
        simp only [List.mem_append, List.mem_singleton, List.mem_cons]
        tauto

theorem mem_tsetArray (l : List Nat) (x : Nat) : x ∈ tsetArray l ↔ x ∈ l := by
  unfold tsetArray
  rw [mem_foldl_addUnique]
  simp

theorem tsetArray_nodup (l : List Nat) : (tsetArray l).Nodup :=
  foldl_addUnique_nodup l [] List.nodup_nil

theorem mem_layerStep (g : FGraph) (d : Nat → Nat) (i : Nat) (s : List Nat) (γ : Nat) :
    γ ∈ layerStep g d i s ↔
      γ ∈ (((g.nodes.filter
          (fun n => !s.contains n.guid && decide (i ≤ d n.guid))).map (·.guid)) ++
        ((g.nodes.filter (fun n => s.contains n.guid)).map
          (fun n => (n.outEdges.map (fun e => e.toPin.owner)).filter
            (fun γ2 => !s.contains γ2))).flatten).filter (fun γ2 =>
        match g.findNode γ2 with
        | some n => predsAllIn s n
        | none => false) := by
  unfold layerStep
  exact mem_tsetArray _ _

theorem layerStep_nodup (g : FGraph) (d : Nat → Nat) (i : Nat) (s : List Nat) :
    (layerStep g d i s).Nodup :=
  tsetArray_nodup _

theorem layerStep_not_mem_s (g : FGraph) (d : Nat → Nat) (i : Nat) (s : List Nat)
    (γ : Nat) (h : γ ∈ layerStep g d i s) : γ ∉ s := by
  rw [mem_layerStep] at h
  rcases List.mem_filter.mp h with ⟨hm, _⟩
  rcases List.mem_append.mp hm with h1 | h1
  · rcases List.mem_map.mp h1 with ⟨n, hn, hg⟩
    rcases List.mem_filter.mp hn with ⟨_, hcond⟩
    rw [Bool.and_eq_true] at hcond
    rcases hcond with ⟨hns, _⟩
    rw [Bool.not_eq_true'] at hns
    intro hmem
    rw [← hg] at hmem
    have hc2 : s.contains n.guid = true := by simpa using hmem
    rw [hns] at hc2
    cases hc2
  · rcases List.mem_flatten.mp h1 with ⟨lp, hlp, hγ⟩
    rcases List.mem_map.mp hlp with ⟨n, _, hlpe⟩
    rw [← hlpe] at hγ
    rcases List.mem_filter.mp hγ with ⟨_, hcond⟩
    rw [Bool.not_eq_true'] at hcond
    intro hmem
    have hc2 : s.contains γ = true := by simpa using hmem
    rw [hcond] at hc2
    cases hc2

theorem layerStep_sub_guids (g : FGraph) (d : Nat → Nat) (i : Nat) (s : List Nat)
    (hcl : ClosedG g) (γ : Nat) (h : γ ∈ layerStep g d i s) :
    γ ∈ g.nodes.map (·.guid) := by
  rw [mem_layerStep] at h
  rcases List.mem_filter.mp h with ⟨hm, _⟩
  rcases List.mem_append.mp hm with h1 | h1
  · rcases List.mem_map.mp h1 with ⟨n, hn, hg⟩
    rcases List.mem_filter.mp hn with ⟨hnm, _⟩
    exact hg ▸ List.mem_map_of_mem _ hnm
  · rcases List.mem_flatten.mp h1 with ⟨lp, hlp, hγ⟩
    rcases List.mem_map.mp hlp with ⟨n, hn, hlpe⟩
    rcases List.mem_filter.mp hn with ⟨hnm, _⟩
    rw [← hlpe] at hγ
    rcases List.mem_filter.mp hγ with ⟨hγ2, _⟩
    rcases List.mem_map.mp hγ2 with ⟨e, he, hge⟩
    exact hge ▸ hcl n hnm e (List.mem_append.mpr (Or.inr he))

theorem layerStep_preds (g : FGraph) (d : Nat → Nat) (i : Nat) (s : List Nat)
    (hnd : GuidsNodup g) (γ : Nat) (h : γ ∈ layerStep g d i s) :
    ∀ v ∈ g.nodes, v.guid = γ → ∀ e2 ∈ v.inEdges, e2.toPin.owner ∈ s := by
  intro v hv hvg e2 he2
  rw [mem_layerStep] at h
  rcases List.mem_filter.mp h with ⟨_, hcond⟩
  have hfind : g.findNode γ = some v := by
    rw [← hvg]
    exact findNode_eq_of_nodup g hnd v hv
  rw [hfind] at hcond
  have := List.all_eq_true.mp hcond e2 he2
  simpa using this

theorem layerStep_complete (g : FGraph) (d : Nat → Nat) (i : Nat) (s : List Nat)
    (hnd : GuidsNodup g)
    (hpre : ∀ n ∈ g.nodes, i < d n.guid → n.guid ∈ s)
    (hpred : ∀ v ∈ g.nodes, ∀ e2 ∈ v.inEdges, ∃ u ∈ g.nodes,
      u.guid = e2.toPin.owner ∧ d v.guid < d u.guid) :
    ∀ n ∈ g.nodes, i ≤ d n.guid → n.guid ∉ s → n.guid ∈ layerStep g d i s := by
  intro n hn hdn hns
  rw [mem_layerStep]
  rw [List.mem_filter]
  constructor
  · refine List.mem_append.mpr (Or.inl ?_)
    refine List.mem_map_of_mem _ ?_
    rw [List.mem_filter]
    refine ⟨hn, ?_⟩
    rw [Bool.and_eq_true, Bool.not_eq_true']
    constructor
    · simpa using hns
    · simpa using hdn
  · have hfind : g.findNode n.guid = some n := findNode_eq_of_nodup g hnd n hn
    rw [hfind]
    refine List.all_eq_true.mpr ?_
    intro e2 he2
    rcases hpred n hn e2 he2 with ⟨u, hu, hug, hlt⟩
    have : u.guid ∈ s := hpre u hu (by omega)
    rw [hug] at this
    simpa using this

theorem mem_take_flatten (ll : List (List Nat)) :
    ∀ (m γ : Nat), γ ∈ (ll.take m).flatten →
      ∃ k lay, k < m ∧ ll[k]? = some lay ∧ γ ∈ lay := by
  induction ll with
  | nil =>
      intro m γ h
      simp at h
  | cons l t ih =>
      intro m γ h
      cases m with
      | zero => simp at h
      | succ m =>
          rw [List.take_succ_cons, List.flatten_cons, List.mem_append] at h
          rcases h with h | h
          · exact ⟨0, l, Nat.succ_pos m, by simp, h⟩
          · rcases ih m γ h with ⟨k, lay, hk, hget, hmem⟩
            exact ⟨k + 1, lay, by omega, by simpa using hget, hmem⟩

theorem flatten_nodup_unique (ll : List (List Nat)) (h : ll.flatten.Nodup) :
    ∀ (k1 : Nat) (l1 : List Nat) (k2 : Nat) (l2 : List Nat) (γ : Nat),
      ll[k1]? = some l1 → γ ∈ l1 → ll[k2]? = some l2 → γ ∈ l2 → k1 = k2 := by
  induction ll with
  | nil =>
      intro k1 l1 k2 l2 γ h1
      simp at h1
  | cons l t ih =>
      rw [List.flatten_cons] at h
      have hdisj := List.disjoint_of_nodup_append h
      have ht := List.Nodup.of_append_right h
      intro k1 l1 k2 l2 γ h1 hm1 h2 hm2
      cases k1 with
      | zero =>
          cases k2 with
          | zero => rfl
          | succ k2 =>
              have hl1 : l1 = l := by
                have h1b := h1
                simp at h1b
                exact h1b.symm
              have hget : t[k2]? = some l2 := by simpa using h2
              have hl2t : l2 ∈ t := by
                rcases List.getElem?_eq_some_iff.mp hget with ⟨hlt, hge⟩
                exact hge ▸ List.getElem_mem hlt
              have : γ ∈ t.flatten := List.mem_flatten.mpr ⟨l2, hl2t, hm2⟩
              exact absurd this (hdisj (hl1 ▸ hm1))
      | succ k1 =>
          cases k2 with
          | zero =>
              have hl2 : l2 = l := by
                have h2b := h2
                simp at h2b
                exact h2b.symm
              have hget : t[k1]? = some l1 := by simpa using h1
              have hl1t : l1 ∈ t := by
                rcases List.getElem?_eq_some_iff.mp hget with ⟨hlt, hge⟩
                exact hge ▸ List.getElem_mem hlt
              have : γ ∈ t.flatten := List.mem_flatten.mpr ⟨l1, hl1t, hm1⟩
              exact absurd this (hdisj (hl2 ▸ hm2))
          | succ k2 =>
              have := ih ht k1 l1 k2 l2 γ (by simpa using h1) hm1 (by simpa using h2) hm2
              omega

theorem countP_mem_eq_one (ll : List (List Nat)) (γ : Nat) :
    ll.flatten.Nodup → γ ∈ ll.flatten →
      ll.countP (fun lay => lay.contains γ) = 1 := by
  induction ll with
  | nil =>
      intro _ hmem
      simp at hmem
  | cons l t ih =>
      intro hnd hmem
      rw [List.flatten_cons] at hnd hmem
      have hdisj := List.disjoint_of_nodup_append hnd
      have ht := List.Nodup.of_append_right hnd
      rw [List.countP_cons]
      by_cases hc : γ ∈ l
      · have h1 : (l.contains γ) = true := by simpa using hc
        have h0 : t.countP (fun lay => lay.contains γ) = 0 := by
          rw [List.countP_eq_zero]
          intro lay hlay hcont
          have : γ ∈ t.flatten :=
            List.mem_flatten.mpr ⟨lay, hlay, by simpa using hcont⟩
          exact absurd this (hdisj hc)
        rw [h0, h1]
        simp
      · have h1 : (l.contains γ) = false := by
          rw [Bool.eq_false_iff]
          intro hcont
          exact hc (by simpa using hcont)
        have hmt : γ ∈ t.flatten := by
          rcases List.mem_append.mp hmem with h | h
          · exact absurd h hc
          · exact h
        rw [h1, ih ht hmt]
        simp

theorem doLayeringAux_spec (g : FGraph) (d : Nat → Nat) (hnd : GuidsNodup g)
    (hpred : ∀ v ∈ g.nodes, ∀ e2 ∈ v.inEdges, ∃ u ∈ g.nodes,
      u.guid = e2.toPin.owner ∧ d v.guid < d u.guid) :
    ∀ (i : Nat) (s : List Nat), s.Nodup →
      (∀ n ∈ g.nodes, i < d n.guid → n.guid ∈ s) →
      (s ++ (doLayeringAux g d i s).flatten).Nodup ∧
      (∀ n ∈ g.nodes, 1 ≤ d n.guid → d n.guid ≤ i →
        n.guid ∈ s ∨ n.guid ∈ (doLayeringAux g d i s).flatten) ∧
      (∀ (k : Nat) (lay : List Nat), (doLayeringAux g d i s)[k]? = some lay →
        ∀ γ ∈ lay, ∀ v ∈ g.nodes, v.guid = γ → ∀ e2 ∈ v.inEdges,
          e2.toPin.owner ∈ s ∨
            e2.toPin.owner ∈ ((doLayeringAux g d i s).take k).flatten) := by
  intro i
  induction i with
  | zero =>
      intro s hs hpre
      have h0 : doLayeringAux g d 0 s = [] := rfl
      refine ⟨by rw [h0]; simpa using hs, ?_, ?_⟩
      · intro n _ h1 h2
        omega
      · intro k lay hk
        simp [doLayeringAux] at hk
  | succ i ih =>
      intro s hs hpre
      have hunf : doLayeringAux g d (i + 1) s =
          layerStep g d (i + 1) s :: doLayeringAux g d i (s ++ layerStep g d (i + 1) s) :=
        rfl
      set layer := layerStep g d (i + 1) s with hlay
      set rest := doLayeringAux g d i (s ++ layer) with hrest
      have hsl : (s ++ layer).Nodup := by
        rw [List.nodup_append]
        refine ⟨hs, layerStep_nodup g d (i + 1) s, ?_⟩
        intro x hx hx2
        exact layerStep_not_mem_s g d (i + 1) s x hx2 hx
      have hpre2 : ∀ n ∈ g.nodes, i < d n.guid → n.guid ∈ s ++ layer := by
        intro n hn hdn
        by_cases hcase : i + 1 < d n.guid
        · exact List.mem_append.mpr (Or.inl (hpre n hn hcase))
        · by_cases hmem : n.guid ∈ s
          · exact List.mem_append.mpr (Or.inl hmem)
          · refine List.mem_append.mpr (Or.inr ?_)
            exact layerStep_complete g d (i + 1) s hnd hpre hpred n hn (by omega) hmem
      rcases ih (s ++ layer) hsl hpre2 with ⟨hc1, hc2, hc3⟩
      rw [hunf]
      refine ⟨?_, ?_, ?_⟩
      · rw [List.flatten_cons, ← List.append_assoc]
        exact hc1
      · intro n hn h1 h2
        by_cases hcase : d n.guid ≤ i
        · rcases hc2 n hn h1 hcase with h | h
          · rcases List.mem_append.mp h with h | h
            · exact Or.inl h
            · exact Or.inr (List.mem_append.mpr (Or.inl h))
          · exact Or.inr (List.mem_append.mpr (Or.inr h))
        · by_cases hmem : n.guid ∈ s
          · exact Or.inl hmem
          · refine Or.inr (List.mem_append.mpr (Or.inl ?_))
            exact layerStep_complete g d (i + 1) s hnd hpre hpred n hn (by omega) hmem
      · intro k lay hk γ hγ v hv hvg e2 he2
        cases k with
        | zero =>
            have hlayeq : lay = layer := by
              have := hk
              simp at this
              exact this.symm
            subst hlayeq
            exact Or.inl (layerStep_preds g d (i + 1) s hnd γ hγ v hv hvg e2 he2)
        | succ k =>
            have hk2 : rest[k]? = some lay := by simpa using hk
            rcases hc3 k lay hk2 γ hγ v hv hvg e2 he2 with h | h
            · rcases List.mem_append.mp h with h | h
              · exact Or.inl h
              · refine Or.inr ?_
                rw [List.take_succ_cons, List.flatten_cons]
                exact List.mem_append.mpr (Or.inl h)
            · refine Or.inr ?_
              rw [List.take_succ_cons, List.flatten_cons]
              exact List.mem_append.mpr (Or.inr h)

/-- C1: after DoLayering on a well formed acyclic graph, every node lies in
    exactly one layer, and every out edge points from its layer to a
    strictly later layer: the head layer index exceeds the tail layer index
    by at least one (rank difference at least the default min length, so
    every edge has nonnegative slack). -/
theorem doLayering_rank_feasible (g : FGraph) (hnd : GuidsNodup g)
    (hpu : PinsUnique g) (hew : EdgesOwned g) (hco : Consistent g)
    (hcl : ClosedG g) (hac : g.Acyclic) :
    (∀ n ∈ g.nodes, g.doLayering.countP (fun lay => lay.contains n.guid) = 1) ∧
    (∀ u ∈ g.nodes, ∀ e ∈ u.outEdges,
      ∀ (iu : Nat) (lu : List Nat) (iv : Nat) (lv : List Nat),
        g.doLayering[iu]? = some lu → u.guid ∈ lu →
        g.doLayering[iv]? = some lv → e.toPin.owner ∈ lv → iu + 1 ≤ iv) := by
  have hpred := depth_pred_gt g hnd hpu hew hco hcl hac
  have hpre : ∀ n ∈ g.nodes, longestPath g < depthMap g n.guid → n.guid ∈ ([] : List Nat) := by
    intro n _ hlt
    have := (depthMap_basic g hnd).2 n.guid
    omega
  rcases doLayeringAux_spec g (depthMap g) hnd hpred (longestPath g) [] List.nodup_nil hpre
    with ⟨hc1, hc2, hc3⟩
  have hLeq : g.doLayering = doLayeringAux g (depthMap g) (longestPath g) [] := rfl
  have hflat : g.doLayering.flatten.Nodup := by
    rw [hLeq]
    simpa using hc1
  have hmemflat : ∀ n ∈ g.nodes, n.guid ∈ g.doLayering.flatten := by
    intro n hn
    have hpos := depthMap_pos g hcl hac n hn
    have hle := (depthMap_basic g hnd).2 n.guid
    rcases hc2 n hn (by omega) hle with h | h
    · exact absurd h (List.not_mem_nil _)
    · rw [hLeq]
      exact h
  constructor
  · intro n hn
    exact countP_mem_eq_one g.doLayering n.guid hflat (hmemflat n hn)
  · intro u hu e he iu lu iv lv hgu hmu hgv hmv
    rcases dual_out_to_in g hpu hew hco u hu e he with ⟨v, hv, hvg, e2, he2, hback⟩
    have hstep := hc3 iv lv (by rw [← hLeq]; exact hgv) e.toPin.owner hmv v hv hvg e2 he2
    rcases hstep with h | h
    · exact absurd h (List.not_mem_nil _)
    · rw [hback, ← hLeq] at h
      rcases mem_take_flatten g.doLayering iv u.guid h with ⟨k, lay, hk, hget, hmem⟩
      have : iu = k := flatten_nodup_unique g.doLayering hflat iu lu k lay u.guid hgu hmu hget hmem
      omega

/-- Witness for C1 at the concrete acyclic two layer graph: node 1 sits in
    exactly one layer. -/
theorem doLayering_rank_feasible_witness :
    ordG.doLayering.countP (fun lay => lay.contains (1 : Nat)) = 1 :=
  (doLayering_rank_feasible ordG (by decide) (by decide) (by decide) (by decide)
    (by decide) ⟨fun γ => if γ ≤ 2 then 1 else 0, by decide⟩).1
    ⟨1, [], [pin1O], [], [⟨pin1O, pin4I⟩]⟩ (by decide)

theorem mem_eraseP_retain {α : Type} (p : α → Bool) :
    ∀ (l : List α) (x : α), x ∈ l → p x = false → x ∈ l.eraseP p := by
  intro l
  induction l with
  | nil => intro x hx; cases hx
  | cons a t ih =>
      intro x hx hp
      by_cases ha : p a = true
      · rw [List.eraseP_cons_of_pos ha]
        rcases List.mem_cons.mp hx with rfl | hxt
        · rw [hp] at ha
          cases ha
        · exact hxt
      · rw [List.eraseP_cons_of_neg ha]
        rcases List.mem_cons.mp hx with rfl | hxt
        · exact List.mem_cons_self _ _
        · exact List.mem_cons_of_mem _ (ih x hxt hp)

theorem peNodeMap_guid (e : FEdge) (γ c : Nat) (n : FNode) :
    (peNodeMap e γ c n).guid = n.guid := by
  unfold peNodeMap FNode.connect FNode.disconnect
  by_cases h1 : n.guid == γ <;> by_cases h2 : e.fromPin.dir = Dir.output <;>
    by_cases h3 : e.toPin.dir = Dir.output <;>
      simp [h1, h2, h3] <;> split <;> rfl

theorem peNodeMap_pins (e : FEdge) (γ c : Nat) (n : FNode) :
    (peNodeMap e γ c n).inPins = n.inPins ∧ (peNodeMap e γ c n).outPins = n.outPins := by
  unfold peNodeMap FNode.connect FNode.disconnect
  by_cases h1 : n.guid == γ <;> by_cases h2 : e.fromPin.dir = Dir.output <;>
    by_cases h3 : e.toPin.dir = Dir.output <;>
      simp [h1, h2, h3] <;> split <;> exact ⟨rfl, rfl⟩

theorem peNodeMap_out_tail (e : FEdge) (γ c : Nat) (n : FNode)
    (hγ : n.guid = γ) (hdf : e.fromPin.dir = Dir.output)
    (hdt : e.toPin.dir = Dir.input) :
    (peNodeMap e γ c n).outEdges =
      erasePair n.outEdges e.fromPin e.toPin ++
        [⟨e.fromPin, ⟨c + 1, Dir.input, c⟩⟩] := by
  have hdt2 : ¬ e.toPin.dir = Dir.output := by rw [hdt]; intro h; cases h
  unfold peNodeMap FNode.connect FNode.disconnect
  have h1 : (n.guid == γ) = true := by simpa using hγ
  simp only [h1, if_true, hdf, if_pos, hdt2, if_neg]
  split <;> rfl

theorem peNodeMap_out_other (e : FEdge) (γ c : Nat) (n : FNode)
    (hγ : n.guid ≠ γ) (hdt : e.toPin.dir = Dir.input) :
    (peNodeMap e γ c n).outEdges = n.outEdges := by
  have hdt2 : ¬ e.toPin.dir = Dir.output := by rw [hdt]; intro h; cases h
  unfold peNodeMap FNode.connect FNode.disconnect
  have h1 : (n.guid == γ) = false := by simpa using hγ
  simp only [h1, Bool.false_eq_true, if_false, hdt2, if_neg]
  split <;> rfl

theorem peNodeMap_in_nonhead (e : FEdge) (γ c : Nat) (n : FNode)
    (hno : n.guid ≠ e.toPin.owner) (hdf : e.fromPin.dir = Dir.output) :
    (peNodeMap e γ c n).inEdges = n.inEdges := by
  unfold peNodeMap FNode.connect FNode.disconnect
  by_cases h1 : (n.guid == γ) = true
  · have hg : ((if e.fromPin.dir = Dir.output then
        { n with outEdges := erasePair n.outEdges e.fromPin e.toPin }
      else
        { n with inEdges := erasePair n.inEdges e.fromPin e.toPin }) : FNode).guid
        = n.guid := by
      split <;> rfl
    simp only [h1, if_true, hdf, if_pos]
    have h2 : (n.guid == e.toPin.owner) = false := by simpa using hno
    simp only [FNode.guid] at h2 ⊢
    simp [h2]
  · have h1b : (n.guid == γ) = false := Bool.eq_false_iff.mpr h1
    have h2 : (n.guid == e.toPin.owner) = false := by simpa using hno
    simp [h1b, h2]

theorem peNodeMap_in_head (e : FEdge) (γ c : Nat) (n : FNode)
    (hno : n.guid = e.toPin.owner) (hdf : e.fromPin.dir = Dir.output)
    (hdt : e.toPin.dir = Dir.input) :
    (peNodeMap e γ c n).inEdges =
      n.inEdges ++ [⟨e.toPin, ⟨c + 2, Dir.output, c⟩⟩] := by
  have hdt2 : ¬ e.toPin.dir = Dir.output := by rw [hdt]; intro h; cases h
  unfold peNodeMap FNode.connect FNode.disconnect
  by_cases h1 : (n.guid == γ) = true
  · have h2 : (n.guid == e.toPin.owner) = true := by simpa using hno
    simp [h1, h2, hdf, hdt2]
  · have h1b : (n.guid == γ) = false := Bool.eq_false_iff.mpr h1
    have h2 : (n.guid == e.toPin.owner) = true := by simpa using hno
    simp [h1b, h2, hdt2]


theorem processEdge_eq (g : FGraph) (γ : Nat) (e : FEdge) (c : Nat)
    (hall : ∀ n ∈ g.nodes, n.guid ≠ c) (hγ : γ ≠ c) (hown : e.toPin.owner ≠ c) :
    processEdge g γ e c = ⟨g.nodes.map (peNodeMap e γ c) ++ [peDummy e c]⟩ := by
  simp only [processEdge, FGraph.modifyNode, List.map_append, List.map_map,
    List.map_cons, List.map_nil]
  congr 1
  congr 1
  · apply List.map_congr_left
    intro n hn
    have hnc : (n.guid == c) = false := by simpa using hall n hn
    by_cases h1 : n.guid = γ
    · have h1b : (n.guid == γ) = true := by simpa using h1
      simp only [Function.comp_apply, peNodeMap, h1b, if_true, disconnect_guid,
        FNode.guid_connect, hnc, Bool.false_eq_true, if_false]
    · have h1b : (n.guid == γ) = false := by simpa using h1
      simp only [Function.comp_apply, peNodeMap, h1b, Bool.false_eq_true, if_false,
        hnc, FNode.guid_connect]
  · have hg1 : (c == γ) = false := by simpa using Ne.symm hγ
    have hg2 : (c == c) = true := by simp
    have hg3 : (c == e.toPin.owner) = false := by simpa using Ne.symm hown
    simp only [Function.comp_apply, mkDummy, hg1, Bool.false_eq_true, if_false,
      FNode.guid_connect, hg2, if_true, hg3, FNode.connect, peDummy]
    simp
    intro hc
    exact absurd hc.symm hown

theorem nodup_append_singleton {α : Type} (l : List α) (a : α) (h : l.Nodup)
    (ha : a ∉ l) : (l ++ [a]).Nodup :=
  (List.perm_append_singleton a l).nodup_iff.mpr (List.nodup_cons.mpr ⟨ha, h⟩)

theorem erasePair_subset (l : List FEdge) (s t : FPin) :
    ∀ x ∈ erasePair l s t, x ∈ l := by
  intro x hx
  exact (List.eraseP_sublist l).subset hx

theorem peNodeMap_id (e : FEdge) (γ c : Nat) (n : FNode)
    (h1 : n.guid ≠ γ) (h2 : n.guid ≠ e.toPin.owner) : peNodeMap e γ c n = n := by
  unfold peNodeMap
  have h1b : (n.guid == γ) = false := by simpa using h1
  have h2b : (n.guid == e.toPin.owner) = false := by simpa using h2
  simp [h1b, h2b]

theorem mem_processEdge (g : FGraph) (γ : Nat) (e : FEdge) (c : Nat)
    (hall : ∀ n ∈ g.nodes, n.guid ≠ c) (hγne : γ ≠ c)
    (hocne : e.toPin.owner ≠ c) (n2 : FNode) :
    n2 ∈ (processEdge g γ e c).nodes ↔
      (∃ n1 ∈ g.nodes, n2 = peNodeMap e γ c n1) ∨ n2 = peDummy e c := by
  rw [processEdge_eq g γ e c hall hγne hocne]
  show n2 ∈ g.nodes.map (peNodeMap e γ c) ++ [peDummy e c] ↔ _
  rw [List.mem_append, List.mem_map, List.mem_singleton]
  constructor
  · rintro (⟨n1, hn1, he⟩ | he)
    · exact Or.inl ⟨n1, hn1, he.symm⟩
    · exact Or.inr he
  · rintro (⟨n1, hn1, he⟩ | he)
    · exact Or.inl ⟨n1, hn1, he.symm⟩
    · exact Or.inr he

theorem processEdge_guids (g : FGraph) (γ : Nat) (e : FEdge) (c : Nat)
    (hall : ∀ n ∈ g.nodes, n.guid ≠ c) (hγne : γ ≠ c)
    (hocne : e.toPin.owner ≠ c) :
    (processEdge g γ e c).nodes.map (·.guid) = g.nodes.map (·.guid) ++ [c] := by
  rw [processEdge_eq g γ e c hall hγne hocne]
  show (g.nodes.map (peNodeMap e γ c) ++ [peDummy e c]).map (·.guid) = _
  rw [List.map_append, List.map_map]
  congr 1
  apply List.map_congr_left
  intro n _
  exact peNodeMap_guid e γ c n

theorem processEdge_nodup (g : FGraph) (γ : Nat) (e : FEdge) (c : Nat)
    (hnd : GuidsNodup g) (hall : ∀ n ∈ g.nodes, n.guid ≠ c) (hγne : γ ≠ c)
    (hocne : e.toPin.owner ≠ c) :
    GuidsNodup (processEdge g γ e c) := by
  show ((processEdge g γ e c).nodes.map (·.guid)).Nodup
  rw [processEdge_guids g γ e c hall hγne hocne]
  apply nodup_append_singleton _ _ hnd
  intro hc
  rcases List.mem_map.mp hc with ⟨n1, hn1, hg⟩
  exact hall n1 hn1 hg

theorem processEdge_bound (g : FGraph) (γ : Nat) (e : FEdge) (c : Nat)
    (hb : ∀ n ∈ g.nodes, n.guid < c) (hall : ∀ n ∈ g.nodes, n.guid ≠ c)
    (hγne : γ ≠ c) (hocne : e.toPin.owner ≠ c) :
    ∀ n2 ∈ (processEdge g γ e c).nodes, n2.guid < c + 3 := by
  intro n2 hn2
  rcases (mem_processEdge g γ e c hall hγne hocne n2).mp hn2 with ⟨n1, hn1, rfl⟩ | rfl
  · rw [peNodeMap_guid]
    have := hb n1 hn1
    omega
  · show c < c + 3
    omega

theorem processEdge_tail_out (g : FGraph) (γ : Nat) (e : FEdge) (c : Nat)
    (hall : ∀ n ∈ g.nodes, n.guid ≠ c) (hγne : γ ≠ c) (hocne : e.toPin.owner ≠ c)
    (hdf : e.fromPin.dir = Dir.output) (hdt : e.toPin.dir = Dir.input) :
    ∀ n2 ∈ (processEdge g γ e c).nodes, n2.guid = γ →
      ∃ n1 ∈ g.nodes, n1.guid = γ ∧
        n2.outEdges = erasePair n1.outEdges e.fromPin e.toPin ++
          [⟨e.fromPin, ⟨c + 1, Dir.input, c⟩⟩] ∧
        n2.inPins = n1.inPins ∧ n2.outPins = n1.outPins := by
  intro n2 hn2 hg
  rcases (mem_processEdge g γ e c hall hγne hocne n2).mp hn2 with ⟨n1, hn1, rfl⟩ | rfl
  · rw [peNodeMap_guid] at hg
    exact ⟨n1, hn1, hg, peNodeMap_out_tail e γ c n1 hg hdf hdt,
      (peNodeMap_pins e γ c n1).1, (peNodeMap_pins e γ c n1).2⟩
  · exact absurd hg.symm hγne

theorem processEdge_frame_out (g : FGraph) (γ : Nat) (e : FEdge) (c : Nat)
    (hall : ∀ n ∈ g.nodes, n.guid ≠ c) (hγne : γ ≠ c) (hocne : e.toPin.owner ≠ c)
    (hdt : e.toPin.dir = Dir.input) :
    ∀ n2 ∈ (processEdge g γ e c).nodes, n2.guid ≠ γ → n2.guid ≠ c →
      ∃ n1 ∈ g.nodes, n1.guid = n2.guid ∧ n1.outEdges = n2.outEdges ∧
        n1.inPins = n2.inPins ∧ n1.outPins = n2.outPins := by
  intro n2 hn2 hgγ hgc
  rcases (mem_processEdge g γ e c hall hγne hocne n2).mp hn2 with ⟨n1, hn1, rfl⟩ | rfl
  · rw [peNodeMap_guid] at hgγ
    refine ⟨n1, hn1, (peNodeMap_guid e γ c n1).symm,
      (peNodeMap_out_other e γ c n1 hgγ hdt).symm,
      (peNodeMap_pins e γ c n1).1.symm, (peNodeMap_pins e γ c n1).2.symm⟩
  · exact absurd rfl hgc

theorem processEdge_dummy (g : FGraph) (γ : Nat) (e : FEdge) (c : Nat)
    (hall : ∀ n ∈ g.nodes, n.guid ≠ c) (hγne : γ ≠ c)
    (hocne : e.toPin.owner ≠ c) :
    ∀ n2 ∈ (processEdge g γ e c).nodes, n2.guid = c →
      n2.inPins.length = 1 ∧ n2.outPins.length = 1 ∧
      n2.outEdges = [⟨⟨c + 2, Dir.output, c⟩, e.toPin⟩] := by
  intro n2 hn2 hg
  rcases (mem_processEdge g γ e c hall hγne hocne n2).mp hn2 with ⟨n1, hn1, rfl⟩ | rfl
  · rw [peNodeMap_guid] at hg
    exact absurd hg (hall n1 hn1)
  · exact ⟨rfl, rfl, rfl⟩

theorem processEdge_pinShape (g : FGraph) (γ : Nat) (e : FEdge) (c : Nat)
    (hall : ∀ n ∈ g.nodes, n.guid ≠ c) (hγne : γ ≠ c)
    (hocne : e.toPin.owner ≠ c) :
    ∀ n2 ∈ (processEdge g γ e c).nodes, PinShape g n2 := by
  intro n2 hn2
  rcases (mem_processEdge g γ e c hall hγne hocne n2).mp hn2 with ⟨n1, hn1, rfl⟩ | rfl
  · exact Or.inl ⟨n1, hn1, (peNodeMap_guid e γ c n1).symm,
      (peNodeMap_pins e γ c n1).1.symm, (peNodeMap_pins e γ c n1).2.symm⟩
  · exact Or.inr ⟨rfl, rfl⟩

theorem processEdge_memframe (g : FGraph) (γ : Nat) (e : FEdge) (c : Nat)
    (hall : ∀ n ∈ g.nodes, n.guid ≠ c) (hγne : γ ≠ c)
    (hocne : e.toPin.owner ≠ c) :
    ∀ n : FNode, n.guid ≠ γ → n.guid ≠ e.toPin.owner → n.guid ≠ c →
      (n ∈ g.nodes ↔ n ∈ (processEdge g γ e c).nodes) := by
  intro n h1 h2 h3
  rw [mem_processEdge g γ e c hall hγne hocne]
  constructor
  · intro hn
    exact Or.inl ⟨n, hn, (peNodeMap_id e γ c n h1 h2).symm⟩
  · rintro (⟨n1, hn1, rfl⟩ | rfl)
    · by_cases hc1 : n1.guid = γ
      · rw [peNodeMap_guid] at h1
        exact absurd hc1 h1
      · by_cases hc2 : n1.guid = e.toPin.owner
        · rw [peNodeMap_guid] at h2
          exact absurd hc2 h2
        · rw [peNodeMap_id e γ c n1 hc1 hc2]
          exact hn1
    · exact absurd rfl h3

theorem processEdge_edgesOwned (g : FGraph) (γ : Nat) (e : FEdge) (c : Nat)
    (h2 : EdgesOwned g)
    (hall : ∀ n ∈ g.nodes, n.guid ≠ c) (hγne : γ ≠ c) (hocne : e.toPin.owner ≠ c)
    (hdf : e.fromPin.dir = Dir.output) (hdt : e.toPin.dir = Dir.input)
    (hfo : e.fromPin.owner = γ) :
    EdgesOwned (processEdge g γ e c) := by
  intro n2 hn2
  rcases (mem_processEdge g γ e c hall hγne hocne n2).mp hn2 with ⟨n1, hn1, rfl⟩ | rfl
  · constructor
    · intro ed hed
      by_cases hh : n1.guid = e.toPin.owner
      · rw [peNodeMap_in_head e γ c n1 hh hdf hdt] at hed
        rcases List.mem_append.mp hed with hed | hed
        · rw [peNodeMap_guid]
          exact (h2 n1 hn1).1 ed hed
        · rw [List.mem_singleton] at hed
          subst hed
          rw [peNodeMap_guid]
          exact ⟨hh.symm, hdt, rfl⟩
      · rw [peNodeMap_in_nonhead e γ c n1 hh hdf] at hed
        rw [peNodeMap_guid]
        exact (h2 n1 hn1).1 ed hed
    · intro ed hed
      by_cases ht : n1.guid = γ
      · rw [peNodeMap_out_tail e γ c n1 ht hdf hdt] at hed
        rcases List.mem_append.mp hed with hed | hed
        · rw [peNodeMap_guid]
          exact (h2 n1 hn1).2 ed (erasePair_subset _ _ _ ed hed)
        · rw [List.mem_singleton] at hed
          subst hed
          rw [peNodeMap_guid]
          exact ⟨by rw [hfo, ht], hdf, rfl⟩
      · rw [peNodeMap_out_other e γ c n1 ht hdt] at hed
        rw [peNodeMap_guid]
        exact (h2 n1 hn1).2 ed hed
  · constructor
    · intro ed hed
      rw [show (peDummy e c).inEdges =
        [⟨⟨c + 1, Dir.input, c⟩, e.fromPin⟩] from rfl, List.mem_singleton] at hed
      subst hed
      exact ⟨rfl, rfl, hdf⟩
    · intro ed hed
      rw [show (peDummy e c).outEdges =
        [⟨⟨c + 2, Dir.output, c⟩, e.toPin⟩] from rfl, List.mem_singleton] at hed
      subst hed
      exact ⟨rfl, rfl, hdt⟩

theorem processEdge_closed (g : FGraph) (γ : Nat) (e : FEdge) (c : Nat)
    (h3 : ClosedG g)
    (hall : ∀ n ∈ g.nodes, n.guid ≠ c) (hγne : γ ≠ c) (hocne : e.toPin.owner ≠ c)
    (hdf : e.fromPin.dir = Dir.output) (hdt : e.toPin.dir = Dir.input)
    (hγmem : γ ∈ g.nodes.map (·.guid)) (hfo : e.fromPin.owner = γ)
    (howmem : e.toPin.owner ∈ g.nodes.map (·.guid)) :
    ClosedG (processEdge g γ e c) := by
  intro n2 hn2 ed hed
  rw [processEdge_guids g γ e c hall hγne hocne]
  rcases (mem_processEdge g γ e c hall hγne hocne n2).mp hn2 with ⟨n1, hn1, rfl⟩ | rfl
  · rcases List.mem_append.mp hed with hin | hout
    · by_cases hh : n1.guid = e.toPin.owner
      · rw [peNodeMap_in_head e γ c n1 hh hdf hdt] at hin
        rcases List.mem_append.mp hin with hin | hin
        · exact List.mem_append.mpr
            (Or.inl (h3 n1 hn1 ed (List.mem_append.mpr (Or.inl hin))))
        · rw [List.mem_singleton] at hin
          subst hin
          exact List.mem_append.mpr (Or.inr (by simp))
      · rw [peNodeMap_in_nonhead e γ c n1 hh hdf] at hin
        exact List.mem_append.mpr
          (Or.inl (h3 n1 hn1 ed (List.mem_append.mpr (Or.inl hin))))
    · by_cases ht : n1.guid = γ
      · rw [peNodeMap_out_tail e γ c n1 ht hdf hdt] at hout
        rcases List.mem_append.mp hout with hout | hout
        · exact List.mem_append.mpr (Or.inl (h3 n1 hn1 ed
            (List.mem_append.mpr (Or.inr (erasePair_subset _ _ _ ed hout)))))
        · rw [List.mem_singleton] at hout
          subst hout
          exact List.mem_append.mpr (Or.inr (by simp))
      · rw [peNodeMap_out_other e γ c n1 ht hdt] at hout
        exact List.mem_append.mpr
          (Or.inl (h3 n1 hn1 ed (List.mem_append.mpr (Or.inr hout))))
  · rcases List.mem_append.mp hed with hin | hout
    · rw [show (peDummy e c).inEdges =
        [⟨⟨c + 1, Dir.input, c⟩, e.fromPin⟩] from rfl, List.mem_singleton] at hin
      subst hin
      show e.fromPin.owner ∈ List.map (fun x => x.guid) g.nodes ++ [c]
      rw [hfo]
      exact List.mem_append.mpr (Or.inl hγmem)
    · rw [show (peDummy e c).outEdges =
        [⟨⟨c + 2, Dir.output, c⟩, e.toPin⟩] from rfl, List.mem_singleton] at hout
      subst hout
      show e.toPin.owner ∈ List.map (fun x => x.guid) g.nodes ++ [c]
      exact List.mem_append.mpr (Or.inl howmem)

theorem processEdge_outPairsNodup (g : FGraph) (γ : Nat) (e : FEdge) (c : Nat)
    (h4 : OutPairsNodup g) (h6 : EdgePinBound g c)
    (hall : ∀ n ∈ g.nodes, n.guid ≠ c) (hγne : γ ≠ c) (hocne : e.toPin.owner ≠ c)
    (hdf : e.fromPin.dir = Dir.output) (hdt : e.toPin.dir = Dir.input) :
    OutPairsNodup (processEdge g γ e c) := by
  intro n2 hn2
  rcases (mem_processEdge g γ e c hall hγne hocne n2).mp hn2 with ⟨n1, hn1, rfl⟩ | rfl
  · by_cases ht : n1.guid = γ
    · unfold nodeOutPairs
      rw [peNodeMap_out_tail e γ c n1 ht hdf hdt, List.map_append]
      apply nodup_append_singleton
      · exact ((List.eraseP_sublist n1.outEdges).map _).nodup (h4 n1 hn1)
      · intro hc
        rcases List.mem_map.mp hc with ⟨x, hx, hpx⟩
        have hx2 := erasePair_subset _ _ _ x hx
        have := (h6 n1 hn1 x (List.mem_append.mpr (Or.inr hx2))).2
        have hxg : x.toPin.guid = c + 1 := by
          have h9 := congrArg Prod.snd hpx
          simpa using h9
        omega
    · unfold nodeOutPairs
      rw [peNodeMap_out_other e γ c n1 ht hdt]
      exact h4 n1 hn1
  · exact List.nodup_singleton _

theorem processEdge_pinBound (g : FGraph) (γ : Nat) (e : FEdge) (c : Nat)
    (h6 : EdgePinBound g c)
    (hall : ∀ n ∈ g.nodes, n.guid ≠ c) (hγne : γ ≠ c) (hocne : e.toPin.owner ≠ c)
    (hdf : e.fromPin.dir = Dir.output) (hdt : e.toPin.dir = Dir.input)
    (hef : e.fromPin.guid < c) (het : e.toPin.guid < c) :
    EdgePinBound (processEdge g γ e c) (c + 3) := by
  intro n2 hn2 ed hed
  rcases (mem_processEdge g γ e c hall hγne hocne n2).mp hn2 with ⟨n1, hn1, rfl⟩ | rfl
  · rcases List.mem_append.mp hed with hin | hout
    · by_cases hh : n1.guid = e.toPin.owner
      · rw [peNodeMap_in_head e γ c n1 hh hdf hdt] at hin
        rcases List.mem_append.mp hin with hin | hin
        · have := h6 n1 hn1 ed (List.mem_append.mpr (Or.inl hin))
          omega
        · rw [List.mem_singleton] at hin
          subst hin
          constructor
          · show e.toPin.guid < c + 3
            omega
          · show c + 2 < c + 3
            omega
      · rw [peNodeMap_in_nonhead e γ c n1 hh hdf] at hin
        have := h6 n1 hn1 ed (List.mem_append.mpr (Or.inl hin))
        omega
    · by_cases ht : n1.guid = γ
      · rw [peNodeMap_out_tail e γ c n1 ht hdf hdt] at hout
        rcases List.mem_append.mp hout with hout | hout
        · have := h6 n1 hn1 ed
            (List.mem_append.mpr (Or.inr (erasePair_subset _ _ _ ed hout)))
          omega
        · rw [List.mem_singleton] at hout
          subst hout
          constructor
          · show e.fromPin.guid < c + 3
            omega
          · show c + 1 < c + 3
            omega
      · rw [peNodeMap_out_other e γ c n1 ht hdt] at hout
        have := h6 n1 hn1 ed (List.mem_append.mpr (Or.inr hout))
        omega
  · rcases List.mem_append.mp hed with hin | hout
    · rw [show (peDummy e c).inEdges =
        [⟨⟨c + 1, Dir.input, c⟩, e.fromPin⟩] from rfl, List.mem_singleton] at hin
      subst hin
      constructor
      · show c + 1 < c + 3
        omega
      · show e.fromPin.guid < c + 3
        omega
    · rw [show (peDummy e c).outEdges =
        [⟨⟨c + 2, Dir.output, c⟩, e.toPin⟩] from rfl, List.mem_singleton] at hout
      subst hout
      constructor
      · show c + 2 < c + 3
        omega
      · show e.toPin.guid < c + 3
        omega

theorem erasePair_no_match (s t : FPin) :
    ∀ (l : List FEdge),
      (l.map (fun x => (x.fromPin.guid, x.toPin.guid))).Nodup →
      (∃ y ∈ l, y.fromPin.guid = s.guid ∧ y.toPin.guid = t.guid) →
      ∀ x ∈ erasePair l s t, ¬(x.fromPin.guid = s.guid ∧ x.toPin.guid = t.guid) := by
  intro l
  induction l with
  | nil =>
      intro _ _ x hx
      cases hx
  | cons a tl ih =>
      intro hnd hmatch x hx hcontra
      rw [List.map_cons, List.nodup_cons] at hnd
      unfold erasePair at hx
      by_cases ha : (a.fromPin.guid == s.guid && a.toPin.guid == t.guid) = true
      · simp only [List.eraseP_cons, ha, cond_true] at hx
        simp only [Bool.and_eq_true, beq_iff_eq] at ha
        apply hnd.1
        have : (x.fromPin.guid, x.toPin.guid) = (a.fromPin.guid, a.toPin.guid) := by
          rw [hcontra.1, hcontra.2, ha.1, ha.2]
        rw [← this]
        exact List.mem_map_of_mem _ hx
      · have ha2 : (a.fromPin.guid == s.guid && a.toPin.guid == t.guid) = false :=
          Bool.eq_false_iff.mpr ha
        simp only [List.eraseP_cons, ha2, cond_false] at hx
        rcases List.mem_cons.mp hx with rfl | hx2
        · apply ha
          simp only [Bool.and_eq_true, beq_iff_eq]
          exact hcontra
        · rcases hmatch with ⟨y, hy, hyp⟩
          have hya : y ≠ a := by
            intro he
            subst he
            apply ha
            simp only [Bool.and_eq_true, beq_iff_eq]
            exact hyp
          have hyt : y ∈ tl := by
            rcases List.mem_cons.mp hy with rfl | h
            · exact absurd rfl hya
            · exact h
          exact ih hnd.2 ⟨y, hyt, hyp⟩ x hx2 hcontra

theorem processEdges_master (restL : List (List Nat)) (γ : Nat) :
    ∀ (LE : List FEdge) (g : FGraph) (nl : List Nat) (c : Nat),
      SInv g nl c →
      γ ∈ g.nodes.map (·.guid) →
      (∃ n0 ∈ g.nodes, n0.guid = γ ∧ (∀ x ∈ LE, x ∈ n0.outEdges) ∧
        (LE.map (fun x => (x.fromPin.guid, x.toPin.guid))).Nodup) →
      (∀ n ∈ g.nodes, n.guid = γ → ∀ x ∈ n.outEdges,
        x.toPin.owner ∈ nl ∨ x ∈ LE) →
      (∀ x ∈ LE, ∃ q ∈ restL.enum, x.toPin.owner ∈ q.2) →
      PEOut restL γ g nl c (processEdges γ LE g nl c) := by
  intro LE
  induction LE with
  | nil =>
      intro g nl c hs _ _ hshort _
      refine ⟨hs, le_rfl, ⟨[], by rw [List.append_nil]; rfl, List.nodup_nil, by simp⟩,
        ?_, ?_, ?_, ?_⟩
      · intro n hn hg x hx
        rcases hshort n hn hg x hx with h | h
        · exact h
        · cases h
      · intro n2 hn2 _
        exact Or.inl ⟨n2, hn2, rfl, rfl, rfl, rfl⟩
      · intro n2 hn2
        exact Or.inl ⟨n2, hn2, rfl, rfl, rfl⟩
      · intro n _ _ _
        exact Iff.rfl
  | cons e0 LErest ih =>
      intro g nl c hs hγm hex hshort hfar
      rcases hs with ⟨hnd, hew, hcl, hop, hnb, hpb, hnlb, hnln⟩
      rcases hex with ⟨n0, hn0, hn0g, hLEsub, hLEnd⟩
      rw [List.map_cons, List.nodup_cons] at hLEnd
      have he0 : e0 ∈ n0.outEdges := hLEsub e0 (List.mem_cons_self _ _)
      have hall : ∀ n ∈ g.nodes, n.guid ≠ c := fun n hn => Nat.ne_of_lt (hnb n hn)
      have hγc : γ < c := hn0g ▸ hnb n0 hn0
      have hγne : γ ≠ c := Nat.ne_of_lt hγc
      have hocmem : e0.toPin.owner ∈ g.nodes.map (·.guid) :=
        hcl n0 hn0 e0 (List.mem_append.mpr (Or.inr he0))
      have hoc : e0.toPin.owner < c := by
        rcases List.mem_map.mp hocmem with ⟨m, hm, hmg⟩
        rw [← hmg]
        exact hnb m hm
      have hocne : e0.toPin.owner ≠ c := Nat.ne_of_lt hoc
      have hdf : e0.fromPin.dir = Dir.output := ((hew n0 hn0).2 e0 he0).2.1
      have hdt : e0.toPin.dir = Dir.input := ((hew n0 hn0).2 e0 he0).2.2
      have hfo : e0.fromPin.owner = γ := by
        rw [← hn0g]
        exact ((hew n0 hn0).2 e0 he0).1
      have hef : e0.fromPin.guid < c :=
        (hpb n0 hn0 e0 (List.mem_append.mpr (Or.inr he0))).1
      have het : e0.toPin.guid < c :=
        (hpb n0 hn0 e0 (List.mem_append.mpr (Or.inr he0))).2
      have he0far := hfar e0 (List.mem_cons_self _ _)
      have hstep : processEdges γ (e0 :: LErest) g nl c
          = processEdges γ LErest (processEdge g γ e0 c) (nl ++ [c]) (c + 3) := rfl
      have h1nd : GuidsNodup (processEdge g γ e0 c) :=
        processEdge_nodup g γ e0 c hnd hall hγne hocne
      have h1ew := processEdge_edgesOwned g γ e0 c hew hall hγne hocne hdf hdt hfo
      have h1cl := processEdge_closed g γ e0 c hcl hall hγne hocne hdf hdt hγm hfo hocmem
      have h1op := processEdge_outPairsNodup g γ e0 c hop hpb hall hγne hocne hdf hdt
      have h1nb := processEdge_bound g γ e0 c hnb hall hγne hocne
      have h1pb := processEdge_pinBound g γ e0 c hpb hall hγne hocne hdf hdt hef het
      have h1guids := processEdge_guids g γ e0 c hall hγne hocne
      have h1nlb : ∀ x ∈ nl ++ [c], x < c + 3 := by
        intro x hx
        rcases List.mem_append.mp hx with h | h
        · have := hnlb x h
          omega
        · rw [List.mem_singleton] at h
          omega
      have h1nln : (nl ++ [c]).Nodup := by
        apply nodup_append_singleton _ _ hnln
        intro hc2
        have := hnlb c hc2
        omega
      have h1s : SInv (processEdge g γ e0 c) (nl ++ [c]) (c + 3) :=
        ⟨h1nd, h1ew, h1cl, h1op, h1nb, h1pb, h1nlb, h1nln⟩
      have h1γm : γ ∈ (processEdge g γ e0 c).nodes.map (·.guid) := by
        rw [h1guids]
        exact List.mem_append.mpr (Or.inl hγm)
      have hn0bspec : ∃ n0b ∈ (processEdge g γ e0 c).nodes, n0b.guid = γ ∧
          n0b.outEdges = erasePair n0.outEdges e0.fromPin e0.toPin ++
            [⟨e0.fromPin, ⟨c + 1, Dir.input, c⟩⟩] := by
        rcases List.mem_map.mp h1γm with ⟨n0b, hn0b, hn0bg⟩
        rcases processEdge_tail_out g γ e0 c hall hγne hocne hdf hdt n0b hn0b hn0bg
          with ⟨n1, hn1, hn1g, hout, _, _⟩
        have heq : n1 = n0 := guid_inj g hnd n1 n0 hn1 hn0 (by rw [hn1g, hn0g])
        subst heq
        exact ⟨n0b, hn0b, hn0bg, hout⟩
      rcases hn0bspec with ⟨n0b, hn0b, hn0bg, hn0bout⟩
      have hmatch : ∃ y ∈ n0.outEdges,
          y.fromPin.guid = e0.fromPin.guid ∧ y.toPin.guid = e0.toPin.guid :=
        ⟨e0, he0, rfl, rfl⟩
      have hrestmem : ∀ x ∈ LErest, x ∈ n0b.outEdges := by
        intro x hx
        rw [hn0bout]
        refine List.mem_append.mpr (Or.inl ?_)
        apply mem_eraseP_retain _ _ _ (hLEsub x (List.mem_cons_of_mem _ hx))
        have hne : (x.fromPin.guid, x.toPin.guid) ≠ (e0.fromPin.guid, e0.toPin.guid) := by
          intro he
          apply hLEnd.1
          rw [← he]
          exact List.mem_map_of_mem _ hx
        rw [Bool.eq_false_iff]
        intro hc2
        apply hne
        simp only [Bool.and_eq_true, beq_iff_eq] at hc2
        rw [hc2.1, hc2.2]
      have hex1 : ∃ nb ∈ (processEdge g γ e0 c).nodes, nb.guid = γ ∧
          (∀ x ∈ LErest, x ∈ nb.outEdges) ∧
          (LErest.map (fun x => (x.fromPin.guid, x.toPin.guid))).Nodup :=
        ⟨n0b, hn0b, hn0bg, hrestmem, hLEnd.2⟩
      have hshort1 : ∀ n ∈ (processEdge g γ e0 c).nodes, n.guid = γ →
          ∀ x ∈ n.outEdges, x.toPin.owner ∈ nl ++ [c] ∨ x ∈ LErest := by
        intro n hn hg x hx
        have heqn : n = n0b := guid_inj _ h1nd n n0b hn hn0b (by rw [hg, hn0bg])
        subst heqn
        rw [hn0bout] at hx
        rcases List.mem_append.mp hx with hx | hx
        · have hxorig : x ∈ n0.outEdges := erasePair_subset _ _ _ x hx
          have hnomatch := erasePair_no_match e0.fromPin e0.toPin n0.outEdges
            (hop n0 hn0) hmatch x hx
          rcases hshort n0 hn0 hn0g x hxorig with h | h
          · exact Or.inl (List.mem_append.mpr (Or.inl h))
          · rcases List.mem_cons.mp h with rfl | h2
            · exact absurd ⟨rfl, rfl⟩ hnomatch
            · exact Or.inr h2
        · rw [List.mem_singleton] at hx
          subst hx
          exact Or.inl (List.mem_append.mpr (Or.inr (by simp)))
      have hfar1 : ∀ x ∈ LErest, ∃ q ∈ restL.enum, x.toPin.owner ∈ q.2 :=
        fun x hx => hfar x (List.mem_cons_of_mem _ hx)
      have hrec := ih (processEdge g γ e0 c) (nl ++ [c]) (c + 3) h1s h1γm hex1 hshort1 hfar1
      rw [hstep]
      rcases hrec with ⟨r1, r2, r3, r4, r5, r6, r7⟩
      refine ⟨r1, by omega, ?_, r4, ?_, ?_, ?_⟩
      · rcases r3 with ⟨ds, hds, hdsnd, hdsb⟩
        refine ⟨c :: ds, by rw [hds, List.append_assoc]; rfl, ?_, ?_⟩
        · rw [List.nodup_cons]
          refine ⟨?_, hdsnd⟩
          intro hc2
          have := (hdsb c hc2).1
          omega
        · intro x hx
          rcases List.mem_cons.mp hx with rfl | hx2
          · exact ⟨le_rfl, by omega⟩
          · have := hdsb x hx2
            omega
      · intro n2 hn2 hgne
        rcases r5 n2 hn2 hgne with ⟨n1p, hn1p, hgeq, houte, hinp, houtp⟩ | hdum
        · by_cases hcase : n1p.guid = c
          · have hd := processEdge_dummy g γ e0 c hall hγne hocne n1p hn1p hcase
            refine Or.inr ⟨?_, ?_, ?_, ?_, ?_⟩
            · rw [← hgeq, hcase]
            · rcases r3 with ⟨ds, hds, _, _⟩
              rw [hds]
              refine List.mem_append.mpr (Or.inl ?_)
              rw [← hgeq, hcase]
              exact List.mem_append.mpr (Or.inr (by simp))
            · rw [← hinp]
              exact hd.1
            · rw [← houtp]
              exact hd.2.1
            · intro x hx
              rw [← houte, hd.2.2, List.mem_singleton] at hx
              subst hx
              exact he0far
          · rcases processEdge_frame_out g γ e0 c hall hγne hocne hdt n1p hn1p
              (by rw [hgeq]; exact hgne) hcase with ⟨n1, hn1, ha, hb, hc3, hd3⟩
            exact Or.inl ⟨n1, hn1, by rw [ha, hgeq], by rw [hb, houte],
              by rw [hc3, hinp], by rw [hd3, houtp]⟩
        · refine Or.inr ⟨by omega, hdum.2.1, hdum.2.2.1, hdum.2.2.2.1, hdum.2.2.2.2⟩
      · intro n2 hn2
        rcases r6 n2 hn2 with ⟨n1p, hn1p, hgeq, hinp, houtp⟩ | hlen
        · rcases processEdge_pinShape g γ e0 c hall hγne hocne n1p hn1p with
            ⟨n1, hn1, ha, hb2, hc2⟩ | hlen2
          · exact Or.inl ⟨n1, hn1, by rw [ha, hgeq], by rw [hb2, hinp],
              by rw [hc2, houtp]⟩
          · exact Or.inr ⟨by rw [← hinp]; exact hlen2.1, by rw [← houtp]; exact hlen2.2⟩
        · exact Or.inr hlen
      · intro n hgne hglt hnotin
        have hnoc : n.guid ≠ c := Nat.ne_of_lt hglt
        have hnoo : n.guid ≠ e0.toPin.owner := by
          intro he
          rcases he0far with ⟨q, hq, hqm⟩
          exact hnotin q hq (he ▸ hqm)
        have hiff1 := processEdge_memframe g γ e0 c hall hγne hocne n hgne hnoo hnoc
        have hiff2 := r7 n hgne (by omega) hnotin
        exact hiff1.trans hiff2

theorem processNode_master (restL : List (List Nat)) (γ : Nat) (g : FGraph)
    (nl : List Nat) (c : Nat) (hs : SInv g nl c)
    (htails : ∀ n ∈ g.nodes, n.guid = γ → ∀ e ∈ n.outEdges,
      e.toPin.owner ∈ nl ∨ ∃ q ∈ restL.enum, e.toPin.owner ∈ q.2) :
    PEOut restL γ g nl c (processNode g γ nl c) := by
  have hunf : processNode g γ nl c =
      match g.findNode γ with
      | none => (g, nl, c)
      | some n =>
          processEdges γ (n.outEdges.filter (fun e => !nl.contains e.toPin.owner))
            g nl c := rfl
  cases hfind : g.findNode γ with
  | none =>
      rw [hunf, hfind]
      have hno : ∀ n ∈ g.nodes, n.guid ≠ γ := by
        intro n hn he
        have := List.find?_eq_none.mp hfind n hn
        exact this (by simpa using he)
      refine ⟨hs, le_rfl, ⟨[], by rw [List.append_nil], List.nodup_nil, by simp⟩,
        ?_, ?_, ?_, ?_⟩
      · intro n hn hg
        exact absurd hg (hno n hn)
      · intro n2 hn2 _
        exact Or.inl ⟨n2, hn2, rfl, rfl, rfl, rfl⟩
      · intro n2 hn2
        exact Or.inl ⟨n2, hn2, rfl, rfl, rfl⟩
      · intro n _ _ _
        exact Iff.rfl
  | some n0 =>
      rw [hunf, hfind]
      have hn0 : n0 ∈ g.nodes := List.mem_of_find?_eq_some hfind
      have hn0g : n0.guid = γ := by
        have := List.find?_some hfind
        simpa using this
      apply processEdges_master restL γ _ g nl c hs
      · exact List.mem_map.mpr ⟨n0, hn0, hn0g⟩
      · refine ⟨n0, hn0, hn0g, ?_, ?_⟩
        · intro x hx
          exact List.mem_of_mem_filter hx
        · exact ((List.filter_sublist _).map _).nodup (hs.2.2.2.1 n0 hn0)
      · intro n hn hg x hx
        have heq : n = n0 := guid_inj g hs.1 n n0 hn hn0 (by rw [hg, hn0g])
        subst heq
        by_cases hc : x.toPin.owner ∈ nl
        · exact Or.inl hc
        · refine Or.inr (List.mem_filter.mpr ⟨hx, ?_⟩)
          rw [Bool.not_eq_true']
          rw [Bool.eq_false_iff]
          intro hc2
          exact hc (by simpa using hc2)
      · intro x hx
        rcases List.mem_filter.mp hx with ⟨hx2, hcond⟩
        rw [Bool.not_eq_true'] at hcond
        rcases htails n0 hn0 hn0g x hx2 with h | h
        · exfalso
          have : nl.contains x.toPin.owner = true := by simpa using h
          rw [hcond] at this
          cases this
        · exact h

theorem processLayer_master (restL : List (List Nat)) :
    ∀ (rem : List Nat) (g : FGraph) (nl : List Nat) (c : Nat),
      SInv g nl c → (∀ x ∈ rem, x < c) → TailsOk rem restL g nl →
      PLOut rem restL g nl c (processLayer rem g nl c) := by
  intro rem
  induction rem with
  | nil =>
      intro g nl c hs _ _
      refine ⟨hs, le_rfl, ⟨[], by rw [List.append_nil]; rfl, List.nodup_nil, by simp⟩,
        ?_, ?_, ?_, ?_⟩
      · intro γ2 hγ2
        cases hγ2
      · intro n2 hn2 _
        exact Or.inl ⟨n2, hn2, rfl, rfl, rfl, rfl⟩
      · intro n2 hn2
        exact Or.inl ⟨n2, hn2, rfl, rfl, rfl⟩
      · intro n _ _ _
        exact Iff.rfl
  | cons γ rem2 ih =>
      intro g nl c hs hb htails
      have hstep : processLayer (γ :: rem2) g nl c =
          processLayer rem2 (processNode g γ nl c).1 (processNode g γ nl c).2.1
            (processNode g γ nl c).2.2 := rfl
      have hpe : PEOut restL γ g nl c (processNode g γ nl c) :=
        processNode_master restL γ g nl c hs (htails γ (List.mem_cons_self _ _))
      rcases hpe with ⟨h1s, h1c, h1ds, h1done, h1frame, h1pins, h1mem⟩
      have hb2 : ∀ x ∈ rem2, x < (processNode g γ nl c).2.2 :=
        fun x hx => lt_of_lt_of_le (hb x (List.mem_cons_of_mem _ hx)) h1c
      have htails2 : TailsOk rem2 restL (processNode g γ nl c).1
          (processNode g γ nl c).2.1 := by
        intro γ2 hγ2 n hn hg e he
        by_cases hcase : γ2 = γ
        · subst hcase
          exact Or.inl (h1done n hn hg e he)
        · rcases h1frame n hn (by rw [hg]; exact hcase) with
            ⟨n1, hn1, hgeq, houte, _, _⟩ | hdum
          · rcases htails γ2 (List.mem_cons_of_mem _ hγ2) n1 hn1 (by rw [hgeq, hg])
              e (by rw [houte]; exact he) with h | h
            · refine Or.inl ?_
              rcases h1ds with ⟨ds, hds, _, _⟩
              rw [hds]
              exact List.mem_append.mpr (Or.inl h)
            · exact Or.inr h
          · exfalso
            have hdg := hdum.1
            rw [hg] at hdg
            have := hb γ2 (List.mem_cons_of_mem _ hγ2)
            omega
      have hrec := ih (processNode g γ nl c).1 (processNode g γ nl c).2.1
        (processNode g γ nl c).2.2 h1s hb2 htails2
      rcases hrec with ⟨h2s, h2c, h2ds, h2done, h2frame, h2pins, h2mem⟩
      rw [hstep]
      refine ⟨h2s, le_trans h1c h2c, ?_, ?_, ?_, ?_, ?_⟩
      · rcases h1ds with ⟨ds1, hds1, hnd1, hb1⟩
        rcases h2ds with ⟨ds2, hds2, hnd2, hb2d⟩
        refine ⟨ds1 ++ ds2, by rw [hds2, hds1, List.append_assoc], ?_, ?_⟩
        · rw [List.nodup_append]
          refine ⟨hnd1, hnd2, ?_⟩
          intro x hx1 hx2
          have ha1 := (hb1 x hx1).2
          have ha2 := (hb2d x hx2).1
          omega
        · intro x hx
          rcases List.mem_append.mp hx with h | h
          · have := hb1 x h
            exact ⟨this.1, by have h9 := this.2; omega⟩
          · have := hb2d x h
            exact ⟨by have h9 := this.1; omega, this.2⟩
      · intro γ2 hγ2 n hn hg e he
        rcases List.mem_cons.mp hγ2 with rfl | hγ2r
        · by_cases hmem : γ2 ∈ rem2
          · exact h2done γ2 hmem n hn hg e he
          · rcases h2frame n hn (by rw [hg]; exact hmem) with
              ⟨n1, hn1, hgeq, houte, _, _⟩ | hdum
            · have hin := h1done n1 hn1 (by rw [hgeq, hg]) e (by rw [houte]; exact he)
              rcases h2ds with ⟨ds2, hds2, _, _⟩
              rw [hds2]
              exact List.mem_append.mpr (Or.inl hin)
            · exfalso
              have hdg := hdum.1
              rw [hg] at hdg
              have := hb γ2 (List.mem_cons_self _ _)
              omega
        · exact h2done γ2 hγ2r n hn hg e he
      · intro n2 hn2 hnotin
        have hnγ : n2.guid ≠ γ := fun he => hnotin (he ▸ List.mem_cons_self _ _)
        have hnr : n2.guid ∉ rem2 := fun he => hnotin (List.mem_cons_of_mem _ he)
        rcases h2frame n2 hn2 hnr with ⟨n1p, hn1p, hgeq, houte, hinp, houtp⟩ | hdum
        · rcases h1frame n1p hn1p (by rw [hgeq]; exact hnγ) with
            ⟨n1, hn1, ha, hb3, hc3, hd3⟩ | hdum1
          · exact Or.inl ⟨n1, hn1, by rw [ha, hgeq], by rw [hb3, houte],
              by rw [hc3, hinp], by rw [hd3, houtp]⟩
          · refine Or.inr ⟨by rw [← hgeq]; exact hdum1.1, ?_, ?_, ?_, ?_⟩
            · rcases h2ds with ⟨ds2, hds2, _, _⟩
              rw [hds2, ← hgeq]
              exact List.mem_append.mpr (Or.inl hdum1.2.1)
            · rw [← hinp]
              exact hdum1.2.2.1
            · rw [← houtp]
              exact hdum1.2.2.2.1
            · intro x hx
              rw [← houte] at hx
              exact hdum1.2.2.2.2 x hx
        · refine Or.inr ⟨?_, hdum.2.1, hdum.2.2.1, hdum.2.2.2.1, hdum.2.2.2.2⟩
          have := hdum.1
          omega
      · intro n2 hn2
        rcases h2pins n2 hn2 with ⟨n1p, hn1p, hgeq, hinp, houtp⟩ | hlen
        · rcases h1pins n1p hn1p with ⟨n1, hn1, ha, hb3, hc3⟩ | hlen1
          · exact Or.inl ⟨n1, hn1, by rw [ha, hgeq], by rw [hb3, hinp],
              by rw [hc3, houtp]⟩
          · exact Or.inr ⟨by rw [← hinp]; exact hlen1.1, by rw [← houtp]; exact hlen1.2⟩
        · exact Or.inr hlen
      · intro n hnin hlt hnotrest
        have hnγ : n.guid ≠ γ := fun he => hnin (he ▸ List.mem_cons_self _ _)
        have hnr : n.guid ∉ rem2 := fun he => hnin (List.mem_cons_of_mem _ he)
        exact (h1mem n hnγ hlt hnotrest).trans
          (h2mem n hnr (lt_of_lt_of_le hlt h1c) hnotrest)

theorem adAux_head (ll : List (List Nat)) (cur : List Nat) (g : FGraph) (c : Nat) :
    ∃ tl, (adAux ll cur g c).2.1 = cur :: tl := by
  cases ll with
  | nil => exact ⟨[], rfl⟩
  | cons l2 rest => exact ⟨_, rfl⟩

theorem enum_snd_mem (L : List (List Nat)) (q : Nat × List Nat) (hq : q ∈ L.enum) :
    q.2 ∈ L := by
  rw [List.mem_enum_iff_getElem?] at hq
  rcases List.getElem?_eq_some_iff.mp hq with ⟨hlt, hge⟩
  exact hge ▸ List.getElem_mem hlt

theorem adAux_master :
    ∀ (ll : List (List Nat)) (cur : List Nat) (g : FGraph) (c : Nat),
      SInv g [] c →
      (∀ x ∈ (cur :: ll).flatten, x < c) →
      (cur :: ll).flatten.Nodup →
      Forward g (cur :: ll) →
      GuidsNodup (adAux ll cur g c).1 ∧
      Adjacent (adAux ll cur g c).1 (adAux ll cur g c).2.1 ∧
      (∀ n2 ∈ (adAux ll cur g c).1.nodes, PinShape g n2) ∧
      (∀ n : FNode, n.guid ∉ (cur :: ll).flatten → n.guid < c →
        (n ∈ g.nodes ↔ n ∈ (adAux ll cur g c).1.nodes)) := by
  intro ll
  induction ll with
  | nil =>
      intro cur g c hs hfb hfn hfwd
      refine ⟨hs.1, ?_, ?_, ?_⟩
      · intro k lay hk γ hγ n hn hg e he
        have h0 : (adAux [] cur g c).2.1 = [cur] := rfl
        rw [h0] at hk
        cases k with
        | zero =>
            have hlay : lay = cur := by
              have h9 := hk
              simp at h9
              exact h9.symm
            have hγcur : γ ∈ cur := hlay ▸ hγ
            exfalso
            have hp : ((0 : Nat), cur) ∈ ([cur] : List (List Nat)).enum := by
              rw [List.mem_enum_iff_getElem?]
              simp
            rcases hfwd (0, cur) hp γ hγcur n hn hg e he with ⟨q, hq, hlt, _⟩
            rw [List.mem_enum_iff_getElem?] at hq
            have hlen := (List.getElem?_eq_some_iff.mp hq).1
            simp at hlen
            omega
        | succ k =>
            simp at hk
      · intro n2 hn2
        exact Or.inl ⟨n2, hn2, rfl, rfl, rfl⟩
      · intro n _ _
        exact Iff.rfl
  | cons l2 rest ih =>
      intro cur g c hs hfb hfn hfwd
      have hflat : (cur :: l2 :: rest).flatten = cur ++ (l2 ++ rest.flatten) := by
        simp [List.flatten_cons]
      rw [hflat] at hfb hfn
      have hdisj1 := List.disjoint_of_nodup_append hfn
      have h23 : (l2 ++ rest.flatten).Nodup := List.Nodup.of_append_right hfn
      have hdisj2 := List.disjoint_of_nodup_append h23
      have hcurb : ∀ x ∈ cur, x < c :=
        fun x hx => hfb x (List.mem_append.mpr (Or.inl hx))
      have hl2b : ∀ x ∈ l2, x < c :=
        fun x hx => hfb x (List.mem_append.mpr (Or.inr (List.mem_append.mpr (Or.inl hx))))
      have hrfb : ∀ x ∈ rest.flatten, x < c :=
        fun x hx => hfb x (List.mem_append.mpr (Or.inr (List.mem_append.mpr (Or.inr hx))))
      have hl2nd : l2.Nodup := List.Nodup.of_append_left h23
      have hs2 : SInv g l2 c :=
        ⟨hs.1, hs.2.1, hs.2.2.1, hs.2.2.2.1, hs.2.2.2.2.1, hs.2.2.2.2.2.1, hl2b, hl2nd⟩
      have htails : TailsOk cur rest g l2 := by
        intro γ hγ n hn hg e he
        have hp : ((0 : Nat), cur) ∈ (cur :: l2 :: rest).enum := by
          rw [List.mem_enum_iff_getElem?]
          simp
        rcases hfwd (0, cur) hp γ hγ n hn hg e he with ⟨q, hq, hlt, hmem⟩
        rw [List.mem_enum_iff_getElem?] at hq
        obtain ⟨k2, lay2⟩ := q
        simp only at hlt hmem
        cases k2 with
        | zero => omega
        | succ k2 =>
            cases k2 with
            | zero =>
                have : lay2 = l2 := by
                  have := hq
                  simp at this
                  exact this.symm
                subst this
                exact Or.inl hmem
            | succ k2 =>
                refine Or.inr ⟨(k2, lay2), ?_, hmem⟩
                rw [List.mem_enum_iff_getElem?]
                simpa using hq
      have hpl := processLayer_master rest cur g l2 c hs2 hcurb htails
      rcases hpl with ⟨h1s, h1c, h1ds, h1done, h1frame, h1pins, h1mem⟩
      rcases h1ds with ⟨ds, hds, hdsnd, hdsb⟩
      have hfb2 : ∀ x ∈ ((processLayer cur g l2 c).2.1 :: rest).flatten,
          x < (processLayer cur g l2 c).2.2 := by
        intro x hx
        rw [List.flatten_cons, List.mem_append] at hx
        rcases hx with hx | hx
        · rw [hds, List.mem_append] at hx
          rcases hx with hx | hx
          · have := hl2b x hx
            omega
          · exact (hdsb x hx).2
        · have := hrfb x hx
          omega
      have hfn2 : (((processLayer cur g l2 c).2.1) :: rest).flatten.Nodup := by
        rw [List.flatten_cons, hds]
        have hgoal : ((l2 ++ ds) ++ rest.flatten).Nodup := by
          rw [List.nodup_append]
          refine ⟨?_, List.Nodup.of_append_right h23, ?_⟩
          · rw [List.nodup_append]
            refine ⟨hl2nd, hdsnd, ?_⟩
            intro x hx1 hx2
            have := hl2b x hx1
            have := (hdsb x hx2).1
            omega
          · intro x hx1 hx2
            rcases List.mem_append.mp hx1 with hx1 | hx1
            · exact hdisj2 hx1 hx2
            · have := (hdsb x hx1).1
              have := hrfb x hx2
              omega
        exact hgoal
      have hs3 : SInv (processLayer cur g l2 c).1 [] (processLayer cur g l2 c).2.2 :=
        ⟨h1s.1, h1s.2.1, h1s.2.2.1, h1s.2.2.2.1, h1s.2.2.2.2.1, h1s.2.2.2.2.2.1,
          by simp, List.nodup_nil⟩
      have hfwd2 : Forward (processLayer cur g l2 c).1
          ((processLayer cur g l2 c).2.1 :: rest) := by
        intro p hp γ hγ n hn hg e he
        rw [List.mem_enum_iff_getElem?] at hp
        obtain ⟨k, lay⟩ := p
        simp only at hγ ⊢
        cases k with
        | zero =>
            have hlay : lay = (processLayer cur g l2 c).2.1 := by
              have := hp
              simp at this
              exact this.symm
            subst hlay
            rw [hds] at hγ
            rcases List.mem_append.mp hγ with hγ2 | hγd
            · have hγlt : γ < c := hl2b γ hγ2
              have hγnotcur : γ ∉ cur := by
                intro hcc
                exact hdisj1 hcc (List.mem_append.mpr (Or.inl hγ2))
              rcases h1frame n hn (by rw [hg]; exact hγnotcur) with
                ⟨n1, hn1, hgeq, houte, _, _⟩ | hdum
              · have hp1 : ((1 : Nat), l2) ∈ (cur :: l2 :: rest).enum := by
                  rw [List.mem_enum_iff_getElem?]
                  simp
                rcases hfwd (1, l2) hp1 γ hγ2 n1 hn1 (by rw [hgeq, hg]) e
                  (by rw [houte]; exact he) with ⟨q, hq, hlt, hmem⟩
                rw [List.mem_enum_iff_getElem?] at hq
                obtain ⟨k2, lay2⟩ := q
                simp only at hlt hmem
                obtain ⟨m, rfl⟩ : ∃ m, k2 = m + 2 := ⟨k2 - 2, by omega⟩
                refine ⟨(m + 1, lay2), ?_, by omega, hmem⟩
                rw [List.mem_enum_iff_getElem?]
                simpa using hq
              · exfalso
                have hdg := hdum.1
                rw [hg] at hdg
                omega
            · have hγge := (hdsb γ hγd).1
              have hγnotcur : γ ∉ cur := by
                intro hcc
                have := hcurb γ hcc
                omega
              rcases h1frame n hn (by rw [hg]; exact hγnotcur) with
                ⟨n1, hn1, hgeq, _, _, _⟩ | hdum
              · exfalso
                have := hs.2.2.2.2.1 n1 hn1
                rw [hgeq, hg] at this
                omega
              · rcases hdum.2.2.2.2 e he with ⟨q, hq, hmem⟩
                rw [List.mem_enum_iff_getElem?] at hq
                refine ⟨(q.1 + 1, q.2), ?_, by omega, hmem⟩
                rw [List.mem_enum_iff_getElem?]
                simpa using hq
        | succ k =>
            have hp2 : rest[k]? = some lay := by simpa using hp
            have hlaymem : lay ∈ rest := by
              rcases List.getElem?_eq_some_iff.mp hp2 with ⟨hlt, hge⟩
              exact hge ▸ List.getElem_mem hlt
            have hγrf : γ ∈ rest.flatten := List.mem_flatten.mpr ⟨lay, hlaymem, hγ⟩
            have hγlt : γ < c := hrfb γ hγrf
            have hγnotcur : γ ∉ cur := by
              intro hcc
              exact hdisj1 hcc (List.mem_append.mpr (Or.inr hγrf))
            rcases h1frame n hn (by rw [hg]; exact hγnotcur) with
              ⟨n1, hn1, hgeq, houte, _, _⟩ | hdum
            · have hpk : ((k + 2 : Nat), lay) ∈ (cur :: l2 :: rest).enum := by
                rw [List.mem_enum_iff_getElem?]
                simpa using hp2
              rcases hfwd (k + 2, lay) hpk γ hγ n1 hn1 (by rw [hgeq, hg]) e
                (by rw [houte]; exact he) with ⟨q, hq, hlt, hmem⟩
              rw [List.mem_enum_iff_getElem?] at hq
              obtain ⟨k2, lay2⟩ := q
              simp only at hlt hmem
              obtain ⟨m, rfl⟩ : ∃ m, k2 = m + 2 := ⟨k2 - 2, by omega⟩
              refine ⟨(m + 1, lay2), ?_, by omega, hmem⟩
              rw [List.mem_enum_iff_getElem?]
              simpa using hq
            · exfalso
              have hdg := hdum.1
              rw [hg] at hdg
              omega
      have hrec := ih (processLayer cur g l2 c).2.1 (processLayer cur g l2 c).1
        (processLayer cur g l2 c).2.2 hs3 hfb2 hfn2 hfwd2
      rcases hrec with ⟨h2nd, h2adj, h2pins, h2mem⟩
      have hstep : adAux (l2 :: rest) cur g c =
          ((adAux rest (processLayer cur g l2 c).2.1 (processLayer cur g l2 c).1
              (processLayer cur g l2 c).2.2).1,
            cur :: (adAux rest (processLayer cur g l2 c).2.1 (processLayer cur g l2 c).1
              (processLayer cur g l2 c).2.2).2.1,
            (adAux rest (processLayer cur g l2 c).2.1 (processLayer cur g l2 c).1
              (processLayer cur g l2 c).2.2).2.2) := rfl
      rw [hstep]
      refine ⟨h2nd, ?_, ?_, ?_⟩
      · intro k lay hk γ hγ n hn hg e he
        cases k with
        | zero =>
            have hlay : lay = cur := by
              have h9 := hk
              simp at h9
              exact h9.symm
            have hγcur : γ ∈ cur := hlay ▸ hγ
            rcases adAux_head rest (processLayer cur g l2 c).2.1
              (processLayer cur g l2 c).1 (processLayer cur g l2 c).2.2 with ⟨tl, hhead⟩
            refine ⟨(processLayer cur g l2 c).2.1, ?_, ?_⟩
            · rw [hhead]
              simp
            · have hγlt : γ < c := hcurb γ hγcur
              have hγnot : γ ∉ ((processLayer cur g l2 c).2.1 :: rest).flatten := by
                rw [List.flatten_cons, hds]
                intro hcc
                rcases List.mem_append.mp hcc with hcc | hcc
                · rcases List.mem_append.mp hcc with hcc | hcc
                  · exact hdisj1 hγcur (List.mem_append.mpr (Or.inl hcc))
                  · have := (hdsb γ hcc).1
                    omega
                · exact hdisj1 hγcur (List.mem_append.mpr (Or.inr hcc))
              have hn1 : n ∈ (processLayer cur g l2 c).1.nodes :=
                (h2mem n (by rw [hg]; exact hγnot) (by rw [hg]; omega)).mpr hn
              exact h1done γ hγcur n hn1 hg e he
        | succ k =>
            have hk2 : (adAux rest (processLayer cur g l2 c).2.1
                (processLayer cur g l2 c).1
                (processLayer cur g l2 c).2.2).2.1[k]? = some lay := by
              simpa using hk
            rcases h2adj k lay hk2 γ hγ n hn hg e he with ⟨lay2, hlay2, hmem⟩
            exact ⟨lay2, by simpa using hlay2, hmem⟩
      · intro n2 hn2
        rcases h2pins n2 hn2 with ⟨n1p, hn1p, hgeq, hinp, houtp⟩ | hlen
        · rcases h1pins n1p hn1p with ⟨n1, hn1, ha, hb3, hc3⟩ | hlen1
          · exact Or.inl ⟨n1, hn1, by rw [ha, hgeq], by rw [hb3, hinp],
              by rw [hc3, houtp]⟩
          · exact Or.inr ⟨by rw [← hinp]; exact hlen1.1, by rw [← houtp]; exact hlen1.2⟩
        · exact Or.inr hlen
      · intro n hnin hlt
        rw [hflat] at hnin
        have h1notcur : n.guid ∉ cur := fun hc2 =>
          hnin (List.mem_append.mpr (Or.inl hc2))
        have h1notl2 : n.guid ∉ l2 := fun hc2 =>
          hnin (List.mem_append.mpr (Or.inr (List.mem_append.mpr (Or.inl hc2))))
        have h1notrf : n.guid ∉ rest.flatten := fun hc2 =>
          hnin (List.mem_append.mpr (Or.inr (List.mem_append.mpr (Or.inr hc2))))
        have hrestq : ∀ q ∈ rest.enum, n.guid ∉ q.2 := by
          intro q hq hc2
          exact h1notrf (List.mem_flatten.mpr ⟨q.2, enum_snd_mem rest q hq, hc2⟩)
        have hnot2 : n.guid ∉ ((processLayer cur g l2 c).2.1 :: rest).flatten := by
          rw [List.flatten_cons, hds]
          intro hcc
          rcases List.mem_append.mp hcc with hcc | hcc
          · rcases List.mem_append.mp hcc with hcc | hcc
            · exact h1notl2 hcc
            · have := (hdsb n.guid hcc).1
              omega
          · exact h1notrf hcc
        exact (h1mem n h1notcur hlt hrestq).trans
          (h2mem n hnot2 (by omega))

/-- C3: after AddDummyNodes runs on the layered list of a layered graph in
    which every stored edge already points to a strictly later layer, every
    out edge of every node connects to a node in the immediately following
    layer (each edge spans exactly one rank boundary), and every synthetic
    node inserted has exactly one input pin and one output pin. -/
theorem addDummyNodes_spec (g : FGraph) (ll : List (List Nat)) (c : Nat)
    (hnd : GuidsNodup g) (hew : EdgesOwned g) (hcl : ClosedG g)
    (hop : OutPairsNodup g) (hnb : ∀ n ∈ g.nodes, n.guid < c)
    (hpb : EdgePinBound g c) (hfb : ∀ x ∈ ll.flatten, x < c)
    (hfn : ll.flatten.Nodup) (hfwd : Forward g ll) :
    Adjacent (addDummyNodes g ll c).1 (addDummyNodes g ll c).2 ∧
    (∀ n ∈ (addDummyNodes g ll c).1.nodes, n.guid ∉ g.nodes.map (·.guid) →
      n.inPins.length = 1 ∧ n.outPins.length = 1) := by
  cases ll with
  | nil =>
      constructor
      · intro k lay hk
        have h0 : (addDummyNodes g [] c).2 = [] := rfl
        rw [h0] at hk
        simp at hk
      · intro n hn hnot
        exact absurd (List.mem_map_of_mem _ hn) hnot
  | cons l1 rest =>
      have hs : SInv g [] c := ⟨hnd, hew, hcl, hop, hnb, hpb, by simp, List.nodup_nil⟩
      have hmaster := adAux_master rest l1 g c hs hfb hfn hfwd
      have hunf : addDummyNodes g (l1 :: rest) c =
          ((adAux rest l1 g c).1, (adAux rest l1 g c).2.1) := rfl
      rw [hunf]
      refine ⟨hmaster.2.1, ?_⟩
      intro n hn hnot
      rcases hmaster.2.2.1 n hn with ⟨n1, hn1, hgeq, _, _⟩ | hlen
      · exact absurd (hgeq ▸ List.mem_map_of_mem _ hn1) hnot
      · exact hlen

theorem lmAux_spec : ∀ (m : List (Nat × ℚ)) (acc : ℚ),
    lmAux m acc ≤ acc ∧ (∀ p ∈ m, lmAux m acc ≤ p.2) ∧
    (lmAux m acc = acc ∨ ∃ p ∈ m, lmAux m acc = p.2) := by
  intro m
  induction m with
  | nil =>
      intro acc
      exact ⟨le_rfl, fun p hp => absurd hp (List.not_mem_nil _), Or.inl rfl⟩
  | cons q t ih =>
      intro acc
      have hunf : lmAux (q :: t) acc = lmAux t (if q.2 < acc then q.2 else acc) := rfl
      rw [hunf]
      by_cases hc : q.2 < acc
      · rw [if_pos hc]
        rcases ih q.2 with ⟨h1, h2, h3⟩
        refine ⟨le_trans h1 (le_of_lt hc), ?_, ?_⟩
        · intro p hp
          rcases List.mem_cons.mp hp with rfl | hp2
          · exact h1
          · exact h2 p hp2
        · rcases h3 with h | ⟨p, hp, he⟩
          · exact Or.inr ⟨q, List.mem_cons_self _ _, h⟩
          · exact Or.inr ⟨p, List.mem_cons_of_mem _ hp, he⟩
      · rw [if_neg hc]
        push_neg at hc
        rcases ih acc with ⟨h1, h2, h3⟩
        refine ⟨h1, ?_, ?_⟩
        · intro p hp
          rcases List.mem_cons.mp hp with rfl | hp2
          · exact le_trans h1 hc
          · exact h2 p hp2
        · rcases h3 with h | ⟨p, hp, he⟩
          · exact Or.inl h
          · exact Or.inr ⟨p, List.mem_cons_of_mem _ hp, he⟩

theorem rmAux_spec : ∀ (m : List (Nat × ℚ)) (acc : ℚ),
    acc ≤ rmAux m acc ∧ (∀ p ∈ m, p.2 ≤ rmAux m acc) ∧
    (rmAux m acc = acc ∨ ∃ p ∈ m, rmAux m acc = p.2) := by
  intro m
  induction m with
  | nil =>
      intro acc
      exact ⟨le_rfl, fun p hp => absurd hp (List.not_mem_nil _), Or.inl rfl⟩
  | cons q t ih =>
      intro acc
      have hunf : rmAux (q :: t) acc = rmAux t (if acc < q.2 then q.2 else acc) := rfl
      rw [hunf]
      by_cases hc : acc < q.2
      · rw [if_pos hc]
        rcases ih q.2 with ⟨h1, h2, h3⟩
        refine ⟨le_trans (le_of_lt hc) h1, ?_, ?_⟩
        · intro p hp
          rcases List.mem_cons.mp hp with rfl | hp2
          · exact h1
          · exact h2 p hp2
        · rcases h3 with h | ⟨p, hp, he⟩
          · exact Or.inr ⟨q, List.mem_cons_self _ _, h⟩
          · exact Or.inr ⟨p, List.mem_cons_of_mem _ hp, he⟩
      · rw [if_neg hc]
        push_neg at hc
        rcases ih acc with ⟨h1, h2, h3⟩
        refine ⟨h1, ?_, ?_⟩
        · intro p hp
          rcases List.mem_cons.mp hp with rfl | hp2
          · exact le_trans hc h1
          · exact h2 p hp2
        · rcases h3 with h | ⟨p, hp, he⟩
          · exact Or.inl h
          · exact Or.inr ⟨p, List.mem_cons_of_mem _ hp, he⟩

theorem leftMost_attained (m : List (Nat × ℚ)) (hne : m ≠ [])
    (hvb : ∀ p ∈ m, p.2 < FLT_MAX_Q) : ∃ p ∈ m, leftMost m = p.2 := by
  rcases lmAux_spec m FLT_MAX_Q with ⟨_, h2, h3⟩
  rcases h3 with h | h
  · exfalso
    rcases List.exists_mem_of_ne_nil m hne with ⟨p, hp⟩
    have := h2 p hp
    have := hvb p hp
    rw [h] at *
    linarith
  · exact h

theorem rightMost_attained (m : List (Nat × ℚ)) (hne : m ≠ [])
    (hvb : ∀ p ∈ m, -FLT_MAX_Q < p.2) : ∃ p ∈ m, rightMost m = p.2 := by
  rcases rmAux_spec m (-FLT_MAX_Q) with ⟨_, h2, h3⟩
  rcases h3 with h | h
  · exfalso
    rcases List.exists_mem_of_ne_nil m hne with ⟨p, hp⟩
    have := h2 p hp
    have := hvb p hp
    rw [h] at *
    linarith
  · exact h

theorem leftMost_shift (m : List (Nat × ℚ)) (off : ℚ) (hne : m ≠ [])
    (hvb : ∀ p ∈ m, p.2 < FLT_MAX_Q) (hvb2 : ∀ p ∈ m, p.2 + off < FLT_MAX_Q) :
    leftMost (shiftMap off m) = leftMost m + off := by
  have hne2 : shiftMap off m ≠ [] := by
    intro h
    apply hne
    unfold shiftMap at h
    exact List.map_eq_nil_iff.mp h
  have hvb3 : ∀ p ∈ shiftMap off m, p.2 < FLT_MAX_Q := by
    intro p hp
    rcases List.mem_map.mp hp with ⟨q, hq, rfl⟩
    exact hvb2 q hq
  rcases leftMost_attained m hne hvb with ⟨p, hp, hpe⟩
  rcases leftMost_attained (shiftMap off m) hne2 hvb3 with ⟨p2, hp2, hpe2⟩
  rcases lmAux_spec m FLT_MAX_Q with ⟨_, hmin1, _⟩
  rcases lmAux_spec (shiftMap off m) FLT_MAX_Q with ⟨_, hmin2, _⟩
  apply le_antisymm
  · have hmem : ((p.1, p.2 + off) : Nat × ℚ) ∈ shiftMap off m :=
      List.mem_map.mpr ⟨p, hp, rfl⟩
    have := hmin2 _ hmem
    rw [← hpe] at this
    exact this
  · rcases List.mem_map.mp hp2 with ⟨q, hq, rfl⟩
    rw [hpe2]
    show leftMost m + off ≤ q.2 + off
    have h9 : leftMost m ≤ q.2 := hmin1 q hq
    linarith

theorem mwAux_spec : ∀ (t : List (List (Nat × ℚ))) (bi : Int) (bw : ℚ) (i : Int),
    (mwAux t bi bw i).2 ≤ bw ∧
    (∀ l ∈ t, (mwAux t bi bw i).2 ≤ rightMost l - leftMost l) ∧
    ((mwAux t bi bw i).1 = bi ∧ (mwAux t bi bw i).2 = bw ∨
      ∃ (k : Nat) (l : List (Nat × ℚ)), t[k]? = some l ∧
        (mwAux t bi bw i).1 = i + k ∧
        (mwAux t bi bw i).2 = rightMost l - leftMost l) := by
  intro t
  induction t with
  | nil =>
      intro bi bw i
      exact ⟨le_rfl, fun l hl => absurd hl (List.not_mem_nil _), Or.inl ⟨rfl, rfl⟩⟩
  | cons l0 t2 ih =>
      intro bi bw i
      show (mwAux (l0 :: t2) bi bw i).2 ≤ bw ∧ _ ∧ _
      by_cases hc : rightMost l0 - leftMost l0 < bw
      · have hunf : mwAux (l0 :: t2) bi bw i =
            mwAux t2 i (rightMost l0 - leftMost l0) (i + 1) := by
          show (if rightMost l0 - leftMost l0 < bw then _ else _) = _
          rw [if_pos hc]
        rw [hunf]
        rcases ih i (rightMost l0 - leftMost l0) (i + 1) with ⟨h1, h2, h3⟩
        refine ⟨le_trans h1 (le_of_lt hc), ?_, ?_⟩
        · intro l hl
          rcases List.mem_cons.mp hl with rfl | hl2
          · exact h1
          · exact h2 l hl2
        · rcases h3 with ⟨ha, hb⟩ | ⟨k, l, hk, ha, hb⟩
          · exact Or.inr ⟨0, l0, by simp, by omega, hb⟩
          · exact Or.inr ⟨k + 1, l, by simpa using hk, by omega, hb⟩
      · have hunf : mwAux (l0 :: t2) bi bw i = mwAux t2 bi bw (i + 1) := by
          show (if rightMost l0 - leftMost l0 < bw then _ else _) = _
          rw [if_neg hc]
        rw [hunf]
        push_neg at hc
        rcases ih bi bw (i + 1) with ⟨h1, h2, h3⟩
        refine ⟨h1, ?_, ?_⟩
        · intro l hl
          rcases List.mem_cons.mp hl with rfl | hl2
          · exact le_trans h1 hc
          · exact h2 l hl2
        · rcases h3 with ⟨ha, hb⟩ | ⟨k, l, hk, ha, hb⟩
          · exact Or.inl ⟨ha, hb⟩
          · exact Or.inr ⟨k + 1, l, by simpa using hk, by omega, hb⟩

theorem minWidthIdx_spec (ls : List (List (Nat × ℚ)))
    (hw : ∃ l ∈ ls, rightMost l - leftMost l < FLT_MAX_Q) :
    ∃ (k : Nat) (l : List (Nat × ℚ)), ls[k]? = some l ∧ minWidthIdx ls = (k : Int) ∧
      layoutAt ls = l ∧
      ∀ l2 ∈ ls, rightMost l - leftMost l ≤ rightMost l2 - leftMost l2 := by
  rcases mwAux_spec ls (-1) FLT_MAX_Q 0 with ⟨h1, h2, h3⟩
  rcases h3 with ⟨_, hb⟩ | ⟨k, l, hk, ha, hb⟩
  · exfalso
    rcases hw with ⟨l, hl, hlw⟩
    have := h2 l hl
    rw [hb] at this
    linarith
  · refine ⟨k, l, hk, by unfold minWidthIdx; omega, ?_, ?_⟩
    · unfold layoutAt minWidthIdx
      rw [show ((mwAux ls (-1) FLT_MAX_Q 0).1).toNat = k by omega, hk]
      rfl
    · intro l2 hl2
      have := h2 l2 hl2
      rw [hb] at this
      exact this

theorem enum_layout_mem (ls : List (List (Nat × ℚ))) (p : Nat × List (Nat × ℚ))
    (hp : p ∈ ls.enum) : p.2 ∈ ls := by
  rw [List.mem_enum_iff_getElem?] at hp
  rcases List.getElem?_eq_some_iff.mp hp with ⟨hlt, hge⟩
  exact hge ▸ List.getElem_mem hlt

/-- C7: in Combine, the minimum width scan returns a valid index whose
    layout has minimal width, every layout after the offset pass has its
    leftmost coordinate equal to the minimum width layout leftmost
    coordinate, and for each node the combined coordinate is the mean of
    the two middle (Top method) respectively the two extreme (Median
    method) values of a sorted permutation of the four adjusted values. -/
theorem combine_spec (m0 m1 m2 m3 : List (Nat × ℚ))
    (hne0 : m0 ≠ []) (hne1 : m1 ≠ []) (hne2 : m2 ≠ []) (hne3 : m3 ≠ [])
    (hb : ∀ l ∈ [m0, m1, m2, m3], ∀ p ∈ l,
      -(FLT_MAX_Q / 4) < p.2 ∧ p.2 < FLT_MAX_Q / 4) :
    (∃ k : Nat, k < 4 ∧ minWidthIdx [m0, m1, m2, m3] = (k : Int) ∧
      ∀ l ∈ [m0, m1, m2, m3],
        rightMost (layoutAt [m0, m1, m2, m3]) -
          leftMost (layoutAt [m0, m1, m2, m3]) ≤ rightMost l - leftMost l) ∧
    (∀ l ∈ combineShift [m0, m1, m2, m3],
      leftMost l = leftMost (layoutAt [m0, m1, m2, m3])) ∧
    (∀ γ : Nat, ∃ v0 v1 v2 v3 : ℚ,
      List.Perm [v0, v1, v2, v3]
        ((combineShift [m0, m1, m2, m3]).map (fun l => lookupQ l γ)) ∧
      v0 ≤ v1 ∧ v1 ≤ v2 ∧ v2 ≤ v3 ∧
      combinedPos [m0, m1, m2, m3] true γ = (v1 + v2) / 2 ∧
      combinedPos [m0, m1, m2, m3] false γ = (v0 + v3) / 2) := by
  have hF : (0 : ℚ) < FLT_MAX_Q := by
    unfold FLT_MAX_Q
    positivity
  have hnel : ∀ l ∈ [m0, m1, m2, m3], l ≠ [] := by
    intro l hl
    simp only [List.mem_cons, List.mem_singleton] at hl
    rcases hl with rfl | rfl | rfl | hl
    · exact hne0
    · exact hne1
    · exact hne2
    · simp at hl
      rw [hl]
      exact hne3
  have hub : ∀ l ∈ [m0, m1, m2, m3], ∀ p ∈ l, p.2 < FLT_MAX_Q := by
    intro l hl p hp
    have := (hb l hl p hp).2
    linarith
  have hlb : ∀ l ∈ [m0, m1, m2, m3], ∀ p ∈ l, -FLT_MAX_Q < p.2 := by
    intro l hl p hp
    have := (hb l hl p hp).1
    linarith
  have hlrange : ∀ l ∈ [m0, m1, m2, m3],
      -(FLT_MAX_Q / 4) < leftMost l ∧ leftMost l < FLT_MAX_Q / 4 := by
    intro l hl
    rcases leftMost_attained l (hnel l hl) (hub l hl) with ⟨p, hp, hpe⟩
    rw [hpe]
    exact hb l hl p hp
  have hrrange : ∀ l ∈ [m0, m1, m2, m3],
      -(FLT_MAX_Q / 4) < rightMost l ∧ rightMost l < FLT_MAX_Q / 4 := by
    intro l hl
    rcases rightMost_attained l (hnel l hl) (hlb l hl) with ⟨p, hp, hpe⟩
    rw [hpe]
    exact hb l hl p hp
  have hwidth : ∀ l ∈ [m0, m1, m2, m3],
      rightMost l - leftMost l < FLT_MAX_Q := by
    intro l hl
    have h1 := hlrange l hl
    have h2 := hrrange l hl
    linarith
  rcases minWidthIdx_spec [m0, m1, m2, m3]
    ⟨m0, by simp, hwidth m0 (by simp)⟩ with ⟨k, l, hk, hidx, hlay, hmin⟩
  have hk4 : k < 4 := by
    have := (List.getElem?_eq_some_iff.mp hk).1
    simpa using this
  have hlmem : l ∈ [m0, m1, m2, m3] := by
    rcases List.getElem?_eq_some_iff.mp hk with ⟨hlt, hge⟩
    exact hge ▸ List.getElem_mem hlt
  refine ⟨⟨k, hk4, hidx, by rw [hlay]; exact hmin⟩, ?_, ?_⟩
  · intro l2 hl2
    rcases List.mem_map.mp hl2 with ⟨p, hp, hpe⟩
    have hpmem : p.2 ∈ [m0, m1, m2, m3] := enum_layout_mem _ p hp
    by_cases hcase : (p.1 : Int) = minWidthIdx [m0, m1, m2, m3]
    · have hl2e : l2 = p.2 := by
        rw [← hpe]
        simp [hcase]
      have hp1k : p.1 = k := by
        rw [hidx] at hcase
        omega
      have hp2l : p.2 = l := by
        rw [List.mem_enum_iff_getElem?] at hp
        rw [hp1k, hk] at hp
        exact (Option.some.injEq _ _ ▸ hp).symm
      rw [hl2e, hp2l, hlay]
    · have hl2e : l2 = shiftMap (leftMost (layoutAt [m0, m1, m2, m3]) - leftMost p.2) p.2 := by
        rw [← hpe]
        simp [hcase]
      have hminl : -(FLT_MAX_Q / 4) < leftMost (layoutAt [m0, m1, m2, m3]) ∧
          leftMost (layoutAt [m0, m1, m2, m3]) < FLT_MAX_Q / 4 := by
        rw [hlay]
        exact hlrange l hlmem
      have hplr := hlrange p.2 hpmem
      rw [hl2e, leftMost_shift p.2 _ (hnel p.2 hpmem) (hub p.2 hpmem) ?hsh]
      · ring
      case hsh =>
        intro q hq
        have := (hb p.2 hpmem q hq).2
        have h1 := hminl.1
        have h2 := hminl.2
        have h3 := hplr.1
        have h4 := hplr.2
        linarith
  · intro γ
    have hlen : ((combineShift [m0, m1, m2, m3]).map (fun l => lookupQ l γ)).length = 4 := by
      simp [combineShift]
    have hperm : (sortQ ((combineShift [m0, m1, m2, m3]).map (fun l => lookupQ l γ))).Perm
        ((combineShift [m0, m1, m2, m3]).map (fun l => lookupQ l γ)) :=
      List.perm_insertionSort _ _
    have hsort : List.Sorted (· ≤ ·)
        (sortQ ((combineShift [m0, m1, m2, m3]).map (fun l => lookupQ l γ))) :=
      List.sorted_insertionSort _ _
    have hlen2 : (sortQ ((combineShift [m0, m1, m2, m3]).map (fun l => lookupQ l γ))).length = 4 := by
      rw [hperm.length_eq, hlen]
    obtain ⟨v0, v1, v2, v3, he⟩ : ∃ a b c d,
        sortQ ((combineShift [m0, m1, m2, m3]).map (fun l => lookupQ l γ)) = [a, b, c, d] := by
      rcases hx : sortQ ((combineShift [m0, m1, m2, m3]).map (fun l => lookupQ l γ)) with
        _ | ⟨a, _ | ⟨b, _ | ⟨c, _ | ⟨d, _ | ⟨e, t⟩⟩⟩⟩⟩ <;>
        rw [hx] at hlen2
      · simp at hlen2
      · simp at hlen2
      · simp at hlen2
      · simp at hlen2
      · exact ⟨a, b, c, d, rfl⟩
      · simp at hlen2
    rw [he] at hperm hsort
    simp only [List.sorted_cons, List.mem_cons, List.mem_singleton] at hsort
    refine ⟨v0, v1, v2, v3, hperm, ?_, ?_, ?_, ?_, ?_⟩
    · exact hsort.1 v1 (Or.inl rfl)
    · exact hsort.2.1 v2 (Or.inl rfl)
    · exact hsort.2.2.1 v3 (Or.inl rfl)
    · have hcp : combinedPos [m0, m1, m2, m3] true γ =
          ((sortQ ((combineShift [m0, m1, m2, m3]).map (fun l => lookupQ l γ)))[1]?.getD 0 +
            (sortQ ((combineShift [m0, m1, m2, m3]).map (fun l => lookupQ l γ)))[2]?.getD 0) / 2 := rfl
      rw [hcp, he]
      simp
    · have hcp : combinedPos [m0, m1, m2, m3] false γ =
          ((sortQ ((combineShift [m0, m1, m2, m3]).map (fun l => lookupQ l γ)))[0]?.getD 0 +
            (sortQ ((combineShift [m0, m1, m2, m3]).map (fun l => lookupQ l γ)))[3]?.getD 0) / 2 := rfl
      rw [hcp, he]
      simp

theorem formatMultiGo_spec (spacing : ℚ) :
    ∀ (bs : List FRect) (t : FRect),
      (formatMultiGo spacing bs (some t) (some (t.offsetBy 0 spacing))).1.length
        = bs.length ∧
      (∀ (k : Nat) (b2 : FRect),
        (formatMultiGo spacing bs (some t) (some (t.offsetBy 0 spacing))).1[k]?
          = some b2 →
        (∃ b0, bs[k]? = some b0 ∧ ∃ dx dy, b2 = b0.offsetBy dx dy) ∧
        b2.top = (((formatMultiGo spacing bs (some t)
          (some (t.offsetBy 0 spacing))).1.take k).foldl FRect.expand t).bottom
            + spacing ∧
        b2.left = (((formatMultiGo spacing bs (some t)
          (some (t.offsetBy 0 spacing))).1.take k).foldl FRect.expand t).left) := by
  intro bs
  induction bs with
  | nil =>
      intro t
      have h0 : formatMultiGo spacing [] (some t) (some (t.offsetBy 0 spacing))
          = ([], some t) := rfl
      rw [h0]
      refine ⟨rfl, ?_⟩
      intro k b2 h
      simp at h
  | cons b rest ih =>
      intro t
      have hunf : formatMultiGo spacing (b :: rest) (some t)
          (some (t.offsetBy 0 spacing)) =
          (b.setTopLeft (t.offsetBy 0 spacing).left (t.offsetBy 0 spacing).bottom ::
            (formatMultiGo spacing rest
              (some (t.expand (b.setTopLeft (t.offsetBy 0 spacing).left
                (t.offsetBy 0 spacing).bottom)))
              (some ((t.expand (b.setTopLeft (t.offsetBy 0 spacing).left
                (t.offsetBy 0 spacing).bottom)).offsetBy 0 spacing))).1,
            (formatMultiGo spacing rest
              (some (t.expand (b.setTopLeft (t.offsetBy 0 spacing).left
                (t.offsetBy 0 spacing).bottom)))
              (some ((t.expand (b.setTopLeft (t.offsetBy 0 spacing).left
                (t.offsetBy 0 spacing).bottom)).offsetBy 0 spacing))).2) := rfl
      rw [hunf]
      rcases ih (t.expand (b.setTopLeft (t.offsetBy 0 spacing).left
        (t.offsetBy 0 spacing).bottom)) with ⟨ihlen, ihk⟩
      constructor
      · simp [ihlen]
      · intro k b2 hk
        cases k with
        | zero =>
            have hb2 : b2 = b.setTopLeft (t.offsetBy 0 spacing).left
                (t.offsetBy 0 spacing).bottom := by
              have h9 := hk
              simp at h9
              exact h9.symm
            subst hb2
            refine ⟨⟨b, by simp, ?_⟩, ?_, ?_⟩
            · exact ⟨(t.offsetBy 0 spacing).left - b.left,
                (t.offsetBy 0 spacing).bottom - b.top, rfl⟩
            · show (b.setTopLeft (t.offsetBy 0 spacing).left
                  (t.offsetBy 0 spacing).bottom).top
                = (List.foldl FRect.expand t []).bottom + spacing
              simp [FRect.setTopLeft, FRect.offsetBy]
            · show (b.setTopLeft (t.offsetBy 0 spacing).left
                  (t.offsetBy 0 spacing).bottom).left
                = (List.foldl FRect.expand t []).left
              simp [FRect.setTopLeft, FRect.offsetBy]
        | succ k =>
            have hk2 := hk
            rw [List.getElem?_cons_succ] at hk2
            rcases ihk k b2 hk2 with ⟨htr, htop, hleft⟩
            refine ⟨?_, ?_, ?_⟩
            · rcases htr with ⟨b0, hb0, hoff⟩
              exact ⟨b0, by simpa using hb0, hoff⟩
            · rw [List.take_succ_cons, List.foldl_cons]
              exact htop
            · rw [List.take_succ_cons, List.foldl_cons]
              exact hleft

/-- C8: in the multi component branch of Format, one placed bound is
    produced per component, the first component keeps its own bound, every
    placed bound is a pure translate of the component bound, and every
    later component is placed with its top edge exactly VerticalSpacing
    below the bottom of the union bound of all earlier placed components
    and with the same left edge (so the vertical separation from the union
    bound of the earlier components is the configured spacing). -/
theorem format_components_spec (spacing : ℚ) (bs : List FRect) :
    (formatMulti spacing bs).1.length = bs.length ∧
    (formatMulti spacing bs).1[0]? = bs[0]? ∧
    (∀ (k : Nat) (b2 : FRect), (formatMulti spacing bs).1[k]? = some b2 →
      ∃ b0, bs[k]? = some b0 ∧ ∃ dx dy, b2 = b0.offsetBy dx dy) ∧
    (∀ (k : Nat) (b2 : FRect), (formatMulti spacing bs).1[k + 1]? = some b2 →
      ∃ t, unionBound ((formatMulti spacing bs).1.take (k + 1)) = some t ∧
        b2.top = t.bottom + spacing ∧ b2.left = t.left) := by
  cases bs with
  | nil =>
      have h0 : formatMulti spacing [] = ([], none) := rfl
      rw [h0]
      refine ⟨rfl, by simp, ?_, ?_⟩
      · intro k b2 h
        simp at h
      · intro k b2 h
        simp at h
  | cons b rest =>
      have hunf : formatMulti spacing (b :: rest) =
          (b :: (formatMultiGo spacing rest (some b) (some (b.offsetBy 0 spacing))).1,
            (formatMultiGo spacing rest (some b) (some (b.offsetBy 0 spacing))).2) := rfl
      rw [hunf]
      rcases formatMultiGo_spec spacing rest b with ⟨hlen, hk⟩
      refine ⟨by simp [hlen], by simp, ?_, ?_⟩
      · intro k b2 hkk
        cases k with
        | zero =>
            have hb2 : b2 = b := by
              have h9 := hkk
              simp at h9
              exact h9.symm
            subst hb2
            exact ⟨b2, by simp, 0, 0, by show b2 = ⟨b2.left + 0, b2.top + 0,
              b2.right + 0, b2.bottom + 0⟩; cases b2; simp⟩
        | succ k =>
            have hk2 := hkk
            rw [List.getElem?_cons_succ] at hk2
            rcases hk k b2 hk2 with ⟨⟨b0, hb0, hoff⟩, _, _⟩
            exact ⟨b0, by simpa using hb0, hoff⟩
      · intro k b2 hkk
        have hk2 := hkk
        rw [List.getElem?_cons_succ] at hk2
        rcases hk k b2 hk2 with ⟨_, htop, hleft⟩
        refine ⟨((formatMultiGo spacing rest (some b)
          (some (b.offsetBy 0 spacing))).1.take k).foldl FRect.expand b, ?_, htop, hleft⟩
        rw [List.take_succ_cons]
        rfl

/-- Witness for C7 at four concrete one node layouts. -/
theorem combine_spec_witness :
    ∃ v0 v1 v2 v3 : ℚ,
      List.Perm [v0, v1, v2, v3]
        ((combineShift [[((1 : Nat), (0 : ℚ))], [(1, 2)], [(1, 4)], [(1, 6)]]).map
          (fun l => lookupQ l 1)) ∧
      v0 ≤ v1 ∧ v1 ≤ v2 ∧ v2 ≤ v3 ∧
      combinedPos [[((1 : Nat), (0 : ℚ))], [(1, 2)], [(1, 4)], [(1, 6)]] true 1 =
        (v1 + v2) / 2 ∧
      combinedPos [[((1 : Nat), (0 : ℚ))], [(1, 2)], [(1, 4)], [(1, 6)]] false 1 =
        (v0 + v3) / 2 :=
  (combine_spec [((1 : Nat), (0 : ℚ))] [(1, 2)] [(1, 4)] [(1, 6)]
    (List.cons_ne_nil _ _) (List.cons_ne_nil _ _) (List.cons_ne_nil _ _)
    (List.cons_ne_nil _ _)
    (by
      intro l hl p hp
      fin_cases hl <;> fin_cases hp <;> constructor <;> norm_num [FLT_MAX_Q])).2.2 1

/-- Witness for C3 at the concrete two layer graph with fresh counter
    1000. -/
theorem addDummyNodes_spec_witness :
    Adjacent (addDummyNodes ordG ordLL 1000).1 (addDummyNodes ordG ordLL 1000).2 :=
  (addDummyNodes_spec ordG ordLL 1000 (by decide) (by decide) (by decide)
    (by decide) (by decide) (by decide) (by decide) (by decide) (by decide)).1

end GraphFormatter
